import Mathlib

/-!
PSDCodes: the pulse-shape routines of `main.cpp`.

A shallow embedding of the waveform routines of `src/main.cpp` and the
properties of them that were checked.

Conventions of the embedding.

* A `double` is a rational number: all arithmetic is exact.  The literal
  `0.8` is `4/5`, `5.1` is `51/10`.
* `abs` on a `double` is the absolute value of that `double` (the
  `std::abs(double)` overload).
* An input file is the list of the amplitudes that `f_in >> time >> height`
  (or `f_in >> height`) reads successfully, in order; the time column is
  never used by the routines.
* The output file is the list of the records appended to it, in order; the
  output file is taken to be open.
* `wSize`, `baseLEnd` and loop indices are natural numbers.
* A vector read `wave[i]` with `i` past the end of the vector is undefined
  behaviour in C++.  The value such a read yields is an explicit parameter
  `oob i` of the model; nothing is assumed about it.  For the read
  `wave[sampleNo]` of `PGA`, whose `int` index is an argument of the routine
  and may be negative or far from the frame, the model `PGAInt` has the
  outcome of the read as a parameter `mem`: a word, or a trap that kills the
  program.
* `lowTime` and `highTime` are declared once per routine, outside the
  reading loop, and are not initialised: they are state carried from one
  frame to the next, with an arbitrary initial value.
* The counters are natural numbers.  A product of two `int`s is taken
  modulo 2^32 (`wrapInt32`); a product of an `int` and a `double` is exact.
* `sqrt`, `atan` and the macro `M_PI` are parameters of the definitions that
  use them; the theorems instantiate them with the real square root, the
  real arctangent and the number π.
-/

namespace PSD

/-! ## Constants -/

/-- Source line 14: `#define EJ426DETX 50`, centimetres. -/
def EJ426DETX : ℚ := 50

/-- Source line 15: `#define EJ426DETY 5.1`, centimetres. -/
def EJ426DETY : ℚ := 51 / 10

/-! ## Utilities (source lines 28-56) -/

/-- Source `maxModVal`: `output` starts at `input[0]` and is replaced by
`input[i]` whenever `abs(input[i]) > abs(output)`; `0` on an empty vector. -/
def maxModVal (input : List ℚ) : ℚ :=
  match input with
  | [] => 0
  | x :: _ => input.foldl (fun output v => if |v| > |output| then v else output) x

/-- Source `modMaxModVal`: `output` starts at `input[0]` (not its modulus)
and is replaced by `abs(input[i])` whenever `abs(input[i]) > abs(output)`;
`0` on an empty vector. -/
def modMaxModVal (input : List ℚ) : ℚ :=
  match input with
  | [] => 0
  | x :: _ => input.foldl (fun output v => if |v| > |output| then |v| else output) x

/-- The read `wave[i]`: the stored sample when `i` is inside the vector, the
unspecified memory content `oob i` when it is past the end. -/
def rd (oob : ℕ → ℚ) (wave : List ℚ) (i : ℕ) : ℚ :=
  wave.getD i (oob i)

/-! ## The reading loop shared by the frame-consuming routines

```
f_in >> time >> height;
while(f_in){
    if(counter<wSize){ wave.push_back(height); counter++; }
    else { ...process wave...; wave.clear(); counter = 0; }
    f_in >> time >> height;
}
```
-/

/-- The reading loop, over the amplitudes still to be read.  `counter` and
`wave` are the loop variables, `s` is whatever the frame body updates.  The
amplitude read in the iteration that runs the frame body is not pushed. -/
def frameLoop {σ : Type} (wSize : ℕ) (process : σ → List ℚ → σ) :
    ℕ → List ℚ → σ → List ℚ → σ
  | _, _, s, [] => s
  | counter, wave, s, height :: rest =>
    if counter < wSize then
      frameLoop wSize process (counter + 1) (wave ++ [height]) s rest
    else
      frameLoop wSize process 0 [] (process s wave) rest

/-- The frames on which the reading loop runs its frame body, in order. -/
def frames (wSize : ℕ) (input : List ℚ) : List (List ℚ) :=
  frameLoop wSize (fun acc wave => acc ++ [wave]) 0 [] [] input

/-- Source `numWaves` (lines 58-86): the frame body is `numWaves++`. -/
def numWaves (wSize : ℕ) (input : List ℚ) : ℕ :=
  frameLoop wSize (fun n _ => n + 1) 0 [] 0 input

/-! ## Baseline (source lines 172-180 and 372-380) -/

/-- The baseline loop of `baselineAdjust`, `peakTailIntegrate`,
`totalIntVsWidth`, `PGA`: `basel += wave[i]/baseLEnd` for `i < baseLEnd`. -/
def baselDiv (oob : ℕ → ℚ) (wave : List ℚ) (baseLEnd : ℕ) : ℚ :=
  (List.range baseLEnd).foldl (fun basel i => basel + rd oob wave i / (baseLEnd : ℚ)) 0

/-- The baseline of `Widths`: `basel += wave[i]` for `i < baseLEnd`, then
`basel = basel/baseLEnd`. -/
def baselSum (oob : ℕ → ℚ) (wave : List ℚ) (baseLEnd : ℕ) : ℚ :=
  (List.range baseLEnd).foldl (fun basel i => basel + rd oob wave i) 0 / (baseLEnd : ℚ)

/-- The subtraction loop `wave[i] -= basel` for `i < wave.size()`. -/
def subtractBasel (wave : List ℚ) (basel : ℚ) : List ℚ :=
  wave.map (fun x => x - basel)

/-- The frame body of `baselineAdjust` up to the write: the frame after its
baseline has been subtracted. -/
def baselineAdjustFrame (oob : ℕ → ℚ) (baseLEnd : ℕ) (wave : List ℚ) : List ℚ :=
  subtractBasel wave (baselDiv oob wave baseLEnd)

/-- Source `baselineAdjust` (lines 147-198): the lines `i wave[i]` written
for every frame. -/
def baselineAdjust (oob : ℕ → ℚ) (wSize baseLEnd : ℕ) (input : List ℚ) : List (ℕ × ℚ) :=
  frameLoop wSize (fun out wave => out ++ (baselineAdjustFrame oob baseLEnd wave).enum)
    0 [] [] input

/-! ## Widths (source lines 349-414) -/

/-- The two scan results of `Widths`, kept from one frame to the next. -/
structure ScanState where
  lowTime : ℤ
  highTime : ℤ
  deriving DecidableEq

/-- The forward scan `for (int i=0; i<wave.size(); ++i)`: the first index
met with `abs(wave[i]) > threshold*abs(maxVal)`, if the loop breaks.  The
second argument is the index of the head of the list. -/
def scanLow (threshold maxVal : ℚ) : List ℚ → ℕ → Option ℕ
  | [], _ => none
  | x :: xs, i =>
    if |x| > threshold * |maxVal| then some i else scanLow threshold maxVal xs (i + 1)

/-- The backward scan `for (int i=wSize; i>0; --i)`, entered at `i`: the
first index met with `abs(wave[i]) > threshold*abs(maxVal)`, if the loop
breaks.  The first read is `wave[wSize]`. -/
def scanHigh (oob : ℕ → ℚ) (threshold maxVal : ℚ) (wave : List ℚ) : ℕ → Option ℕ
  | 0 => none
  | i + 1 =>
    if |rd oob wave (i + 1)| > threshold * |maxVal| then some (i + 1)
    else scanHigh oob threshold maxVal wave i

/-- The frame of `Widths` after the baseline subtraction. -/
def widthsAdjusted (oob : ℕ → ℚ) (baseLEnd : ℕ) (wave : List ℚ) : List ℚ :=
  subtractBasel wave (baselSum oob wave baseLEnd)

/-- The scans of the frame body of `Widths`: `lowTime` and `highTime` after
the two loops; a loop that does not break leaves its variable as it was. -/
def widthsScan (threshold : ℚ) (wSize baseLEnd : ℕ) (oob : ℕ → ℚ) (st : ScanState)
    (wave : List ℚ) : ScanState :=
  let adjusted := widthsAdjusted oob baseLEnd wave
  let maxVal := maxModVal adjusted
  { lowTime :=
      match scanLow threshold maxVal adjusted 0 with
      | some i => (i : ℤ)
      | none => st.lowTime
    highTime :=
      match scanHigh oob threshold maxVal adjusted wSize with
      | some i => (i : ℤ)
      | none => st.highTime }

/-- The test `(width < 0.8*wSize)&&(width>0.0)` on the `int` width. -/
def widthValid (wSize : ℕ) (width : ℤ) : Prop :=
  (width : ℚ) < 4 / 5 * (wSize : ℚ) ∧ (width : ℚ) > 0

instance widthValidDecidable (wSize : ℕ) (width : ℤ) : Decidable (widthValid wSize width) :=
  inferInstanceAs (Decidable (_ ∧ _))

/-- The frame body of `Widths`: the scan state after the frame and the
output file after the frame. -/
def widthsProcess (threshold : ℚ) (wSize baseLEnd : ℕ) (oob : ℕ → ℚ)
    (s : ScanState × List ℤ) (wave : List ℚ) : ScanState × List ℤ :=
  let st := widthsScan threshold wSize baseLEnd oob s.1 wave
  let width := st.highTime - st.lowTime
  (st, if widthValid wSize width then s.2 ++ [width] else s.2)

/-- Source `Widths`: the widths written to the output file.  `init` holds
the uninitialised `lowTime` and `highTime`. -/
def Widths (threshold : ℚ) (wSize baseLEnd : ℕ) (oob : ℕ → ℚ) (init : ScanState)
    (input : List ℚ) : List ℤ :=
  (frameLoop wSize (widthsProcess threshold wSize baseLEnd oob) 0 [] (init, []) input).2

/-! ## Derived quantities (source lines 966-1019) -/

/-- The counters of `printWidthsDerivedQuantities`. -/
structure Counts where
  numRejections : ℕ
  numNeutrons : ℕ
  total : ℕ
  deriving DecidableEq

/-- One iteration of the counting loop (lines 979-988): the test is
`(!(inVal<lowThreshold))&&(!(inVal>highThreshold))`. -/
def countStep (lowThreshold highThreshold : ℚ) (c : Counts) (inVal : ℚ) : Counts :=
  if (¬ (inVal < lowThreshold)) ∧ (¬ (inVal > highThreshold)) then
    { c with numNeutrons := c.numNeutrons + 1, total := c.total + 1 }
  else
    { c with numRejections := c.numRejections + 1, total := c.total + 1 }

/-- The counting loop of `printWidthsDerivedQuantities` over the values of
the widths file. -/
def countWidths (lowThreshold highThreshold : ℚ) (vals : List ℚ) : Counts :=
  vals.foldl (countStep lowThreshold highThreshold) ⟨0, 0, 0⟩

/-- Lines 992-993: `AT = EJ426DETY*EJ426DETX*time; flux = numNeutrons/AT`. -/
def flux (numNeutrons : ℕ) (time : ℚ) : ℚ :=
  (numNeutrons : ℚ) / (EJ426DETY * EJ426DETX * time)

/-- The flux `printWidthsDerivedQuantities` prints for a widths file. -/
def printedFlux (lowThreshold highThreshold time : ℚ) (vals : List ℚ) : ℚ :=
  flux (countWidths lowThreshold highThreshold vals).numNeutrons time

/-! ## Errors of the derived quantities (source lines 19-20, 991-1000)

The library function `sqrt` is a parameter of the definitions that call it;
its argument is a rational number, its result lives in a field `K`.  The
theorems take `K` to be the real numbers and `sqrt` the real square root. -/

/-- Source line 17: `#define DETY 5.4`, centimetres. -/
def DETY : ℚ := 27 / 5

/-- Source line 18: `#define DETZ 2.35`, centimetres. -/
def DETZ : ℚ := 47 / 20

/-- Source line 19: `#define DETAREAERROR 0.5`. -/
def DETAREAERROR : ℚ := 1 / 2

/-- Source line 20: `#define TIMEERR 0.5`. -/
def TIMEERR : ℚ := 1 / 2

/-- The value an `int` expression takes when its exact value is `z`: the
32-bit two-complement representative.  Signed overflow is undefined
behaviour in C++; this is what the usual targets compute. -/
def wrapInt32 (z : ℤ) : ℤ :=
  (z + 2147483648) % 4294967296 - 2147483648

/-- The argument of `sqrt` in `fluxError` (lines 994-996), with the two
error constants as parameters.  `numNeutrons*numNeutrons` is a product of two
`int`s, formed before the multiplication by the `double` constant. -/
def fluxErrorArgWith (areaErr timeErr : ℚ) (numNeutrons : ℕ) (time : ℚ) : ℚ :=
  let A := EJ426DETY * EJ426DETX
  let AT := EJ426DETY * EJ426DETX * time
  (numNeutrons : ℚ) / (AT * AT)
    + ((wrapInt32 ((numNeutrons : ℤ) * (numNeutrons : ℤ)) : ℤ) : ℚ) * areaErr * areaErr
        / (AT * AT * A * A)
    + ((wrapInt32 ((numNeutrons : ℤ) * (numNeutrons : ℤ)) : ℤ) : ℚ) * timeErr * timeErr
        / (AT * AT * time * time)

/-- The argument of `sqrt` in `fluxError` with the constants of the source. -/
def fluxErrorArg (numNeutrons : ℕ) (time : ℚ) : ℚ :=
  fluxErrorArgWith DETAREAERROR TIMEERR numNeutrons time

/-- Lines 994-996: `fluxError = sqrt(...)`. -/
def fluxError {K : Type} [Field K] (sqrt : K → K) (numNeutrons : ℕ) (time : ℚ) : K :=
  sqrt ((fluxErrorArg numNeutrons time : ℚ) : K)

/-- The argument of `sqrt` in the four rate errors (lines 997-1000):
`count*(1+count*TIMEERR*TIMEERR/(time*time))`; `count*TIMEERR` is already a
`double` product. -/
def rateErrArg (count : ℕ) (time : ℚ) : ℚ :=
  (count : ℚ) * (1 + (count : ℚ) * TIMEERR * TIMEERR / (time * time))

/-- Line 997: `neutRateErr = sqrt(...)/time`. -/
def neutRateErr {K : Type} [Field K] (sqrt : K → K) (numNeutrons : ℕ) (time : ℚ) : K :=
  sqrt ((rateErrArg numNeutrons time : ℚ) : K) / (time : K)

/-- Line 998: `nonNeutRateErr = sqrt(...)/time`, on `numRejections`. -/
def nonNeutRateErr {K : Type} [Field K] (sqrt : K → K) (numRejections : ℕ) (time : ℚ) : K :=
  sqrt ((rateErrArg numRejections time : ℚ) : K) / (time : K)

/-- Line 999: `neutRateHrErr = sqrt(...)*3600/time`. -/
def neutRateHrErr {K : Type} [Field K] (sqrt : K → K) (numNeutrons : ℕ) (time : ℚ) : K :=
  sqrt ((rateErrArg numNeutrons time : ℚ) : K) * 3600 / (time : K)

/-- Line 1000: `nonNeutRateHrErr = sqrt(...)*3600/time`, on `numRejections`. -/
def nonNeutRateHrErr {K : Type} [Field K] (sqrt : K → K) (numRejections : ℕ) (time : ℚ) : K :=
  sqrt ((rateErrArg numRejections time : ℚ) : K) * 3600 / (time : K)

/-- The closed form of the flux error as the specification writes it, read
with the ordinary precedence of `/` and `*`:
`N/(A*T)^2 + N^2*AREA_ERR^2/(A*T)^4*A^2 + N^2*TIME_ERR^2/(A*T)^4*T^2`
(the argument of the square root). -/
def specFluxErrorArg (A areaErr timeErr : ℚ) (N : ℕ) (T : ℚ) : ℚ :=
  (N : ℚ) / (A * T) ^ 2
    + (N : ℚ) ^ 2 * areaErr ^ 2 / (A * T) ^ 4 * A ^ 2
    + (N : ℚ) ^ 2 * timeErr ^ 2 / (A * T) ^ 4 * T ^ 2

/-! ## Figure of merit (source lines 88-96) -/

/-- Line 91: `figure = X/(W_a+W_b)`. -/
def FoMFigure (X W_a W_b : ℚ) : ℚ :=
  X / (W_a + W_b)

/-- The argument of `sqrt` in `dFoM` (lines 92-94). -/
def FoMErrArg (X dX W_a dW_a W_b dW_b : ℚ) : ℚ :=
  dX * dX / ((W_a + W_b) * (W_a + W_b))
    + (X * dW_a / ((W_a + W_b) * (W_a + W_b))) * (X * dW_a / ((W_a + W_b) * (W_a + W_b)))
    + (X * dW_b / ((W_a + W_b) * (W_a + W_b))) * (X * dW_b / ((W_a + W_b) * (W_a + W_b)))

/-- Source `FoM`: the two numbers it prints, `figure` and `dFoM`. -/
def FoM {K : Type} [Field K] (sqrt : K → K) (X dX W_a dW_a W_b dW_b : ℚ) : ℚ × K :=
  (FoMFigure X W_a W_b, sqrt ((FoMErrArg X dX W_a dW_a W_b dW_b : ℚ) : K))

/-! ## Efficiencies (source lines 1088-1150)

`atan` and the macro `M_PI` are parameters like `sqrt`; the theorems take
the real arctangent and the number π. -/

/-- The orientation tag `horizontal`. -/
def horizontal : String := "horizontal"

/-- The orientation tag `vertical`. -/
def vertical : String := "vertical"

/-- The counting loop of `widthDerivedNeutronRateVal` (lines 1098-1104):
only `numNeutrons` is kept. -/
def countNeutrons (lowThreshold highThreshold : ℚ) (vals : List ℚ) : ℕ :=
  vals.foldl
    (fun numNeutrons inVal =>
      if (¬ (inVal < lowThreshold)) ∧ (¬ (inVal > highThreshold)) then numNeutrons + 1
      else numNeutrons) 0

/-- Source `widthDerivedNeutronRateVal`: `return numNeutrons/time`. -/
def widthDerivedNeutronRateVal (lowThreshold highThreshold time : ℚ) (vals : List ℚ) : ℚ :=
  (countNeutrons lowThreshold highThreshold vals : ℚ) / time

/-- Lines 1127-1133: `detectorWidth`, chosen by the orientation. -/
def detectorWidth (orientation : String) : ℚ :=
  if orientation = horizontal then DETZ / 100 else DETY / 100

/-- Lines 1127-1133: `detectorDepth`, chosen by the orientation. -/
def detectorDepth (orientation : String) : ℚ :=
  if orientation = horizontal then DETY / 100 else DETZ / 100

/-- Lines 1134-1135: `trueDistance = distanceInMetres + detectorDepth/2`. -/
def trueDistance (orientation : String) (distanceInMetres : ℚ) : ℚ :=
  distanceInMetres + detectorDepth orientation / 2

/-- Lines 1136-1138: `solidAngle`.  `EJ426DETX` stands where the formula has
the length of the detector. -/
def solidAngle {K : Type} [Field K] (sqrt atan : K → K) (orientation : String)
    (distanceInMetres : ℚ) : K :=
  4 * atan (((detectorWidth orientation * EJ426DETX : ℚ) : K)
    / (4 * ((trueDistance orientation distanceInMetres : ℚ) : K)
        * sqrt ((detectorWidth orientation * detectorWidth orientation / 4
            + EJ426DETX * EJ426DETX / 4
            + trueDistance orientation distanceInMetres
              * trueDistance orientation distanceInMetres : ℚ) : K)))

/-- Source `WidthsDerivedEfficiencies`.  `out` is the output file before the
call.  The result is the flag of the fatal exit `exit(1)` and the output file
after the call; a line is the pair `absoluteEfficiency intrinsicEfficiency`
(the file name that precedes them is left out). -/
def WidthsDerivedEfficiencies {K : Type} [Field K] (sqrt atan : K → K) (M_PI : K)
    (out : List (K × K)) (orientation : String)
    (distanceInMetres sourceActivity lowThreshold highThreshold time : ℚ)
    (vals : List ℚ) : Bool × List (K × K) :=
  if (¬ (orientation = horizontal)) ∧ (¬ (orientation = vertical)) then
    (true, out)
  else
    let neutronRate := widthDerivedNeutronRateVal lowThreshold highThreshold time vals
    let absoluteEfficiency : ℚ := neutronRate / sourceActivity
    let intrinsicEfficiency : K :=
      (absoluteEfficiency : K) * 4 * M_PI / solidAngle sqrt atan orientation distanceInMetres
    (false, out ++ [((absoluteEfficiency : K), intrinsicEfficiency)])

/-! ## Integrals (source lines 212-269, 277-342, 461-532, 603-649) -/

/-- The integration loop of `peakTailIntegrate` (lines 246-253) over the
frame after subtraction: `peak` and `tail`. -/
def peakTailSplit (peakXValue tailEndXVal : ℕ) (wave : List ℚ) : ℚ × ℚ :=
  wave.enum.foldl
    (fun (pt : ℚ × ℚ) (iw : ℕ × ℚ) =>
      if iw.1 < peakXValue then (pt.1 + iw.2, pt.2)
      else if iw.1 > peakXValue ∧ iw.1 < tailEndXVal then (pt.1, pt.2 + iw.2)
      else pt)
    (0, 0)

/-- The frame body of `peakTailIntegrate`: the record `peak tail`.  The
subtraction loop runs to `wSize`, the size of the frame. -/
def peakTailFrame (oob : ℕ → ℚ) (baseLEnd peakXValue tailEndXVal : ℕ) (wave : List ℚ) :
    ℚ × ℚ :=
  peakTailSplit peakXValue tailEndXVal (baselineAdjustFrame oob baseLEnd wave)

/-- Source `peakTailIntegrate`: the records written. -/
def peakTailIntegrate (oob : ℕ → ℚ) (wSize baseLEnd peakXValue tailEndXVal : ℕ)
    (input : List ℚ) : List (ℚ × ℚ) :=
  frameLoop wSize
    (fun out wave => out ++ [peakTailFrame oob baseLEnd peakXValue tailEndXVal wave])
    0 [] [] input

/-- The loop `for (int i=wStart; i<wEnd; ++i) totalInt += wave[i]`. -/
def windowIntegral (oob : ℕ → ℚ) (wave : List ℚ) (wStart wEnd : ℕ) : ℚ :=
  (List.range' wStart (wEnd - wStart)).foldl (fun totalInt i => totalInt + rd oob wave i) 0

/-- The scans of the frame body of `totalIntVsWidth` (lines 484-506): as in
`Widths`, on the frame adjusted with the baseline of line 487. -/
def totalIntVsWidthScan (threshold : ℚ) (wSize baseLEnd : ℕ) (oob : ℕ → ℚ) (st : ScanState)
    (wave : List ℚ) : ScanState :=
  let adjusted := baselineAdjustFrame oob baseLEnd wave
  let maxVal := maxModVal adjusted
  { lowTime :=
      match scanLow threshold maxVal adjusted 0 with
      | some i => (i : ℤ)
      | none => st.lowTime
    highTime :=
      match scanHigh oob threshold maxVal adjusted wSize with
      | some i => (i : ℤ)
      | none => st.highTime }

/-- The frame body of `totalIntVsWidth`: the scan state and the output file
after the frame; a record is `width totalInt`. -/
def totalIntVsWidthProcess (threshold : ℚ) (wSize baseLEnd wStart wEnd : ℕ) (oob : ℕ → ℚ)
    (s : ScanState × List (ℤ × ℚ)) (wave : List ℚ) : ScanState × List (ℤ × ℚ) :=
  let st := totalIntVsWidthScan threshold wSize baseLEnd oob s.1 wave
  let width := st.highTime - st.lowTime
  (st,
    if widthValid wSize width then
      s.2 ++ [(width, windowIntegral oob (baselineAdjustFrame oob baseLEnd wave) wStart wEnd)]
    else s.2)

/-- Source `totalIntVsWidth`: the records written. -/
def totalIntVsWidth (threshold : ℚ) (wSize baseLEnd wStart wEnd : ℕ) (oob : ℕ → ℚ)
    (init : ScanState) (input : List ℚ) : List (ℤ × ℚ) :=
  (frameLoop wSize (totalIntVsWidthProcess threshold wSize baseLEnd wStart wEnd oob)
    0 [] (init, []) input).2

/-- Source `totalIntPostBaselineAdjusted`: the window integral of every
frame as read, written for every frame. -/
def totalIntPostBaselineAdjusted (oob : ℕ → ℚ) (wSize wStart wEnd : ℕ) (input : List ℚ) :
    List ℚ :=
  frameLoop wSize (fun out wave => out ++ [windowIntegral oob wave wStart wEnd]) 0 [] [] input

/-- The loop `totalIntegral += wave[i]` of `IntegralRisetimeVsAmplitude`
(lines 306-309), over the frame after subtraction. -/
def risetimeTotalIntegral (adjusted : List ℚ) : ℚ :=
  adjusted.foldl (fun totalIntegral x => totalIntegral + x) 0

/-- A scan of `IntegralRisetimeVsAmplitude` (lines 311-317 and 319-325):
`accumulate += wave[i]`, break at the first index where `accumulate` exceeds
`level`.  The arguments are the samples left, the index of the first of them
and `accumulate`. -/
def scanAccumulate (level : ℚ) : List ℚ → ℕ → ℚ → Option ℕ
  | [], _, _ => none
  | x :: xs, i, accumulate =>
    if accumulate + x > level then some i
    else scanAccumulate level xs (i + 1) (accumulate + x)

/-- The scans of the frame body of `IntegralRisetimeVsAmplitude`: `lowTime`
and `highTime` after the two loops; `accumulate` is 0 at the start of each. -/
def risetimeScan (lowThresh highThresh : ℚ) (baseLEnd : ℕ) (oob : ℕ → ℚ) (st : ScanState)
    (wave : List ℚ) : ScanState :=
  let adjusted := baselineAdjustFrame oob baseLEnd wave
  let totalIntegral := risetimeTotalIntegral adjusted
  { lowTime :=
      match scanAccumulate (lowThresh * totalIntegral) adjusted 0 0 with
      | some i => (i : ℤ)
      | none => st.lowTime
    highTime :=
      match scanAccumulate (highThresh * totalIntegral) adjusted 0 0 with
      | some i => (i : ℤ)
      | none => st.highTime }

/-- The frame body of `IntegralRisetimeVsAmplitude`: the scan state and the
output file after the frame; a record is `peak risetime`. -/
def risetimeProcess (lowThresh highThresh : ℚ) (baseLEnd : ℕ) (oob : ℕ → ℚ)
    (s : ScanState × List (ℚ × ℤ)) (wave : List ℚ) : ScanState × List (ℚ × ℤ) :=
  let st := risetimeScan lowThresh highThresh baseLEnd oob s.1 wave
  (st, s.2 ++ [(maxModVal (baselineAdjustFrame oob baseLEnd wave), st.highTime - st.lowTime)])

/-- Source `IntegralRisetimeVsAmplitude`: the records written. -/
def IntegralRisetimeVsAmplitude (lowThresh highThresh : ℚ) (wSize baseLEnd : ℕ)
    (oob : ℕ → ℚ) (init : ScanState) (input : List ℚ) : List (ℚ × ℤ) :=
  (frameLoop wSize (risetimeProcess lowThresh highThresh baseLEnd oob) 0 [] (init, []) input).2

/-! ## Pulse gradient analysis (source lines 655-704) -/

/-- The frame body of `PGA` (lines 677-688): `PGAVal`, for a natural index
`sampleNo` whose read yields a value (the sample inside the frame, the word
`oob sampleNo` past it).  `PGAFrameInt` below has the `int` index and the
read that may trap. -/
def PGAFrame (oob : ℕ → ℚ) (sampleNo baseLEnd : ℕ) (wave : List ℚ) : ℚ :=
  let adjusted := baselineAdjustFrame oob baseLEnd wave
  let amplitudeVal := maxModVal adjusted
  let sampleVal := rd oob adjusted sampleNo
  |sampleVal - amplitudeVal|

/-- Source `PGA`: the values written. -/
def PGA (oob : ℕ → ℚ) (sampleNo wSize baseLEnd : ℕ) (input : List ℚ) : List ℚ :=
  frameLoop wSize (fun out wave => out ++ [PGAFrame oob sampleNo baseLEnd wave]) 0 [] [] input

/-- The read `sampleVal = wave[sampleNo]` of `PGA` (line 687) with its `int`
index.  Inside the vector it yields the stored sample.  For a negative index
or one past the end the read is unchecked and its behaviour is undefined:
`mem i` is `some v` when the access yields the word `v` found there, and
`none` when the access traps and the program is killed.  Nothing is assumed
about `mem`. -/
def readSample (mem : ℤ → Option ℚ) (wave : List ℚ) (sampleNo : ℤ) : Option ℚ :=
  if 0 ≤ sampleNo ∧ sampleNo < (wave.length : ℤ) then some (wave.getD sampleNo.toNat 0)
  else mem sampleNo

/-- The frame body of `PGA` (lines 677-688) with the `int` index: `PGAVal`,
or `none` when the read of `wave[sampleNo]` traps. -/
def PGAFrameInt (oob : ℕ → ℚ) (mem : ℤ → Option ℚ) (sampleNo : ℤ) (baseLEnd : ℕ)
    (wave : List ℚ) : Option ℚ :=
  let adjusted := baselineAdjustFrame oob baseLEnd wave
  let amplitudeVal := maxModVal adjusted
  match readSample mem adjusted sampleNo with
  | some sampleVal => some |sampleVal - amplitudeVal|
  | none => none

/-- One frame of a run of `PGA` with the `int` index.  The state is the
output file and whether the program has been killed; each record is written
with `endl`, so the records of the earlier frames are in the file when a
later read traps.  A killed program does nothing more. -/
def PGAStep (oob : ℕ → ℚ) (mem : ℤ → Option ℚ) (sampleNo : ℤ) (baseLEnd : ℕ)
    (s : List ℚ × Bool) (wave : List ℚ) : List ℚ × Bool :=
  if s.2 then s
  else
    match PGAFrameInt oob mem sampleNo baseLEnd wave with
    | some PGAVal => (s.1 ++ [PGAVal], false)
    | none => (s.1, true)

/-- Source `PGA` with the `int` index `sampleNo`: the values written, and
whether the program was killed by a trapping read.  There is no other way
for the run to stop: the source has no test of `sampleNo`. -/
def PGAInt (oob : ℕ → ℚ) (mem : ℤ → Option ℚ) (sampleNo : ℤ) (wSize baseLEnd : ℕ)
    (input : List ℚ) : List ℚ × Bool :=
  frameLoop wSize (PGAStep oob mem sampleNo baseLEnd) 0 [] ([], false) input

/-! ## Total integral against width on an adjusted file (source lines 536-601) -/

/-- The scans of the frame body of `totalIntVsWidthPostBaselineAdjusted`
(lines 562-575): as in `Widths`, on the frame as read. -/
def postBaselineScan (threshold : ℚ) (wSize : ℕ) (oob : ℕ → ℚ) (st : ScanState)
    (wave : List ℚ) : ScanState :=
  let maxVal := maxModVal wave
  { lowTime :=
      match scanLow threshold maxVal wave 0 with
      | some i => (i : ℤ)
      | none => st.lowTime
    highTime :=
      match scanHigh oob threshold maxVal wave wSize with
      | some i => (i : ℤ)
      | none => st.highTime }

/-- The frame body of `totalIntVsWidthPostBaselineAdjusted`: the scan state
and the output file after the frame; a record is `width totalInt`. -/
def postBaselineProcess (threshold : ℚ) (wSize wStart wEnd : ℕ) (oob : ℕ → ℚ)
    (s : ScanState × List (ℤ × ℚ)) (wave : List ℚ) : ScanState × List (ℤ × ℚ) :=
  let st := postBaselineScan threshold wSize oob s.1 wave
  let width := st.highTime - st.lowTime
  (st,
    if widthValid wSize width then s.2 ++ [(width, windowIntegral oob wave wStart wEnd)]
    else s.2)

/-- Source `totalIntVsWidthPostBaselineAdjusted`: the records written. -/
def totalIntVsWidthPostBaselineAdjusted (threshold : ℚ) (wSize wStart wEnd : ℕ)
    (oob : ℕ → ℚ) (init : ScanState) (input : List ℚ) : List (ℤ × ℚ) :=
  (frameLoop wSize (postBaselineProcess threshold wSize wStart wEnd oob)
    0 [] (init, []) input).2

/-- The amplitudes a routine reads back from a file written by
`baselineAdjust`: of each line `i wave[i]` the first number goes to `time`,
the second to `height`. -/
def heightsOfLines (lines : List (ℕ × ℚ)) : List ℚ :=
  lines.map Prod.snd

/-! ## The first waveforms (source lines 99-145) -/

/-- The reading loop of `firstTen`, with its `break`.  The arguments are
`counter`, `wave1`, `numWaves`, the output file so far and the amplitudes
still to be read. -/
def firstTenLoop (wSize : ℕ) : ℕ → List ℚ → ℕ → List (ℕ × ℚ) → List ℚ → List (ℕ × ℚ)
  | _, _, _, out, [] => out
  | counter, wave1, numWaves, out, height :: rest =>
    if counter < wSize then
      firstTenLoop wSize (counter + 1) (wave1 ++ [height]) numWaves out rest
    else if numWaves + 1 < 10 then
      firstTenLoop wSize 0 [] (numWaves + 1) (out ++ wave1.enum) rest
    else
      out

/-- Source `firstTen`: the lines `i wave1[i]` written. -/
def firstTen (wSize : ℕ) (input : List ℚ) : List (ℕ × ℚ) :=
  firstTenLoop wSize 0 [] 0 [] input

/-! ## The indices the threshold scans read -/

/-- The indices the forward scan reads, in order, up to its `break`. -/
def scanLowReads (threshold maxVal : ℚ) : List ℚ → ℕ → List ℕ
  | [], _ => []
  | x :: xs, i =>
    if |x| > threshold * |maxVal| then [i] else i :: scanLowReads threshold maxVal xs (i + 1)

/-- The indices the backward scan `for (int i=wSize; i>0; --i)` reads, in
order, up to its `break`. -/
def scanHighReads (oob : ℕ → ℚ) (threshold maxVal : ℚ) (wave : List ℚ) : ℕ → List ℕ
  | 0 => []
  | i + 1 =>
    if |rd oob wave (i + 1)| > threshold * |maxVal| then [i + 1]
    else (i + 1) :: scanHighReads oob threshold maxVal wave i

/-! ## The presets of `main` (source lines 1159-1256) -/

/-- The variables of `main` that a location preset assigns.  They are
declared before the loop over the runs and are not initialised. -/
structure RunParams where
  wSize : ℤ
  baseLEnd : ℤ
  tailW : ℤ
  peakXValue : ℤ
  wStart : ℤ
  wEnd : ℤ
  PGASampleVal : ℤ
  AmBeSourceActivity : ℚ
  widthLowCut : ℤ
  widthHighCut : ℤ
  deriving DecidableEq

/-- The location tag `SeptEdinburgh`. -/
def SeptEdinburgh : String := "SeptEdinburgh"

/-- The location tag `LUNA`. -/
def LUNA : String := "LUNA"

/-- The location tag `JanEdinburgh`. -/
def JanEdinburgh : String := "JanEdinburgh"

/-- The location tag `FebEdinburgh`. -/
def FebEdinburgh : String := "FebEdinburgh"

/-- Lines 1195-1243: the assignments made for a location, on the variables
as the previous run left them; `none` is the `break` of the last branch.
The `LUNA` branch assigns neither `AmBeSourceActivity` nor the two cuts. -/
def setLocation (location : String) (prev : RunParams) : Option RunParams :=
  if location = SeptEdinburgh then
    some { wSize := 1000, baseLEnd := 100, tailW := 600, peakXValue := 200, wStart := 100,
           wEnd := 800, PGASampleVal := 600, AmBeSourceActivity := 273800,
           widthLowCut := 5, widthHighCut := 50 }
  else if location = LUNA then
    some { prev with wSize := 4000, baseLEnd := 30, tailW := 200, peakXValue := 34,
                     wStart := 30, wEnd := 100, PGASampleVal := 100 }
  else if location = JanEdinburgh then
    some { wSize := 100000, baseLEnd := 10000, tailW := 38000, peakXValue := 22000,
           wStart := 19000, wEnd := 60000, PGASampleVal := 40000,
           AmBeSourceActivity := 273700, widthLowCut := 19000, widthHighCut := 40000 }
  else if location = FebEdinburgh then
    some { wSize := 10000, baseLEnd := 1000, tailW := 3800, peakXValue := 2200,
           wStart := 1900, wEnd := 6000, PGASampleVal := 4000,
           AmBeSourceActivity := 273700, widthLowCut := 1900, widthHighCut := 4000 }
  else
    none

/-- The loop of `main` over the lines of the details file, of which only the
location tag matters here: lines 1 to 3 and the lines after 111 are skipped;
every other line is processed with the variables its preset leaves, and an
unknown tag ends the loop.  The result lists, for every run processed, the
variables with which the routines are called (among them
`printWidthsDerivedQuantities` with `widthLowCut` and `widthHighCut`, called
for every location). -/
def mainRuns : ℕ → RunParams → List String → List RunParams
  | _, _, [] => []
  | counter, vars, location :: rest =>
    if counter + 1 < 4 ∨ counter + 1 > 111 then
      mainRuns (counter + 1) vars rest
    else
      match setLocation location vars with
      | none => []
      | some vars1 => vars1 :: mainRuns (counter + 1) vars1 rest

/-! ## Reference definitions that follow the specification -/

/-- The solid angle as claim C29 reads it: the same formula with the length
`EJ426DETX/100`, in metres like the width and the distance. -/
def solidAngleMetres {K : Type} [Field K] (sqrt atan : K → K) (orientation : String)
    (distanceInMetres : ℚ) : K :=
  4 * atan (((detectorWidth orientation * (EJ426DETX / 100) : ℚ) : K)
    / (4 * ((trueDistance orientation distanceInMetres : ℚ) : K)
        * sqrt ((detectorWidth orientation * detectorWidth orientation / 4
            + (EJ426DETX / 100) * (EJ426DETX / 100) / 4
            + trueDistance orientation distanceInMetres
              * trueDistance orientation distanceInMetres : ℚ) : K)))

/-- The symmetric triangular pulse of claim C25 in a frame of `wSize`
samples: the sample at index `i` is `h - |i - p|` where that is positive and
0 elsewhere; it rises by 1 per index to the peak `h` at index `p` and falls
by 1 per index. -/
def trianglePulse (wSize h p : ℕ) : List ℚ :=
  (List.range wSize).map (fun (i : ℕ) => max 0 ((h : ℚ) - |(i : ℚ) - (p : ℚ)|))

/-! ## The `int` products of the printed quantities (source lines 994-996, 1011, 1013) -/

/-- The range of a signed 32-bit `int`. -/
def inInt32 (z : ℤ) : Prop :=
  -2147483648 ≤ z ∧ z ≤ 2147483647

instance inInt32Decidable (z : ℤ) : Decidable (inInt32 z) :=
  inferInstanceAs (Decidable (_ ∧ _))

/-- Line 1011: the neutron rate per hour as printed, `numNeutrons*3600/time`;
`numNeutrons*3600` is a product of two `int`s. -/
def neutRateHr (numNeutrons : ℕ) (time : ℚ) : ℚ :=
  ((wrapInt32 ((numNeutrons : ℤ) * 3600) : ℤ) : ℚ) / time

/-- Line 1013: the non-neutron rate per hour as printed,
`numRejections*3600/time`. -/
def nonNeutRateHr (numRejections : ℕ) (time : ℚ) : ℚ :=
  ((wrapInt32 ((numRejections : ℤ) * 3600) : ℤ) : ℚ) / time

/-! ## The peak (claims C8, C9) -/

/-- The loop of `maxModVal` entered with `output = out` over the samples
`l`: either `out` survives and no sample is larger in modulus, or the result
is the first sample of `l` of the largest modulus, strictly larger than
`out`. -/
theorem maxModVal_loop (l : List ℚ) : ∀ out : ℚ,
    (l.foldl (fun output v => if |v| > |output| then v else output) out = out ∧
      ∀ j, j < l.length → |l.getD j 0| ≤ |out|) ∨
    (∃ idx, idx < l.length ∧
      l.getD idx 0 = l.foldl (fun output v => if |v| > |output| then v else output) out ∧
      |out| < |l.foldl (fun output v => if |v| > |output| then v else output) out| ∧
      (∀ j, j < idx →
        |l.getD j 0| < |l.foldl (fun output v => if |v| > |output| then v else output) out|) ∧
      ∀ j, j < l.length →
        |l.getD j 0| ≤ |l.foldl (fun output v => if |v| > |output| then v else output) out|) := by
  induction l with
  | nil => intro out; left; simp
  | cons a l ih =>
    intro out
    simp only [List.foldl_cons, List.length_cons]
    by_cases hgt : |a| > |out|
    · rw [if_pos hgt]
      right
      rcases ih a with ⟨hres, hall⟩ | ⟨idx, hidx, hget, hlt, hbefore, hall⟩
      · refine ⟨0, Nat.succ_pos _, ?_, ?_, ?_, ?_⟩
        · simp [hres]
        · rw [hres]; exact hgt
        · intro j hj; omega
        · intro j hj
          rw [hres]
          cases j with
          | zero => simp
          | succ j => simpa using hall j (by omega)
      · refine ⟨idx + 1, by omega, ?_, ?_, ?_, ?_⟩
        · simpa using hget
        · exact lt_trans hgt hlt
        · intro j hj
          cases j with
          | zero => simpa using hlt
          | succ j => simpa using hbefore j (by omega)
        · intro j hj
          cases j with
          | zero => simpa using le_of_lt hlt
          | succ j => simpa using hall j (by omega)
    · rw [if_neg hgt]
      have hle : |a| ≤ |out| := not_lt.mp hgt
      rcases ih out with ⟨hres, hall⟩ | ⟨idx, hidx, hget, hlt, hbefore, hall⟩
      · left
        refine ⟨hres, ?_⟩
        intro j hj
        cases j with
        | zero => simpa using hle
        | succ j => simpa using hall j (by omega)
      · right
        refine ⟨idx + 1, by omega, ?_, hlt, ?_, ?_⟩
        · simpa using hget
        · intro j hj
          cases j with
          | zero => simpa using lt_of_le_of_lt hle hlt
          | succ j => simpa using hbefore j (by omega)
        · intro j hj
          cases j with
          | zero => simpa using le_of_lt (lt_of_le_of_lt hle hlt)
          | succ j => simpa using hall j (by omega)

/-- On a non-empty vector the loop of `maxModVal` may skip `input[0]`: the
comparison of `input[0]` with itself never replaces `output`. -/
theorem maxModVal_cons (x : ℚ) (xs : List ℚ) :
    maxModVal (x :: xs) = xs.foldl (fun output v => if |v| > |output| then v else output) x := by
  simp [maxModVal]

/-- On a non-empty vector `maxModVal` returns one of the samples, the first
of the largest modulus. -/
theorem maxModVal_attained (input : List ℚ) (hne : input ≠ []) :
    ∃ idx, idx < input.length ∧ input.getD idx 0 = maxModVal input ∧
      (∀ j, j < input.length → |input.getD j 0| ≤ |maxModVal input|) ∧
      (∀ j, j < idx → |input.getD j 0| < |maxModVal input|) := by
  cases input with
  | nil => exact absurd rfl hne
  | cons x xs =>
    rw [maxModVal_cons]
    rcases maxModVal_loop xs x with ⟨hres, hall⟩ | ⟨idx, hidx, hget, hlt, hbefore, hall⟩
    · refine ⟨0, by simp, by simp [hres], ?_, ?_⟩
      · intro j hj
        rw [hres]
        cases j with
        | zero => simp
        | succ j => simpa using hall j (by simpa using hj)
      · intro j hj; omega
    · refine ⟨idx + 1, by simpa using hidx, by simpa using hget, ?_, ?_⟩
      · intro j hj
        cases j with
        | zero => simpa using le_of_lt hlt
        | succ j => simpa using hall j (by simpa using hj)
      · intro j hj
        cases j with
        | zero => simpa using hlt
        | succ j => simpa using hbefore j (by omega)

/-- C8: on a non-empty frame `maxModVal` returns a sample of the frame, at
some index `idx`; no sample of the frame is larger in modulus, and every
sample before `idx` is strictly smaller in modulus (the tie goes to the
first occurrence).  On `[1, -5, 3]` it returns `-5`. -/
theorem maxModVal_first_largest (input : List ℚ) (hne : input ≠ []) :
    (∃ idx, idx < input.length ∧ input.getD idx 0 = maxModVal input ∧
      (∀ j, j < input.length → |input.getD j 0| ≤ |maxModVal input|) ∧
      (∀ j, j < idx → |input.getD j 0| < |maxModVal input|)) ∧
    maxModVal [1, -5, 3] = -5 := by
  refine ⟨?_, by decide⟩
  cases input with
  | nil => exact absurd rfl hne
  | cons x xs =>
    rw [maxModVal_cons]
    rcases maxModVal_loop xs x with ⟨hres, hall⟩ | ⟨idx, hidx, hget, hlt, hbefore, hall⟩
    · refine ⟨0, by simp, by simp [hres], ?_, ?_⟩
      · intro j hj
        rw [hres]
        cases j with
        | zero => simp
        | succ j => simpa using hall j (by simpa using hj)
      · intro j hj; omega
    · refine ⟨idx + 1, by simpa using hidx, by simpa using hget, ?_, ?_⟩
      · intro j hj
        cases j with
        | zero => simpa using le_of_lt hlt
        | succ j => simpa using hall j (by simpa using hj)
      · intro j hj
        cases j with
        | zero => simpa using hlt
        | succ j => simpa using hbefore j (by omega)

/-- Witness of C8 at the frame `[1, -5, 3]`. -/
theorem maxModVal_first_largest_witness :
    ([1, -5, 3] : List ℚ) ≠ [] ∧
    ((∃ idx, idx < ([1, -5, 3] : List ℚ).length ∧
      ([1, -5, 3] : List ℚ).getD idx 0 = maxModVal [1, -5, 3] ∧
      (∀ j, j < ([1, -5, 3] : List ℚ).length →
        |([1, -5, 3] : List ℚ).getD j 0| ≤ |maxModVal [1, -5, 3]|) ∧
      (∀ j, j < idx → |([1, -5, 3] : List ℚ).getD j 0| < |maxModVal [1, -5, 3]|)) ∧
    maxModVal [1, -5, 3] = -5) :=
  ⟨by simp, maxModVal_first_largest [1, -5, 3] (by simp)⟩

/-- C9: on the frame `[-5, 1, 3]`, whose first sample is the one furthest
from 0 and is negative, `modMaxModVal` returns `-5`, which is negative and
is not the modulus `5` of `maxModVal`; on `[1, -5, 3]` it returns `5`. -/
theorem modMaxModVal_first_sample_negative :
    modMaxModVal [-5, 1, 3] = -5 ∧ |maxModVal [-5, 1, 3]| = 5 ∧
    modMaxModVal [-5, 1, 3] ≠ |maxModVal [-5, 1, 3]| ∧ ¬ (0 ≤ modMaxModVal [-5, 1, 3]) ∧
    modMaxModVal [1, -5, 3] = 5 := by
  decide

/-! ## The baseline (claims C6, C7) -/

/-- The loop `basel += wave[i]/c` run over the first `n` samples of a frame
that has them adds up to their sum divided by `c`. -/
theorem baselDiv_loop (oob : ℕ → ℚ) (wave : List ℚ) (c : ℚ) : ∀ n, n ≤ wave.length →
    (List.range n).foldl (fun basel i => basel + rd oob wave i / c) 0
      = (wave.take n).sum / c := by
  intro n
  induction n with
  | zero => intro _; simp
  | succ n ih =>
    intro h
    have hn : n < wave.length := by omega
    have hrd : rd oob wave n = wave[n] := List.getD_eq_getElem _ _ hn
    rw [List.range_succ, List.foldl_append, ih (by omega), List.sum_take_succ wave n hn]
    simp only [List.foldl_cons, List.foldl_nil]
    rw [hrd]
    ring

/-- The loop `basel += wave[i]` run over the first `n` samples of a frame
that has them adds up to their sum. -/
theorem baselSum_loop (oob : ℕ → ℚ) (wave : List ℚ) : ∀ n, n ≤ wave.length →
    (List.range n).foldl (fun basel i => basel + rd oob wave i) 0 = (wave.take n).sum := by
  intro n
  induction n with
  | zero => intro _; simp
  | succ n ih =>
    intro h
    have hn : n < wave.length := by omega
    have hrd : rd oob wave n = wave[n] := List.getD_eq_getElem _ _ hn
    rw [List.range_succ, List.foldl_append, ih (by omega), List.sum_take_succ wave n hn]
    simp only [List.foldl_cons, List.foldl_nil]
    rw [hrd]

/-- Subtracting `b` from every sample lowers the sum by `b` per sample. -/
theorem sum_subtractBasel (l : List ℚ) (b : ℚ) :
    (subtractBasel l b).sum = l.sum - (l.length : ℚ) * b := by
  induction l with
  | nil => simp [subtractBasel]
  | cons a l ih =>
    simp only [subtractBasel, List.map_cons, List.sum_cons, List.length_cons] at ih ⊢
    rw [ih]
    push_cast
    ring

/-- Reading a sample of the subtracted frame inside the frame. -/
theorem getD_subtractBasel (l : List ℚ) (b : ℚ) (i : ℕ) (hi : i < l.length) :
    (subtractBasel l b).getD i 0 = l.getD i 0 - b := by
  have h1 : i < (subtractBasel l b).length := by simpa [subtractBasel] using hi
  rw [List.getD_eq_getElem _ _ h1, List.getD_eq_getElem _ _ hi]
  simp [subtractBasel]

/-- C6: with `0 < baseLEnd ≤ len(frame)` both ways of computing the
baseline (the sum of `wave[i]/baseLEnd` of `baselineAdjust`, the sum divided
by `baseLEnd` of `Widths`) give the arithmetic mean of the first `baseLEnd`
samples; the adjusted frame has the length of the frame and each of its
samples is the sample of the frame minus that mean. -/
theorem baseline_is_mean_of_leading_samples (oob : ℕ → ℚ) (wave : List ℚ) (baseLEnd : ℕ)
    (hpos : 0 < baseLEnd) (hle : baseLEnd ≤ wave.length) :
    baselDiv oob wave baseLEnd = (wave.take baseLEnd).sum / (baseLEnd : ℚ) ∧
    baselSum oob wave baseLEnd = (wave.take baseLEnd).sum / (baseLEnd : ℚ) ∧
    (baselineAdjustFrame oob baseLEnd wave).length = wave.length ∧
    (widthsAdjusted oob baseLEnd wave).length = wave.length ∧
    (∀ i, i < wave.length →
      (baselineAdjustFrame oob baseLEnd wave).getD i 0
        = wave.getD i 0 - (wave.take baseLEnd).sum / (baseLEnd : ℚ)) ∧
    (∀ i, i < wave.length →
      (widthsAdjusted oob baseLEnd wave).getD i 0
        = wave.getD i 0 - (wave.take baseLEnd).sum / (baseLEnd : ℚ)) := by
  have _hb : (0 : ℚ) < (baseLEnd : ℚ) := by exact_mod_cast hpos
  have hdiv : baselDiv oob wave baseLEnd = (wave.take baseLEnd).sum / (baseLEnd : ℚ) :=
    baselDiv_loop oob wave (baseLEnd : ℚ) baseLEnd hle
  have hsum : baselSum oob wave baseLEnd = (wave.take baseLEnd).sum / (baseLEnd : ℚ) := by
    unfold baselSum
    rw [baselSum_loop oob wave baseLEnd hle]
  refine ⟨hdiv, hsum, ?_, ?_, ?_, ?_⟩
  · simp [baselineAdjustFrame, subtractBasel]
  · simp [widthsAdjusted, subtractBasel]
  · intro i hi
    rw [baselineAdjustFrame, getD_subtractBasel _ _ _ hi, hdiv]
  · intro i hi
    rw [widthsAdjusted, getD_subtractBasel _ _ _ hi, hsum]

/-- Witness of C6 at the frame `[2, 4, 9]` with `baseLEnd = 2`. -/
theorem baseline_is_mean_of_leading_samples_witness :
    (0 < 2 ∧ 2 ≤ ([2, 4, 9] : List ℚ).length) ∧
    (baselDiv (fun _ => 0) [2, 4, 9] 2 = (([2, 4, 9] : List ℚ).take 2).sum / ((2 : ℕ) : ℚ) ∧
    baselSum (fun _ => 0) [2, 4, 9] 2 = (([2, 4, 9] : List ℚ).take 2).sum / ((2 : ℕ) : ℚ) ∧
    (baselineAdjustFrame (fun _ => 0) 2 [2, 4, 9]).length = ([2, 4, 9] : List ℚ).length ∧
    (widthsAdjusted (fun _ => 0) 2 [2, 4, 9]).length = ([2, 4, 9] : List ℚ).length ∧
    (∀ i, i < ([2, 4, 9] : List ℚ).length →
      (baselineAdjustFrame (fun _ => 0) 2 [2, 4, 9]).getD i 0
        = ([2, 4, 9] : List ℚ).getD i 0
          - (([2, 4, 9] : List ℚ).take 2).sum / ((2 : ℕ) : ℚ)) ∧
    (∀ i, i < ([2, 4, 9] : List ℚ).length →
      (widthsAdjusted (fun _ => 0) 2 [2, 4, 9]).getD i 0
        = ([2, 4, 9] : List ℚ).getD i 0
          - (([2, 4, 9] : List ℚ).take 2).sum / ((2 : ℕ) : ℚ))) :=
  ⟨⟨by decide, by decide⟩,
    baseline_is_mean_of_leading_samples (fun _ => 0) [2, 4, 9] 2 (by decide) (by decide)⟩

/-- C7: with `0 < baseLEnd ≤ len(frame)`, the mean of the first `baseLEnd`
samples of the frame after the baseline subtraction is `0`, in
`baselineAdjust` and in `Widths` alike. -/
theorem adjusted_leading_mean_zero (oob : ℕ → ℚ) (wave : List ℚ) (baseLEnd : ℕ)
    (hpos : 0 < baseLEnd) (hle : baseLEnd ≤ wave.length) :
    ((baselineAdjustFrame oob baseLEnd wave).take baseLEnd).sum / (baseLEnd : ℚ) = 0 ∧
    ((widthsAdjusted oob baseLEnd wave).take baseLEnd).sum / (baseLEnd : ℚ) = 0 := by
  have hb : (baseLEnd : ℚ) ≠ 0 := by exact_mod_cast (Nat.pos_iff_ne_zero.mp hpos)
  have hlen : (wave.take baseLEnd).length = baseLEnd := by
    rw [List.length_take]; omega
  have key : ∀ b : ℚ, b = (wave.take baseLEnd).sum / (baseLEnd : ℚ) →
      ((subtractBasel wave b).take baseLEnd).sum / (baseLEnd : ℚ) = 0 := by
    intro b hbval
    have htake : (subtractBasel wave b).take baseLEnd = subtractBasel (wave.take baseLEnd) b := by
      simp [subtractBasel, List.map_take]
    rw [htake, sum_subtractBasel, hlen, hbval]
    field_simp
  constructor
  · exact key _ (baselDiv_loop oob wave (baseLEnd : ℚ) baseLEnd hle)
  · refine key _ ?_
    unfold baselSum
    rw [baselSum_loop oob wave baseLEnd hle]

/-- Witness of C7 at the frame `[2, 4, 9]` with `baseLEnd = 2`. -/
theorem adjusted_leading_mean_zero_witness :
    (0 < 2 ∧ 2 ≤ ([2, 4, 9] : List ℚ).length) ∧
    (((baselineAdjustFrame (fun _ => 0) 2 [2, 4, 9]).take 2).sum / ((2 : ℕ) : ℚ) = 0 ∧
    ((widthsAdjusted (fun _ => 0) 2 [2, 4, 9]).take 2).sum / ((2 : ℕ) : ℚ) = 0) :=
  ⟨⟨by decide, by decide⟩,
    adjusted_leading_mean_zero (fun _ => 0) [2, 4, 9] 2 (by decide) (by decide)⟩

/-! ## The threshold scans of Widths (claims C1, C2, C3) -/

/-- The forward scan over `l`, whose head has index `i0`: when some sample
of `l` crosses, the scan breaks at the first one. -/
theorem scanLow_first (threshold maxVal : ℚ) (l : List ℚ) : ∀ i0 : ℕ,
    (∃ i, i < l.length ∧ |l.getD i 0| > threshold * |maxVal|) →
    ∃ k, scanLow threshold maxVal l i0 = some (i0 + k) ∧ k < l.length ∧
      |l.getD k 0| > threshold * |maxVal| ∧
      ∀ j, j < k → ¬ |l.getD j 0| > threshold * |maxVal| := by
  induction l with
  | nil => intro i0 h; obtain ⟨i, hi, _⟩ := h; simp at hi
  | cons a l ih =>
    intro i0 h
    obtain ⟨i, hi, hc⟩ := h
    by_cases ha : |a| > threshold * |maxVal|
    · refine ⟨0, by simp [scanLow, ha], by simp, by simpa using ha, ?_⟩
      intro j hj; omega
    · cases i with
      | zero => exact absurd (by simpa using hc) ha
      | succ i =>
        obtain ⟨k, hk, hlen, hcross, hmin⟩ :=
          ih (i0 + 1) ⟨i, by simpa using hi, by simpa using hc⟩
        refine ⟨k + 1, ?_, by simpa using hlen, by simpa using hcross, ?_⟩
        · simp only [scanLow, if_neg ha, hk]
          congr 1
          omega
        · intro j hj
          cases j with
          | zero => simpa using ha
          | succ j => simpa using hmin j (by omega)

/-- The forward scan does not break when no sample crosses. -/
theorem scanLow_none (threshold maxVal : ℚ) (l : List ℚ) : ∀ i0 : ℕ,
    (∀ i, i < l.length → ¬ |l.getD i 0| > threshold * |maxVal|) →
    scanLow threshold maxVal l i0 = none := by
  induction l with
  | nil => intro i0 _; rfl
  | cons a l ih =>
    intro i0 h
    have ha : ¬ |a| > threshold * |maxVal| := by simpa using h 0 (by simp)
    simp only [scanLow, if_neg ha]
    apply ih
    intro i hi
    simpa using h (i + 1) (by simpa using hi)

/-- The backward scan entered at `n` reads the indices `n, n-1, ..., 1`:
it breaks at the greatest index in `1..n` whose read crosses, and does not
break when none does.  Index `0` is never read; index `n` is. -/
theorem scanHigh_spec (oob : ℕ → ℚ) (threshold maxVal : ℚ) (wave : List ℚ) : ∀ n : ℕ,
    (∃ k, scanHigh oob threshold maxVal wave n = some k ∧ 1 ≤ k ∧ k ≤ n ∧
      |rd oob wave k| > threshold * |maxVal| ∧
      ∀ j, k < j → j ≤ n → ¬ |rd oob wave j| > threshold * |maxVal|) ∨
    (scanHigh oob threshold maxVal wave n = none ∧
      ∀ j, 1 ≤ j → j ≤ n → ¬ |rd oob wave j| > threshold * |maxVal|) := by
  intro n
  induction n with
  | zero => right; exact ⟨rfl, fun j h1 h2 => by omega⟩
  | succ n ih =>
    by_cases hc : |rd oob wave (n + 1)| > threshold * |maxVal|
    · left
      refine ⟨n + 1, by simp [scanHigh, hc], by omega, le_refl _, hc, ?_⟩
      intro j h1 h2; omega
    · rcases ih with ⟨k, hk, h1, h2, hcross, hmax⟩ | ⟨hnone, hall⟩
      · left
        refine ⟨k, by simp [scanHigh, hc, hk], h1, by omega, hcross, ?_⟩
        intro j hj1 hj2
        by_cases hj : j = n + 1
        · rw [hj]; exact hc
        · exact hmax j hj1 (by omega)
      · right
        refine ⟨by simp [scanHigh, hc, hnone], ?_⟩
        intro j hj1 hj2
        by_cases hj : j = n + 1
        · rw [hj]; exact hc
        · exact hall j hj1 (by omega)

/-- C1: whenever some sample of the baseline-subtracted frame satisfies
`|frame[i]| > threshold * |maxModVal(frame)|`, the `lowTime` of `Widths`
after its forward scan is the least index of such a sample. -/
theorem lowTime_is_least_crossing (threshold : ℚ) (wSize baseLEnd : ℕ) (oob : ℕ → ℚ)
    (st : ScanState) (wave : List ℚ)
    (h : ∃ i, i < (widthsAdjusted oob baseLEnd wave).length ∧
      |(widthsAdjusted oob baseLEnd wave).getD i 0|
        > threshold * |maxModVal (widthsAdjusted oob baseLEnd wave)|) :
    ∃ k : ℕ, (widthsScan threshold wSize baseLEnd oob st wave).lowTime = (k : ℤ) ∧
      k < (widthsAdjusted oob baseLEnd wave).length ∧
      |(widthsAdjusted oob baseLEnd wave).getD k 0|
        > threshold * |maxModVal (widthsAdjusted oob baseLEnd wave)| ∧
      ∀ j, j < k → ¬ |(widthsAdjusted oob baseLEnd wave).getD j 0|
        > threshold * |maxModVal (widthsAdjusted oob baseLEnd wave)| := by
  obtain ⟨k, hk, hlen, hcross, hmin⟩ :=
    scanLow_first threshold (maxModVal (widthsAdjusted oob baseLEnd wave))
      (widthsAdjusted oob baseLEnd wave) 0 h
  refine ⟨k, ?_, hlen, hcross, hmin⟩
  simp only [widthsScan, hk]
  simp

/-- Witness of C1: the frame `[0, 0, 1, 4, 1]` with `baseLEnd = 2` and
threshold `1/2`, whose sample at index 3 crosses. -/
theorem lowTime_is_least_crossing_witness :
    (∃ i, i < (widthsAdjusted (fun _ => 0) 2 [0, 0, 1, 4, 1]).length ∧
      |(widthsAdjusted (fun _ => 0) 2 [0, 0, 1, 4, 1]).getD i 0|
        > 1 / 2 * |maxModVal (widthsAdjusted (fun _ => 0) 2 [0, 0, 1, 4, 1])|) ∧
    (∃ k : ℕ, (widthsScan (1 / 2) 5 2 (fun _ => 0) ⟨0, 0⟩ [0, 0, 1, 4, 1]).lowTime = (k : ℤ) ∧
      k < (widthsAdjusted (fun _ => 0) 2 [0, 0, 1, 4, 1]).length ∧
      |(widthsAdjusted (fun _ => 0) 2 [0, 0, 1, 4, 1]).getD k 0|
        > 1 / 2 * |maxModVal (widthsAdjusted (fun _ => 0) 2 [0, 0, 1, 4, 1])| ∧
      ∀ j, j < k → ¬ |(widthsAdjusted (fun _ => 0) 2 [0, 0, 1, 4, 1]).getD j 0|
        > 1 / 2 * |maxModVal (widthsAdjusted (fun _ => 0) 2 [0, 0, 1, 4, 1])|) :=
  ⟨⟨3, by decide!, by decide!⟩,
    lowTime_is_least_crossing (1 / 2) 5 2 (fun _ => 0) ⟨0, 0⟩ [0, 0, 1, 4, 1]
      ⟨3, by decide!, by decide!⟩⟩

/-- C2: on the two-frame input `-1 -1 2 | 9 | 2 -1 -1 | 9` with
`wSize = baseLEnd = 3` and threshold `1/2` (each frame already has baseline
0), the second frame `[2, -1, -1]` crosses the threshold at index 0 only,
so its greatest crossing index is 0 and its width is 0.  The backward scan
of `Widths` reads the indices 3, 2, 1 and never index 0: it does not break,
`highTime` keeps the value 2 of the first frame, and the width 2 is written
for the second frame.  The first read of that scan is `wave[3]`, past the
frame: were the memory there to hold 100, `highTime` would be 3. -/
theorem highTime_scan_skips_index_zero :
    frames 3 [-1, -1, 2, 9, 2, -1, -1, 9] = [[-1, -1, 2], [2, -1, -1]] ∧
    widthsAdjusted (fun _ => 0) 3 [2, -1, -1] = [2, -1, -1] ∧
    (|(2 : ℚ)| > 1 / 2 * |maxModVal [2, -1, -1]| ∧
      ¬ |(-1 : ℚ)| > 1 / 2 * |maxModVal [2, -1, -1]|) ∧
    widthsScan (1 / 2) 3 3 (fun _ => 0) ⟨0, 0⟩ [-1, -1, 2] = ⟨2, 2⟩ ∧
    scanHigh (fun _ => 0) (1 / 2) (maxModVal [2, -1, -1]) [2, -1, -1] 3 = none ∧
    widthsScan (1 / 2) 3 3 (fun _ => 0) ⟨2, 2⟩ [2, -1, -1] = ⟨0, 2⟩ ∧
    widthsScan (1 / 2) 3 3 (fun _ => 100) ⟨0, 0⟩ [-1, -1, 2] = ⟨2, 3⟩ ∧
    Widths (1 / 2) 3 3 (fun _ => 0) ⟨0, 0⟩ [-1, -1, 2, 9, 2, -1, -1, 9] = [2] := by
  decide!

/-! ## The reading loop as a fold over frames (claims C3, C5) -/

/-- Collecting frames onto `acc` is collecting them from nothing and
appending. -/
theorem frameLoop_collect_acc (wSize : ℕ) : ∀ (input : List ℚ) (counter : ℕ) (wave : List ℚ)
    (acc : List (List ℚ)),
    frameLoop wSize (fun acc wave => acc ++ [wave]) counter wave acc input
      = acc ++ frameLoop wSize (fun acc wave => acc ++ [wave]) counter wave [] input := by
  intro input
  induction input with
  | nil => intro counter wave acc; simp [frameLoop]
  | cons height rest ih =>
    intro counter wave acc
    by_cases hc : counter < wSize
    · simp only [frameLoop, if_pos hc]
      exact ih _ _ _
    · simp only [frameLoop, if_neg hc]
      rw [ih 0 [] (acc ++ [wave]), ih 0 [] ([] ++ [wave])]
      simp

/-- The reading loop with frame body `process` is the left fold of `process`
over the frames the loop forms. -/
theorem frameLoop_eq_foldl {σ : Type} (wSize : ℕ) (process : σ → List ℚ → σ) :
    ∀ (input : List ℚ) (counter : ℕ) (wave : List ℚ) (s : σ),
    frameLoop wSize process counter wave s input
      = (frameLoop wSize (fun acc wave => acc ++ [wave]) counter wave [] input).foldl
          process s := by
  intro input
  induction input with
  | nil => intro counter wave s; simp [frameLoop]
  | cons height rest ih =>
    intro counter wave s
    by_cases hc : counter < wSize
    · simp only [frameLoop, if_pos hc]
      exact ih _ _ _
    · simp only [frameLoop, if_neg hc]
      rw [ih 0 [] (process s wave), frameLoop_collect_acc wSize rest 0 [] ([] ++ [wave])]
      simp

/-- The loop entered with `counter` samples already in `wave`: it completes
the frame with the next `wSize - counter` samples, drops the sample after
them, and starts afresh; with too few samples left it forms no frame. -/
theorem frameLoop_collect (wSize : ℕ) : ∀ (input : List ℚ) (counter : ℕ) (wave : List ℚ),
    counter ≤ wSize →
    frameLoop wSize (fun acc wave => acc ++ [wave]) counter wave [] input
      = if wSize - counter < input.length then
          (wave ++ input.take (wSize - counter))
            :: frames wSize (input.drop (wSize - counter + 1))
        else [] := by
  intro input
  induction input with
  | nil => intro counter wave _; simp [frameLoop]
  | cons height rest ih =>
    intro counter wave hle
    by_cases hc : counter < wSize
    · obtain ⟨m, hm⟩ : ∃ m, wSize - counter = m + 1 := ⟨wSize - counter - 1, by omega⟩
      have hm2 : wSize - (counter + 1) = m := by omega
      simp only [frameLoop, if_pos hc]
      rw [ih (counter + 1) (wave ++ [height]) (by omega), hm, hm2]
      simp only [List.length_cons, List.take_succ_cons, List.drop_succ_cons,
        Nat.add_lt_add_iff_right, List.append_assoc, List.singleton_append]
    · have h0 : wSize - counter = 0 := by omega
      simp only [frameLoop, if_neg hc]
      rw [frameLoop_collect_acc wSize rest 0 [] ([] ++ [wave]), h0]
      simp [frames]

/-- One step of the framing: an input longer than `wSize` yields its first
`wSize` samples as a frame and continues after the sample that follows
them; a shorter input yields no frame. -/
theorem frames_unfold (wSize : ℕ) (input : List ℚ) :
    frames wSize input
      = if wSize < input.length then
          input.take wSize :: frames wSize (input.drop (wSize + 1))
        else [] := by
  have h := frameLoop_collect wSize input 0 [] (Nat.zero_le _)
  simpa [frames] using h

/-- The number of frames formed from `n` samples is `n / (wSize + 1)`. -/
theorem frames_length (wSize : ℕ) : ∀ (n : ℕ) (input : List ℚ), input.length = n →
    (frames wSize input).length = n / (wSize + 1) := by
  intro n
  induction n using Nat.strong_induction_on with
  | _ n ih =>
    intro input hlen
    rw [frames_unfold]
    by_cases h : wSize < input.length
    · rw [if_pos h, List.length_cons,
        ih (n - (wSize + 1)) (by omega) (input.drop (wSize + 1)) (by simp; omega)]
      have hn : n = (n - (wSize + 1)) + (wSize + 1) := by omega
      conv_rhs => rw [hn]
      rw [Nat.add_div_right _ (Nat.succ_pos wSize)]
    · rw [if_neg h]
      have : n / (wSize + 1) = 0 := Nat.div_eq_of_lt (by omega)
      simp [this]

/-- The `k`-th frame formed is the `wSize` samples from position
`k * (wSize + 1)` of the input. -/
theorem frames_getD (wSize : ℕ) : ∀ (k : ℕ) (input : List ℚ),
    k < (frames wSize input).length →
    (frames wSize input).getD k [] = (input.drop (k * (wSize + 1))).take wSize := by
  intro k
  induction k with
  | zero =>
    intro input hk
    rw [frames_unfold] at hk ⊢
    by_cases h : wSize < input.length
    · simp [if_pos h]
    · simp [if_neg h] at hk
  | succ k ih =>
    intro input hk
    rw [frames_unfold] at hk ⊢
    by_cases h : wSize < input.length
    · rw [if_pos h] at hk ⊢
      rw [List.getD_cons_succ, ih (input.drop (wSize + 1)) (by simpa using hk), List.drop_drop]
      congr 2
      ring
    · simp [if_neg h] at hk

/-- The count of `numWaves` is the number of frames formed. -/
theorem numWaves_eq_length (wSize : ℕ) (input : List ℚ) :
    numWaves wSize input = (frames wSize input).length := by
  unfold numWaves
  rw [frameLoop_eq_foldl]
  have : ∀ (l : List (List ℚ)) (n : ℕ), l.foldl (fun n _ => n + 1) n = n + l.length := by
    intro l
    induction l with
    | nil => intro n; simp
    | cons a l ihl => intro n; simp [ihl]; omega
  simpa [frames] using this _ 0

/-- C5: with `wSize = 2` and the six samples `1 2 3 4 5 6` the reading loop
forms the two frames `[1, 2]` and `[4, 5]` (samples 3 and 6 are read and
dropped), not the `6 / 2 = 3` contiguous frames `[1, 2]`, `[3, 4]`,
`[5, 6]`; `numWaves` counts 2. -/
theorem framing_drops_sample_after_each_frame :
    frames 2 [1, 2, 3, 4, 5, 6] = [[1, 2], [4, 5]] ∧
    numWaves 2 [1, 2, 3, 4, 5, 6] = 2 ∧
    ([1, 2, 3, 4, 5, 6] : List ℚ).length / 2 = 3 ∧
    (frames 2 [1, 2, 3, 4, 5, 6]).getD 1 [] ≠ ((([1, 2, 3, 4, 5, 6] : List ℚ).drop (1 * 2)).take 2) := by
  decide

/-- C3: `Widths` is the fold of its frame body over the frames of the
input, so every frame is processed whatever was written for the frames
before it; and the frame body appends one record, the computed width
`highTime - lowTime`, exactly when `0 < width < 0.8 * wSize`, and leaves the
output as it was otherwise. -/
theorem widths_emits_iff_width_valid (threshold : ℚ) (wSize baseLEnd : ℕ) (oob : ℕ → ℚ)
    (init : ScanState) (input : List ℚ) (s : ScanState × List ℤ) (wave : List ℚ) :
    Widths threshold wSize baseLEnd oob init input
      = ((frames wSize input).foldl (widthsProcess threshold wSize baseLEnd oob) (init, [])).2 ∧
    (widthsProcess threshold wSize baseLEnd oob s wave).1
      = widthsScan threshold wSize baseLEnd oob s.1 wave ∧
    (widthsProcess threshold wSize baseLEnd oob s wave).2
      = s.2 ++
        (if 0 < (((widthsScan threshold wSize baseLEnd oob s.1 wave).highTime
                  - (widthsScan threshold wSize baseLEnd oob s.1 wave).lowTime : ℤ) : ℚ) ∧
            (((widthsScan threshold wSize baseLEnd oob s.1 wave).highTime
                  - (widthsScan threshold wSize baseLEnd oob s.1 wave).lowTime : ℤ) : ℚ)
              < 4 / 5 * (wSize : ℚ) then
          [(widthsScan threshold wSize baseLEnd oob s.1 wave).highTime
            - (widthsScan threshold wSize baseLEnd oob s.1 wave).lowTime]
        else []) := by
  refine ⟨?_, rfl, ?_⟩
  · unfold Widths frames
    rw [frameLoop_eq_foldl]
  · simp only [widthsProcess, widthValid]
    by_cases hv : 0 < (((widthsScan threshold wSize baseLEnd oob s.1 wave).highTime
                  - (widthsScan threshold wSize baseLEnd oob s.1 wave).lowTime : ℤ) : ℚ) ∧
            (((widthsScan threshold wSize baseLEnd oob s.1 wave).highTime
                  - (widthsScan threshold wSize baseLEnd oob s.1 wave).lowTime : ℤ) : ℚ)
              < 4 / 5 * (wSize : ℚ)
    · rw [if_pos hv, if_pos ⟨hv.2, hv.1⟩]
    · rw [if_neg hv, if_neg (fun h => hv ⟨h.2, h.1⟩)]
      simp

/-! ## The counting loop and the flux (claims C4, C10) -/

/-- The counting loop entered with counters `c`: the neutron counter grows
by the number of values inside the cuts, the rejection counter by the number
of the others, the total by the number of values. -/
theorem countWidths_loop (lowThreshold highThreshold : ℚ) : ∀ (vals : List ℚ) (c : Counts),
    (vals.foldl (countStep lowThreshold highThreshold) c).numNeutrons
      = c.numNeutrons
        + vals.countP (fun v => decide (lowThreshold ≤ v ∧ v ≤ highThreshold)) ∧
    (vals.foldl (countStep lowThreshold highThreshold) c).numRejections
      = c.numRejections
        + vals.countP (fun v => !decide (lowThreshold ≤ v ∧ v ≤ highThreshold)) ∧
    (vals.foldl (countStep lowThreshold highThreshold) c).total = c.total + vals.length := by
  intro vals
  induction vals with
  | nil => intro c; simp
  | cons v vals ih =>
    intro c
    simp only [List.foldl_cons, List.length_cons]
    obtain ⟨h1, h2, h3⟩ := ih (countStep lowThreshold highThreshold c v)
    rw [h1, h2, h3]
    by_cases hv : lowThreshold ≤ v ∧ v ≤ highThreshold
    · have hs : countStep lowThreshold highThreshold c v
          = { c with numNeutrons := c.numNeutrons + 1, total := c.total + 1 } := by
        unfold countStep
        rw [if_pos ⟨not_lt.mpr hv.1, not_lt.mpr hv.2⟩]
      have hp : decide (lowThreshold ≤ v ∧ v ≤ highThreshold) = true := decide_eq_true hv
      rw [hs]
      simp only [List.countP_cons, hp]
      refine ⟨?_, ?_, ?_⟩ <;> (try simp) <;> omega
    · have hs : countStep lowThreshold highThreshold c v
          = { c with numRejections := c.numRejections + 1, total := c.total + 1 } := by
        unfold countStep
        rw [if_neg (fun h => hv ⟨not_lt.mp h.1, not_lt.mp h.2⟩)]
      have hp : decide (lowThreshold ≤ v ∧ v ≤ highThreshold) = false := decide_eq_false hv
      rw [hs]
      simp only [List.countP_cons, hp]
      refine ⟨?_, ?_, ?_⟩ <;> (try simp) <;> omega

/-- C4: one iteration of the counting loop increments `numNeutrons` when
`lowCut ≤ value ≤ highCut` (both ends included) and `numRejections`
otherwise; over a whole file `numNeutrons` is the number of values inside
the cuts and `numRejections` the number outside.  The value 5 with cuts 5
and 50 is counted as a neutron, the value 4.999 as a rejection. -/
theorem count_neutron_iff_within_cuts (lowCut highCut value : ℚ) (c : Counts)
    (vals : List ℚ) :
    countStep lowCut highCut c value
      = (if lowCut ≤ value ∧ value ≤ highCut then
          { numRejections := c.numRejections, numNeutrons := c.numNeutrons + 1,
            total := c.total + 1 }
        else
          { numRejections := c.numRejections + 1, numNeutrons := c.numNeutrons,
            total := c.total + 1 }) ∧
    (countWidths lowCut highCut vals).numNeutrons
      = vals.countP (fun v => decide (lowCut ≤ v ∧ v ≤ highCut)) ∧
    (countWidths lowCut highCut vals).numRejections
      = vals.countP (fun v => !decide (lowCut ≤ v ∧ v ≤ highCut)) ∧
    countStep 5 50 ⟨0, 0, 0⟩ 5 = ⟨0, 1, 1⟩ ∧
    countStep 5 50 ⟨0, 0, 0⟩ (4999 / 1000) = ⟨1, 0, 1⟩ := by
  refine ⟨?_, ?_, ?_, by decide!, by decide!⟩
  · unfold countStep
    by_cases hv : lowCut ≤ value ∧ value ≤ highCut
    · rw [if_pos hv, if_pos ⟨not_lt.mpr hv.1, not_lt.mpr hv.2⟩]
    · rw [if_neg hv, if_neg (fun h => hv ⟨not_lt.mp h.1, not_lt.mp h.2⟩)]
  · have h := (countWidths_loop lowCut highCut vals ⟨0, 0, 0⟩).1
    simpa [countWidths] using h
  · have h := (countWidths_loop lowCut highCut vals ⟨0, 0, 0⟩).2.1
    simpa [countWidths] using h

/-- C10: for a run duration `T > 0` the flux is `N_n / (A * T)` with
`A = EJ426DETY * EJ426DETX = 255`, where `N_n` is the neutron count of the
counting loop; for `N_n = 100` and `T = 3600` it is `100 / (255 * 3600)`. -/
theorem flux_is_count_over_area_time (numNeutrons : ℕ) (time : ℚ) (ht : 0 < time)
    (lowThreshold highThreshold : ℚ) (vals : List ℚ) :
    EJ426DETY * EJ426DETX = 255 ∧
    flux numNeutrons time = (numNeutrons : ℚ) / (255 * time) ∧
    printedFlux lowThreshold highThreshold time vals
      = ((countWidths lowThreshold highThreshold vals).numNeutrons : ℚ) / (255 * time) ∧
    flux 100 3600 = 100 / (255 * 3600) := by
  have _ht : time ≠ 0 := ne_of_gt ht
  have hA : EJ426DETY * EJ426DETX = 255 := by
    unfold EJ426DETY EJ426DETX; norm_num
  refine ⟨hA, ?_, ?_, ?_⟩
  · unfold flux; rw [hA]
  · unfold printedFlux flux; rw [hA]
  · unfold flux; rw [hA]; norm_num

/-- Witness of C10 at `N_n = 100`, `T = 3600` and the widths file
`5 6 4` with cuts 5 and 50. -/
theorem flux_is_count_over_area_time_witness :
    (0 : ℚ) < 3600 ∧
    (EJ426DETY * EJ426DETX = 255 ∧
    flux 100 3600 = ((100 : ℕ) : ℚ) / (255 * 3600) ∧
    printedFlux 5 50 3600 [5, 6, 4]
      = ((countWidths 5 50 [5, 6, 4]).numNeutrons : ℚ) / (255 * 3600) ∧
    flux 100 3600 = 100 / (255 * 3600)) :=
  ⟨by norm_num, flux_is_count_over_area_time 100 3600 (by norm_num) 5 50 [5, 6, 4]⟩

/-! ## The flux error (claims C11, C12) -/

/-- The `int` product `numNeutrons*numNeutrons` is exact up to 46340. -/
theorem wrapInt32_sq_of_le (N : ℕ) (hN : N ≤ 46340) :
    wrapInt32 ((N : ℤ) * (N : ℤ)) = (N : ℤ) * (N : ℤ) := by
  have h0 : (0 : ℤ) ≤ (N : ℤ) * (N : ℤ) := mul_nonneg (Int.natCast_nonneg N) (Int.natCast_nonneg N)
  have hN2 : (N : ℤ) ≤ 46340 := by exact_mod_cast hN
  have h1 : (N : ℤ) * (N : ℤ) ≤ 46340 * 46340 :=
    mul_le_mul hN2 hN2 (Int.natCast_nonneg N) (by norm_num)
  generalize (N : ℤ) * (N : ℤ) = m at h0 h1
  unfold wrapInt32
  omega

/-- Up to 46340 neutrons the argument of `sqrt` in `fluxError` is the closed
form of the specification evaluated with `A = 255` and both error constants
`0.5`.  The second and third terms of the specification are the third and
second terms of the code: the two sums agree because the two constants are
equal. -/
theorem fluxErrorArg_eq_spec_of_le (N : ℕ) (T : ℚ) (hN : N ≤ 46340) (hT : 0 < T) :
    fluxErrorArg N T = specFluxErrorArg 255 DETAREAERROR TIMEERR N T := by
  have hT0 : T ≠ 0 := ne_of_gt hT
  unfold fluxErrorArg fluxErrorArgWith specFluxErrorArg
  rw [wrapInt32_sq_of_le N hN]
  simp only [EJ426DETY, EJ426DETX, DETAREAERROR, TIMEERR]
  push_cast
  field_simp
  ring

/-- Up to 46340 neutrons, and for any values of the two error constants, the
argument of `sqrt` in `fluxError` is `flux^2 * (1/N + (AREA_ERR/A)^2 +
(TIME_ERR/T)^2)`, which is the sum of the squared partial derivatives of
`N/(A*T)` times the squared errors `N`, `AREA_ERR^2`, `TIME_ERR^2`. -/
theorem fluxErrorArgWith_quadrature_of_le (areaErr timeErr : ℚ) (N : ℕ) (T : ℚ)
    (hN : N ≤ 46340) (hpos : 0 < N) (hT : 0 < T) :
    fluxErrorArgWith areaErr timeErr N T
      = (flux N T) ^ 2 * (1 / (N : ℚ) + (areaErr / 255) ^ 2 + (timeErr / T) ^ 2) ∧
    fluxErrorArgWith areaErr timeErr N T
      = (1 / (255 * T)) ^ 2 * (N : ℚ)
        + (-(N : ℚ) / (255 ^ 2 * T)) ^ 2 * areaErr ^ 2
        + (-(N : ℚ) / (255 * T ^ 2)) ^ 2 * timeErr ^ 2 := by
  have hT0 : T ≠ 0 := ne_of_gt hT
  have hN0 : (N : ℚ) ≠ 0 := by exact_mod_cast (Nat.pos_iff_ne_zero.mp hpos)
  unfold fluxErrorArgWith flux
  rw [wrapInt32_sq_of_le N hN]
  simp only [EJ426DETY, EJ426DETX]
  push_cast
  constructor
  · field_simp
    ring
  · field_simp
    ring

/-- C11: with 46341 neutrons and `T = 3600` the `int` product
`numNeutrons*numNeutrons` (exactly 2147488281) does not fit 32 bits and comes
out as -2147479015; the argument of `sqrt` in `fluxError` is then not the
closed form of the specification, and `fluxError` is not its square root. -/
theorem fluxError_int_square_overflows :
    (46341 : ℤ) * 46341 = 2147488281 ∧
    wrapInt32 (46341 * 46341) = -2147479015 ∧
    fluxErrorArg 46341 3600 < specFluxErrorArg 255 DETAREAERROR TIMEERR 46341 3600 ∧
    fluxError Real.sqrt 46341 3600
      ≠ Real.sqrt ((specFluxErrorArg 255 DETAREAERROR TIMEERR 46341 3600 : ℚ) : ℝ) := by
  have hlt : fluxErrorArg 46341 3600 < specFluxErrorArg 255 DETAREAERROR TIMEERR 46341 3600 := by
    decide!
  have hnn : (0 : ℚ) ≤ fluxErrorArg 46341 3600 := by decide!
  refine ⟨by norm_num, by decide!, hlt, ?_⟩
  unfold fluxError
  intro h
  have hnn1 : (0 : ℝ) ≤ ((fluxErrorArg 46341 3600 : ℚ) : ℝ) := by exact_mod_cast hnn
  have hnn2 : (0 : ℝ) ≤ ((specFluxErrorArg 255 DETAREAERROR TIMEERR 46341 3600 : ℚ) : ℝ) := by
    exact_mod_cast le_trans hnn (le_of_lt hlt)
  have heq := (Real.sqrt_inj hnn1 hnn2).mp h
  have heq2 : fluxErrorArg 46341 3600 = specFluxErrorArg 255 DETAREAERROR TIMEERR 46341 3600 := by
    exact_mod_cast heq
  exact absurd heq2 (ne_of_lt hlt)

/-- C12: with 46341 neutrons and `T = 3600` the square of `fluxError` is
smaller than the quadrature combination
`flux^2 * (1/N + (AREA_ERR/A)^2 + (TIME_ERR/T)^2)`, for the constants of the
source and for the pair `AREA_ERR = 1`, `TIME_ERR = 2` alike: the `int`
product `numNeutrons*numNeutrons` has overflowed. -/
theorem fluxError_not_quadrature_after_overflow :
    (fluxError Real.sqrt 46341 3600) ^ 2
      = ((fluxErrorArgWith DETAREAERROR TIMEERR 46341 3600 : ℚ) : ℝ) ∧
    fluxErrorArgWith DETAREAERROR TIMEERR 46341 3600
      < (flux 46341 3600) ^ 2
        * (1 / ((46341 : ℕ) : ℚ) + (DETAREAERROR / 255) ^ 2 + (TIMEERR / 3600) ^ 2) ∧
    fluxErrorArgWith 1 2 46341 3600
      < (flux 46341 3600) ^ 2 * (1 / ((46341 : ℕ) : ℚ) + (1 / 255) ^ 2 + (2 / 3600) ^ 2) := by
  refine ⟨?_, by decide!, by decide!⟩
  have hnn : (0 : ℚ) ≤ fluxErrorArg 46341 3600 := by decide!
  have hnn1 : (0 : ℝ) ≤ ((fluxErrorArg 46341 3600 : ℚ) : ℝ) := by exact_mod_cast hnn
  unfold fluxError
  rw [Real.sq_sqrt hnn1]
  rfl

/-! ## The rate errors (claim C13) -/

/-- The square root of `x / t^2` for `t > 0`. -/
theorem sqrt_div_sq (x t : ℝ) (hx : 0 ≤ x) (ht : 0 < t) :
    Real.sqrt (x / t ^ 2) = Real.sqrt x / t := by
  rw [Real.sqrt_div hx, Real.sqrt_sq (le_of_lt ht)]

/-- C13: for a run duration `T > 0` and any count `N`, the rate error per
second is `sqrt(N * (1 + N * TIMEERR^2 / T^2)) / T`, for the neutrons and for
the rejections; it is the quadrature sum of the Poisson term `sqrt(N)/T` and
of the timing term `(N/T) * TIMEERR / T`; and the rate error per hour is 3600
times the rate error per second. -/
theorem rate_error_is_poisson_plus_timing (count : ℕ) (time : ℚ) (ht : 0 < time) :
    neutRateErr Real.sqrt count time
      = Real.sqrt ((count : ℝ) * (1 + (count : ℝ) * ((TIMEERR : ℚ) : ℝ) ^ 2 / (time : ℝ) ^ 2))
        / (time : ℝ) ∧
    nonNeutRateErr Real.sqrt count time = neutRateErr Real.sqrt count time ∧
    neutRateErr Real.sqrt count time
      = Real.sqrt ((Real.sqrt (count : ℝ) / (time : ℝ)) ^ 2
          + ((count : ℝ) / (time : ℝ) * ((TIMEERR : ℚ) : ℝ) / (time : ℝ)) ^ 2) ∧
    neutRateHrErr Real.sqrt count time = 3600 * neutRateErr Real.sqrt count time ∧
    nonNeutRateHrErr Real.sqrt count time = 3600 * nonNeutRateErr Real.sqrt count time := by
  have htR : (0 : ℝ) < (time : ℝ) := by exact_mod_cast ht
  have ht0 : (time : ℝ) ≠ 0 := ne_of_gt htR
  have hc : (0 : ℝ) ≤ (count : ℝ) := Nat.cast_nonneg count
  have harg : (((rateErrArg count time : ℚ)) : ℝ)
      = (count : ℝ) * (1 + (count : ℝ) * ((TIMEERR : ℚ) : ℝ) ^ 2 / (time : ℝ) ^ 2) := by
    unfold rateErrArg
    push_cast
    ring
  have hnn : (0 : ℝ)
      ≤ (count : ℝ) * (1 + (count : ℝ) * ((TIMEERR : ℚ) : ℝ) ^ 2 / (time : ℝ) ^ 2) := by
    apply mul_nonneg hc
    have : (0 : ℝ) ≤ (count : ℝ) * ((TIMEERR : ℚ) : ℝ) ^ 2 / (time : ℝ) ^ 2 :=
      div_nonneg (mul_nonneg hc (sq_nonneg _)) (sq_nonneg _)
    linarith
  have hfirst : neutRateErr Real.sqrt count time
      = Real.sqrt ((count : ℝ) * (1 + (count : ℝ) * ((TIMEERR : ℚ) : ℝ) ^ 2 / (time : ℝ) ^ 2))
        / (time : ℝ) := by
    unfold neutRateErr
    rw [harg]
  refine ⟨hfirst, rfl, ?_, ?_, ?_⟩
  · rw [hfirst, ← sqrt_div_sq _ _ hnn htR]
    congr 1
    rw [div_pow, Real.sq_sqrt hc]
    field_simp
    ring
  · unfold neutRateHrErr neutRateErr
    ring
  · unfold nonNeutRateHrErr nonNeutRateErr
    ring

/-- Witness of C13 at 100 counts in 3600 seconds. -/
theorem rate_error_is_poisson_plus_timing_witness :
    (0 : ℚ) < 3600 ∧
    (neutRateErr Real.sqrt 100 3600
      = Real.sqrt (((100 : ℕ) : ℝ)
          * (1 + ((100 : ℕ) : ℝ) * ((TIMEERR : ℚ) : ℝ) ^ 2 / ((3600 : ℚ) : ℝ) ^ 2))
        / ((3600 : ℚ) : ℝ) ∧
    nonNeutRateErr Real.sqrt 100 3600 = neutRateErr Real.sqrt 100 3600 ∧
    neutRateErr Real.sqrt 100 3600
      = Real.sqrt ((Real.sqrt ((100 : ℕ) : ℝ) / ((3600 : ℚ) : ℝ)) ^ 2
          + (((100 : ℕ) : ℝ) / ((3600 : ℚ) : ℝ) * ((TIMEERR : ℚ) : ℝ) / ((3600 : ℚ) : ℝ)) ^ 2) ∧
    neutRateHrErr Real.sqrt 100 3600 = 3600 * neutRateErr Real.sqrt 100 3600 ∧
    nonNeutRateHrErr Real.sqrt 100 3600 = 3600 * nonNeutRateErr Real.sqrt 100 3600) :=
  ⟨by norm_num, rate_error_is_poisson_plus_timing 100 3600 (by norm_num)⟩

/-! ## Efficiencies (claims C14, C15) -/

/-- The counting loop of `widthDerivedNeutronRateVal` entered with `n`: it
adds the number of values inside the cuts. -/
theorem countNeutrons_loop (lowThreshold highThreshold : ℚ) : ∀ (vals : List ℚ) (n : ℕ),
    vals.foldl
      (fun numNeutrons inVal =>
        if (¬ (inVal < lowThreshold)) ∧ (¬ (inVal > highThreshold)) then numNeutrons + 1
        else numNeutrons) n
      = n + vals.countP (fun v => decide (lowThreshold ≤ v ∧ v ≤ highThreshold)) := by
  intro vals
  induction vals with
  | nil => intro n; simp
  | cons v vals ih =>
    intro n
    simp only [List.foldl_cons, List.countP_cons]
    rw [ih]
    by_cases hv : lowThreshold ≤ v ∧ v ≤ highThreshold
    · have hp : decide (lowThreshold ≤ v ∧ v ≤ highThreshold) = true := decide_eq_true hv
      rw [if_pos ⟨not_lt.mpr hv.1, not_lt.mpr hv.2⟩, hp]
      simp
      omega
    · have hp : decide (lowThreshold ≤ v ∧ v ≤ highThreshold) = false := decide_eq_false hv
      rw [if_neg (fun h => hv ⟨not_lt.mp h.1, not_lt.mp h.2⟩), hp]
      simp

/-- The neutron count of `widthDerivedNeutronRateVal` is the number of
values inside the cuts, both ends included. -/
theorem countNeutrons_eq_countP (lowThreshold highThreshold : ℚ) (vals : List ℚ) :
    countNeutrons lowThreshold highThreshold vals
      = vals.countP (fun v => decide (lowThreshold ≤ v ∧ v ≤ highThreshold)) := by
  unfold countNeutrons
  rw [countNeutrons_loop]
  simp

/-- C14: for a recognised orientation, `S > 0`, `T > 0` and `d ≥ 0`,
`WidthsDerivedEfficiencies` appends the line
`absoluteEfficiency intrinsicEfficiency` with
`absoluteEfficiency = (N_n / T) / S`, `N_n` the number of widths inside the
cuts, and `intrinsicEfficiency = absoluteEfficiency * 4 * π / Ω`,
`Ω = 4 * atan(width * length / (4 * trueDistance * sqrt(width^2/4 +
length^2/4 + trueDistance^2)))`, `trueDistance = d + depth/2`; `width` and
`depth` are `DETZ/100` and `DETY/100` when horizontal, `DETY/100` and
`DETZ/100` when vertical, and `length` is `EJ426DETX`. -/
theorem efficiencies_formulas (out : List (ℝ × ℝ)) (orientation : String)
    (d S lowThreshold highThreshold T : ℚ) (vals : List ℚ)
    (horient : orientation = horizontal ∨ orientation = vertical)
    (hS : 0 < S) (hT : 0 < T) (hd : 0 ≤ d) :
    ∃ (N_n : ℕ) (width depth : ℚ) (absoluteEfficiency Omega : ℝ),
      N_n = vals.countP (fun v => decide (lowThreshold ≤ v ∧ v ≤ highThreshold)) ∧
      width = (if orientation = horizontal then DETZ / 100 else DETY / 100) ∧
      depth = (if orientation = horizontal then DETY / 100 else DETZ / 100) ∧
      absoluteEfficiency = ((N_n : ℝ) / (T : ℝ)) / (S : ℝ) ∧
      Omega = 4 * Real.arctan ((width : ℝ) * (EJ426DETX : ℝ)
        / (4 * ((d : ℝ) + (depth : ℝ) / 2)
            * Real.sqrt ((width : ℝ) ^ 2 / 4 + (EJ426DETX : ℝ) ^ 2 / 4
                + ((d : ℝ) + (depth : ℝ) / 2) ^ 2))) ∧
      WidthsDerivedEfficiencies Real.sqrt Real.arctan Real.pi out orientation d S
          lowThreshold highThreshold T vals
        = (false, out ++ [(absoluteEfficiency, absoluteEfficiency * 4 * Real.pi / Omega)]) := by
  have _hS : S ≠ 0 := ne_of_gt hS
  have _hT : T ≠ 0 := ne_of_gt hT
  have _hd : 0 ≤ d := hd
  refine ⟨countNeutrons lowThreshold highThreshold vals, detectorWidth orientation,
    detectorDepth orientation, _, _, countNeutrons_eq_countP _ _ _, rfl, rfl, rfl, rfl, ?_⟩
  have hne : ¬ ((¬ (orientation = horizontal)) ∧ (¬ (orientation = vertical))) := by
    rcases horient with h | h
    · exact fun hh => hh.1 h
    · exact fun hh => hh.2 h
  unfold WidthsDerivedEfficiencies
  rw [if_neg hne]
  have habs : (((widthDerivedNeutronRateVal lowThreshold highThreshold T vals / S : ℚ)) : ℝ)
      = ((countNeutrons lowThreshold highThreshold vals : ℝ) / (T : ℝ)) / (S : ℝ) := by
    unfold widthDerivedNeutronRateVal
    push_cast
    rfl
  have hOmega : solidAngle Real.sqrt Real.arctan orientation d
      = 4 * Real.arctan ((detectorWidth orientation : ℝ) * (EJ426DETX : ℝ)
        / (4 * ((d : ℝ) + (detectorDepth orientation : ℝ) / 2)
            * Real.sqrt ((detectorWidth orientation : ℝ) ^ 2 / 4 + (EJ426DETX : ℝ) ^ 2 / 4
                + ((d : ℝ) + (detectorDepth orientation : ℝ) / 2) ^ 2))) := by
    unfold solidAngle trueDistance
    have h1 : (((detectorWidth orientation * detectorWidth orientation / 4
            + EJ426DETX * EJ426DETX / 4
            + (d + detectorDepth orientation / 2) * (d + detectorDepth orientation / 2) : ℚ)) : ℝ)
        = (detectorWidth orientation : ℝ) ^ 2 / 4 + (EJ426DETX : ℝ) ^ 2 / 4
                + ((d : ℝ) + (detectorDepth orientation : ℝ) / 2) ^ 2 := by
      push_cast
      ring
    rw [h1]
    push_cast
    rfl
  simp only [habs, hOmega]

/-- Witness of C14: horizontal detector one metre from a source of activity
273800, a run of 3600 seconds and the widths `5 6 4` with cuts 5 and 50. -/
theorem efficiencies_formulas_witness :
    (horizontal = horizontal ∨ horizontal = vertical) ∧ (0 : ℚ) < 273800 ∧ (0 : ℚ) < 3600 ∧
    (0 : ℚ) ≤ 1 ∧
    ∃ (N_n : ℕ) (width depth : ℚ) (absoluteEfficiency Omega : ℝ),
      N_n = ([5, 6, 4] : List ℚ).countP (fun v => decide ((5 : ℚ) ≤ v ∧ v ≤ 50)) ∧
      width = (if horizontal = horizontal then DETZ / 100 else DETY / 100) ∧
      depth = (if horizontal = horizontal then DETY / 100 else DETZ / 100) ∧
      absoluteEfficiency = ((N_n : ℝ) / ((3600 : ℚ) : ℝ)) / ((273800 : ℚ) : ℝ) ∧
      Omega = 4 * Real.arctan ((width : ℝ) * (EJ426DETX : ℝ)
        / (4 * (((1 : ℚ) : ℝ) + (depth : ℝ) / 2)
            * Real.sqrt ((width : ℝ) ^ 2 / 4 + (EJ426DETX : ℝ) ^ 2 / 4
                + (((1 : ℚ) : ℝ) + (depth : ℝ) / 2) ^ 2))) ∧
      WidthsDerivedEfficiencies Real.sqrt Real.arctan Real.pi [] horizontal 1 273800
          5 50 3600 [5, 6, 4]
        = (false, [] ++ [(absoluteEfficiency, absoluteEfficiency * 4 * Real.pi / Omega)]) :=
  ⟨Or.inl rfl, by norm_num, by norm_num, by norm_num,
    efficiencies_formulas [] horizontal 1 273800 5 50 3600 [5, 6, 4] (Or.inl rfl)
      (by norm_num) (by norm_num) (by norm_num)⟩

/-- C15: `WidthsDerivedEfficiencies` takes the fatal exit exactly when the
orientation is neither `horizontal` nor `vertical`, and then the output file
is as it was before the call; for the two recognised orientations the output
file is the one before the call with exactly one line appended.  This holds
whatever the widths file holds. -/
theorem efficiencies_fatal_iff_unknown_orientation {K : Type} [Field K] (sqrt atan : K → K)
    (M_PI : K) (out : List (K × K)) (orientation : String)
    (d S lowThreshold highThreshold T : ℚ) (vals : List ℚ) :
    ((WidthsDerivedEfficiencies sqrt atan M_PI out orientation d S lowThreshold highThreshold
        T vals).1 = true
      ↔ (orientation ≠ horizontal ∧ orientation ≠ vertical)) ∧
    (∃ line : K × K,
      (WidthsDerivedEfficiencies sqrt atan M_PI out orientation d S lowThreshold highThreshold
          T vals).2
        = if orientation ≠ horizontal ∧ orientation ≠ vertical then out else out ++ [line]) ∧
    (WidthsDerivedEfficiencies sqrt atan M_PI out horizontal d S lowThreshold highThreshold
        T vals).1 = false ∧
    (WidthsDerivedEfficiencies sqrt atan M_PI out vertical d S lowThreshold highThreshold
        T vals).1 = false := by
  have hh : ¬ ((¬ (horizontal = horizontal)) ∧ (¬ (horizontal = vertical))) := fun h => h.1 rfl
  have hv : ¬ ((¬ (vertical = horizontal)) ∧ (¬ (vertical = vertical))) := fun h => h.2 rfl
  refine ⟨?_, ?_, ?_, ?_⟩
  · unfold WidthsDerivedEfficiencies
    by_cases h : (¬ (orientation = horizontal)) ∧ (¬ (orientation = vertical))
    · rw [if_pos h]
      exact ⟨fun _ => h, fun _ => rfl⟩
    · rw [if_neg h]
      exact ⟨fun hf => absurd hf (by simp), fun hh2 => absurd hh2 h⟩
  · unfold WidthsDerivedEfficiencies
    by_cases h : (¬ (orientation = horizontal)) ∧ (¬ (orientation = vertical))
    · rw [if_pos h]
      exact ⟨(0, 0), by rw [if_pos h]⟩
    · rw [if_neg h]
      exact ⟨_, by rw [if_neg h]⟩
  · unfold WidthsDerivedEfficiencies
    rw [if_neg hh]
  · unfold WidthsDerivedEfficiencies
    rw [if_neg hv]

/-! ## Figure of merit (claim C16) -/

/-- The partial derivatives of `F(X, W_a, W_b) = X / (W_a + W_b)` where
`W_a + W_b ≠ 0`: `1/(W_a+W_b)` in `X`, `-X/(W_a+W_b)^2` in `W_a` and in
`W_b`. -/
theorem FoM_partial_derivatives (X W_a W_b : ℝ) (h : W_a + W_b ≠ 0) :
    HasDerivAt (fun x : ℝ => x / (W_a + W_b)) (1 / (W_a + W_b)) X ∧
    HasDerivAt (fun w : ℝ => X / (w + W_b)) (-X / (W_a + W_b) ^ 2) W_a ∧
    HasDerivAt (fun w : ℝ => X / (W_a + w)) (-X / (W_a + W_b) ^ 2) W_b := by
  refine ⟨?_, ?_, ?_⟩
  · exact (hasDerivAt_id X).div_const (W_a + W_b)
  · have h1 : HasDerivAt (fun w : ℝ => w + W_b) 1 W_a := (hasDerivAt_id W_a).add_const W_b
    have h2 := (hasDerivAt_const W_a X).div h1 h
    convert h2 using 1
    simp
  · have h1 : HasDerivAt (fun w : ℝ => W_a + w) 1 W_b := (hasDerivAt_id W_b).const_add W_a
    have h2 := (hasDerivAt_const W_b X).div h1 h
    convert h2 using 1
    simp

/-- C16: where `W_a + W_b ≠ 0`, `FoM` computes `figure = X / (W_a + W_b)`
and the error `sqrt((dX * dF/dX)^2 + (dW_a * dF/dW_a)^2 + (dW_b * dF/dW_b)^2)`
with `dF/dX = 1/(W_a+W_b)` and `dF/dW_a = dF/dW_b = -X/(W_a+W_b)^2`, that is
`sqrt(dX^2/(W_a+W_b)^2 + X^2*dW_a^2/(W_a+W_b)^4 + X^2*dW_b^2/(W_a+W_b)^4)`.
For `FoM(75, 2, 5, 2, 50, 2)` the figure is `75/55` and the square of the
error is `2284/366025`. -/
theorem FoM_figure_and_error (X dX W_a dW_a W_b dW_b : ℚ) (h : W_a + W_b ≠ 0) :
    (FoM Real.sqrt X dX W_a dW_a W_b dW_b).1 = X / (W_a + W_b) ∧
    (FoM Real.sqrt X dX W_a dW_a W_b dW_b).2
      = Real.sqrt (((dX : ℝ) * (1 / ((W_a : ℝ) + (W_b : ℝ)))) ^ 2
          + ((dW_a : ℝ) * (-(X : ℝ) / ((W_a : ℝ) + (W_b : ℝ)) ^ 2)) ^ 2
          + ((dW_b : ℝ) * (-(X : ℝ) / ((W_a : ℝ) + (W_b : ℝ)) ^ 2)) ^ 2) ∧
    (FoM Real.sqrt X dX W_a dW_a W_b dW_b).2
      = Real.sqrt ((dX : ℝ) ^ 2 / ((W_a : ℝ) + (W_b : ℝ)) ^ 2
          + (X : ℝ) ^ 2 * (dW_a : ℝ) ^ 2 / ((W_a : ℝ) + (W_b : ℝ)) ^ 4
          + (X : ℝ) ^ 2 * (dW_b : ℝ) ^ 2 / ((W_a : ℝ) + (W_b : ℝ)) ^ 4) ∧
    (HasDerivAt (fun x : ℝ => x / ((W_a : ℝ) + (W_b : ℝ))) (1 / ((W_a : ℝ) + (W_b : ℝ))) (X : ℝ) ∧
      HasDerivAt (fun w : ℝ => (X : ℝ) / (w + (W_b : ℝ)))
        (-(X : ℝ) / ((W_a : ℝ) + (W_b : ℝ)) ^ 2) (W_a : ℝ) ∧
      HasDerivAt (fun w : ℝ => (X : ℝ) / ((W_a : ℝ) + w))
        (-(X : ℝ) / ((W_a : ℝ) + (W_b : ℝ)) ^ 2) (W_b : ℝ)) ∧
    (FoM Real.sqrt 75 2 5 2 50 2).1 = 75 / 55 ∧
    FoMErrArg 75 2 5 2 50 2 = 2284 / 366025 ∧
    (FoM Real.sqrt 75 2 5 2 50 2).2 ^ 2 = 2284 / 366025 := by
  have hR : (W_a : ℝ) + (W_b : ℝ) ≠ 0 := by exact_mod_cast h
  have hval : FoMErrArg 75 2 5 2 50 2 = 2284 / 366025 := by decide!
  refine ⟨rfl, ?_, ?_, FoM_partial_derivatives _ _ _ hR, by decide!, hval, ?_⟩
  · simp only [FoM, FoMErrArg]
    congr 1
    push_cast
    field_simp
    ring
  · simp only [FoM, FoMErrArg]
    congr 1
    push_cast
    field_simp
    ring
  · simp only [FoM]
    rw [hval, Real.sq_sqrt (by norm_num)]
    norm_num

/-- Witness of C16 at the call `FoM(75, 2, 5, 2, 50, 2)` of `main`. -/
theorem FoM_figure_and_error_witness :
    ((5 : ℚ) + 50 ≠ 0) ∧
    (FoM Real.sqrt 75 2 5 2 50 2).1 = 75 / (5 + 50) ∧
    (FoM Real.sqrt 75 2 5 2 50 2).2
      = Real.sqrt ((((2 : ℚ) : ℝ)) ^ 2 / (((5 : ℚ) : ℝ) + ((50 : ℚ) : ℝ)) ^ 2
          + ((75 : ℚ) : ℝ) ^ 2 * ((2 : ℚ) : ℝ) ^ 2 / (((5 : ℚ) : ℝ) + ((50 : ℚ) : ℝ)) ^ 4
          + ((75 : ℚ) : ℝ) ^ 2 * ((2 : ℚ) : ℝ) ^ 2 / (((5 : ℚ) : ℝ) + ((50 : ℚ) : ℝ)) ^ 4) :=
  ⟨by norm_num,
    (FoM_figure_and_error 75 2 5 2 50 2 (by norm_num)).1,
    (FoM_figure_and_error 75 2 5 2 50 2 (by norm_num)).2.2.1⟩

/-! ## The integrals (claims C17, C18) -/

/-- A reading loop whose frame body appends one record `g wave` writes the
records of the frames formed, in order. -/
theorem frameLoop_append_map {β : Type} (wSize : ℕ) (g : List ℚ → β) (input : List ℚ) :
    frameLoop wSize (fun out wave => out ++ [g wave]) 0 [] [] input
      = (frames wSize input).map g := by
  rw [frameLoop_eq_foldl]
  have : ∀ (l : List (List ℚ)) (out : List β),
      l.foldl (fun out wave => out ++ [g wave]) out = out ++ l.map g := by
    intro l
    induction l with
    | nil => intro out; simp
    | cons a l ih => intro out; simp [ih]
  simpa [frames] using this _ []

/-- The integration loop of `peakTailIntegrate` over indexed samples,
entered with the sums `pt`: `peak` grows by the samples whose index is below
`peakXValue`, `tail` by those whose index is strictly between `peakXValue`
and `tailEndXVal`. -/
theorem peakTail_loop (peakXValue tailEndXVal : ℕ) : ∀ (L : List (ℕ × ℚ)) (pt : ℚ × ℚ),
    L.foldl
      (fun (pt : ℚ × ℚ) (iw : ℕ × ℚ) =>
        if iw.1 < peakXValue then (pt.1 + iw.2, pt.2)
        else if iw.1 > peakXValue ∧ iw.1 < tailEndXVal then (pt.1, pt.2 + iw.2)
        else pt) pt
      = (pt.1 + ((L.filter (fun iw => decide (iw.1 < peakXValue))).map Prod.snd).sum,
         pt.2 + ((L.filter
            (fun iw => decide (peakXValue < iw.1 ∧ iw.1 < tailEndXVal))).map Prod.snd).sum) := by
  intro L
  induction L with
  | nil => intro pt; simp
  | cons iw L ih =>
    intro pt
    simp only [List.foldl_cons]
    rw [ih]
    by_cases h1 : iw.1 < peakXValue
    · have h2 : ¬ (peakXValue < iw.1 ∧ iw.1 < tailEndXVal) := fun h => by omega
      rw [if_pos h1, List.filter_cons_of_pos (by simpa using h1),
        List.filter_cons_of_neg (by simpa using h2)]
      simp only [List.map_cons, List.sum_cons]
      ext <;> simp
      ring
    · by_cases h2 : peakXValue < iw.1 ∧ iw.1 < tailEndXVal
      · rw [if_neg h1, if_pos (show iw.1 > peakXValue ∧ iw.1 < tailEndXVal from h2),
          List.filter_cons_of_neg (by simpa using h1),
          List.filter_cons_of_pos (by simpa using h2)]
        simp only [List.map_cons, List.sum_cons]
        ext <;> simp
        ring
      · rw [if_neg h1, if_neg (show ¬ (iw.1 > peakXValue ∧ iw.1 < tailEndXVal) from h2),
          List.filter_cons_of_neg (by simpa using h1),
          List.filter_cons_of_neg (by simpa using h2)]

/-- C17: on the baseline-subtracted frame, `peakIntegral` is the sum of the
samples whose index is below `peakXValue` and `tailIntegral` the sum of the
samples whose index is strictly between `peakXValue` and `tailEndXVal`; the
samples at `peakXValue` and at `tailEndXVal` are in neither.  One such record
is written per frame.  On `[1, 2, 3, 4, 5]` with boundaries 2 and 4 the
integrals are 3 and 4. -/
theorem peakTail_sums_exclude_boundaries (oob : ℕ → ℚ)
    (wSize baseLEnd peakXValue tailEndXVal : ℕ) (wave input : List ℚ) :
    (peakTailFrame oob baseLEnd peakXValue tailEndXVal wave).1
      = (((baselineAdjustFrame oob baseLEnd wave).enum.filter
          (fun iw => decide (iw.1 < peakXValue))).map Prod.snd).sum ∧
    (peakTailFrame oob baseLEnd peakXValue tailEndXVal wave).2
      = (((baselineAdjustFrame oob baseLEnd wave).enum.filter
          (fun iw => decide (peakXValue < iw.1 ∧ iw.1 < tailEndXVal))).map Prod.snd).sum ∧
    peakTailIntegrate oob wSize baseLEnd peakXValue tailEndXVal input
      = (frames wSize input).map (peakTailFrame oob baseLEnd peakXValue tailEndXVal) ∧
    peakTailSplit 2 4 [1, 2, 3, 4, 5] = (3, 4) := by
  have h := peakTail_loop peakXValue tailEndXVal (baselineAdjustFrame oob baseLEnd wave).enum (0, 0)
  refine ⟨?_, ?_, ?_, by decide!⟩
  · unfold peakTailFrame peakTailSplit
    rw [h]
    simp
  · unfold peakTailFrame peakTailSplit
    rw [h]
    simp
  · unfold peakTailIntegrate
    exact frameLoop_append_map wSize _ input

/-- The loop `totalInt += wave[i]` from `wStart`, run `n` times, adds up the
reads at the indices `wStart .. wStart + n - 1`. -/
theorem windowIntegral_loop (oob : ℕ → ℚ) (wave : List ℚ) (wStart : ℕ) : ∀ n : ℕ,
    (List.range' wStart n).foldl (fun totalInt i => totalInt + rd oob wave i) 0
      = ∑ i in Finset.Ico wStart (wStart + n), rd oob wave i := by
  intro n
  induction n with
  | zero => simp
  | succ n ih =>
    rw [List.range'_1_concat, List.foldl_append, ih]
    simp only [List.foldl_cons, List.foldl_nil]
    rw [← Nat.add_assoc, Finset.sum_Ico_succ_top (Nat.le_add_right wStart n)]

/-- With `wStart ≤ wEnd ≤ wave.size()` the window integral is the sum of the
samples of the frame with index in `[wStart, wEnd)`. -/
theorem windowIntegral_eq_sum (oob : ℕ → ℚ) (wave : List ℚ) (wStart wEnd : ℕ)
    (h1 : wStart ≤ wEnd) (h2 : wEnd ≤ wave.length) :
    windowIntegral oob wave wStart wEnd = ∑ i in Finset.Ico wStart wEnd, wave.getD i 0 := by
  unfold windowIntegral
  rw [windowIntegral_loop, Nat.add_sub_cancel' h1]
  apply Finset.sum_congr rfl
  intro i hi
  have hi2 : i < wave.length := lt_of_lt_of_le (Finset.mem_Ico.mp hi).2 h2
  unfold rd
  rw [List.getD_eq_getElem _ _ hi2, List.getD_eq_getElem _ _ hi2]

/-- C18: for a frame of `wSize` samples and a window
`0 ≤ wStart ≤ wEnd ≤ wSize`, the frame body of `totalIntVsWidth` appends the
record `(width, totalIntegral)`, with `totalIntegral` the sum of the
baseline-subtracted samples of index in `[wStart, wEnd)`, exactly when the
computed width satisfies `0 < width < 0.8 * wSize`, and appends nothing
otherwise; `totalIntVsWidth` is the fold of that body over the frames.  The
integral `totalIntPostBaselineAdjusted` writes is the same window sum. -/
theorem totalIntVsWidth_window_sum_iff_valid (threshold : ℚ)
    (wSize baseLEnd wStart wEnd : ℕ) (oob : ℕ → ℚ) (init : ScanState) (input : List ℚ)
    (s : ScanState × List (ℤ × ℚ)) (wave : List ℚ)
    (hlen : wave.length = wSize) (h1 : wStart ≤ wEnd) (h2 : wEnd ≤ wSize) :
    totalIntVsWidth threshold wSize baseLEnd wStart wEnd oob init input
      = ((frames wSize input).foldl
          (totalIntVsWidthProcess threshold wSize baseLEnd wStart wEnd oob) (init, [])).2 ∧
    (totalIntVsWidthProcess threshold wSize baseLEnd wStart wEnd oob s wave).2
      = s.2 ++
        (if 0 < (((totalIntVsWidthScan threshold wSize baseLEnd oob s.1 wave).highTime
                  - (totalIntVsWidthScan threshold wSize baseLEnd oob s.1 wave).lowTime : ℤ) : ℚ) ∧
            (((totalIntVsWidthScan threshold wSize baseLEnd oob s.1 wave).highTime
                  - (totalIntVsWidthScan threshold wSize baseLEnd oob s.1 wave).lowTime : ℤ) : ℚ)
              < 4 / 5 * (wSize : ℚ) then
          [((totalIntVsWidthScan threshold wSize baseLEnd oob s.1 wave).highTime
              - (totalIntVsWidthScan threshold wSize baseLEnd oob s.1 wave).lowTime,
            ∑ i in Finset.Ico wStart wEnd, (baselineAdjustFrame oob baseLEnd wave).getD i 0)]
        else []) ∧
    windowIntegral oob wave wStart wEnd = ∑ i in Finset.Ico wStart wEnd, wave.getD i 0 ∧
    totalIntPostBaselineAdjusted oob wSize wStart wEnd input
      = (frames wSize input).map (fun wave => windowIntegral oob wave wStart wEnd) := by
  have hadj : wEnd ≤ (baselineAdjustFrame oob baseLEnd wave).length := by
    simp [baselineAdjustFrame, subtractBasel, hlen, h2]
  refine ⟨?_, ?_, ?_, ?_⟩
  · unfold totalIntVsWidth frames
    rw [frameLoop_eq_foldl]
  · simp only [totalIntVsWidthProcess, widthValid]
    rw [windowIntegral_eq_sum oob _ wStart wEnd h1 hadj]
    by_cases hv : 0 < (((totalIntVsWidthScan threshold wSize baseLEnd oob s.1 wave).highTime
                  - (totalIntVsWidthScan threshold wSize baseLEnd oob s.1 wave).lowTime : ℤ) : ℚ) ∧
            (((totalIntVsWidthScan threshold wSize baseLEnd oob s.1 wave).highTime
                  - (totalIntVsWidthScan threshold wSize baseLEnd oob s.1 wave).lowTime : ℤ) : ℚ)
              < 4 / 5 * (wSize : ℚ)
    · rw [if_pos hv, if_pos ⟨hv.2, hv.1⟩]
    · rw [if_neg hv, if_neg (fun h => hv ⟨h.2, h.1⟩)]
      simp
  · exact windowIntegral_eq_sum oob wave wStart wEnd h1 (by omega)
  · unfold totalIntPostBaselineAdjusted
    exact frameLoop_append_map wSize _ input

/-- Witness of C18: the frame `[0, 1, 2, 3, 1]` with `baseLEnd = 1`, window
`[1, 4)` and threshold `1/2`. -/
theorem totalIntVsWidth_window_sum_iff_valid_witness :
    (([0, 1, 2, 3, 1] : List ℚ).length = 5 ∧ 1 ≤ 4 ∧ 4 ≤ 5) ∧
    (totalIntVsWidthProcess (1 / 2) 5 1 1 4 (fun _ => 0) (⟨0, 0⟩, []) [0, 1, 2, 3, 1]).2
      = ([] : List (ℤ × ℚ)) ++
        (if 0 < (((totalIntVsWidthScan (1 / 2) 5 1 (fun _ => 0) ⟨0, 0⟩ [0, 1, 2, 3, 1]).highTime
                  - (totalIntVsWidthScan (1 / 2) 5 1 (fun _ => 0) ⟨0, 0⟩
                      [0, 1, 2, 3, 1]).lowTime : ℤ) : ℚ) ∧
            (((totalIntVsWidthScan (1 / 2) 5 1 (fun _ => 0) ⟨0, 0⟩ [0, 1, 2, 3, 1]).highTime
                  - (totalIntVsWidthScan (1 / 2) 5 1 (fun _ => 0) ⟨0, 0⟩
                      [0, 1, 2, 3, 1]).lowTime : ℤ) : ℚ)
              < 4 / 5 * ((5 : ℕ) : ℚ) then
          [((totalIntVsWidthScan (1 / 2) 5 1 (fun _ => 0) ⟨0, 0⟩ [0, 1, 2, 3, 1]).highTime
              - (totalIntVsWidthScan (1 / 2) 5 1 (fun _ => 0) ⟨0, 0⟩ [0, 1, 2, 3, 1]).lowTime,
            ∑ i in Finset.Ico 1 4,
              (baselineAdjustFrame (fun _ => 0) 1 [0, 1, 2, 3, 1]).getD i 0)]
        else []) ∧
    totalIntVsWidth (1 / 2) 5 1 1 4 (fun _ => 0) ⟨0, 0⟩ [0, 1, 2, 3, 1, 9, 0, 0, 0, 4, 0, 9]
      = [(1, 6)] :=
  ⟨⟨by decide, by decide, by decide⟩,
    (totalIntVsWidth_window_sum_iff_valid (1 / 2) 5 1 1 4 (fun _ => 0) ⟨0, 0⟩ []
      (⟨0, 0⟩, []) [0, 1, 2, 3, 1] (by decide) (by decide) (by decide)).2.1,
    by decide!⟩

/-! ## Integral risetime and PGA (claims C19, C20) -/

/-- The loop `totalIntegral += wave[i]` entered with `a` adds the sum of the
samples. -/
theorem foldl_add_eq_sum (l : List ℚ) : ∀ a : ℚ,
    l.foldl (fun totalIntegral x => totalIntegral + x) a = a + l.sum := by
  induction l with
  | nil => intro a; simp
  | cons x l ih => intro a; simp [ih]; ring

/-- The accumulating scan over `l`, whose head has index `i0`, entered with
`accumulate = acc`: when some running sum exceeds `level`, the scan breaks at
the first index where it does. -/
theorem scanAccumulate_first (level : ℚ) (l : List ℚ) : ∀ (i0 : ℕ) (acc : ℚ),
    (∃ i, i < l.length ∧ acc + (l.take (i + 1)).sum > level) →
    ∃ k, scanAccumulate level l i0 acc = some (i0 + k) ∧ k < l.length ∧
      acc + (l.take (k + 1)).sum > level ∧
      ∀ j, j < k → ¬ acc + (l.take (j + 1)).sum > level := by
  induction l with
  | nil => intro i0 acc h; obtain ⟨i, hi, _⟩ := h; simp at hi
  | cons x xs ih =>
    intro i0 acc h
    obtain ⟨i, hi, hc⟩ := h
    by_cases hx : acc + x > level
    · refine ⟨0, by simp [scanAccumulate, hx], by simp, by simpa using hx, ?_⟩
      intro j hj; omega
    · cases i with
      | zero => exact absurd (by simpa using hc) hx
      | succ i =>
        have hc2 : acc + x + (xs.take (i + 1)).sum > level := by
          simpa [List.take_succ_cons, add_assoc] using hc
        obtain ⟨k, hk, hlen, hcross, hmin⟩ :=
          ih (i0 + 1) (acc + x) ⟨i, by simpa using hi, hc2⟩
        refine ⟨k + 1, ?_, by simpa using hlen, ?_, ?_⟩
        · simp only [scanAccumulate, if_neg hx, hk]
          congr 1
          omega
        · simpa [List.take_succ_cons, add_assoc] using hcross
        · intro j hj
          cases j with
          | zero => simpa using hx
          | succ j =>
            have := hmin j (by omega)
            simpa [List.take_succ_cons, add_assoc] using this

/-- C19: in a frame where both running sums cross their level, the record
of `IntegralRisetimeVsAmplitude` is `(peak, highTime - lowTime)`, where
`totalIntegral` is the sum of all baseline-subtracted samples, `lowTime` is
the least index whose prefix sum `frame[0] + ... + frame[i]` exceeds
`lowThresh * totalIntegral`, and `highTime` the least index whose prefix sum,
accumulated afresh from 0, exceeds `highThresh * totalIntegral`. -/
theorem risetime_is_difference_of_first_crossings (lowThresh highThresh : ℚ)
    (baseLEnd : ℕ) (oob : ℕ → ℚ) (s : ScanState × List (ℚ × ℤ)) (wave : List ℚ)
    (hlow : ∃ i, i < (baselineAdjustFrame oob baseLEnd wave).length ∧
      ((baselineAdjustFrame oob baseLEnd wave).take (i + 1)).sum
        > lowThresh * (baselineAdjustFrame oob baseLEnd wave).sum)
    (hhigh : ∃ i, i < (baselineAdjustFrame oob baseLEnd wave).length ∧
      ((baselineAdjustFrame oob baseLEnd wave).take (i + 1)).sum
        > highThresh * (baselineAdjustFrame oob baseLEnd wave).sum) :
    risetimeTotalIntegral (baselineAdjustFrame oob baseLEnd wave)
      = (baselineAdjustFrame oob baseLEnd wave).sum ∧
    ∃ lowTime highTime : ℕ,
      (lowTime < (baselineAdjustFrame oob baseLEnd wave).length ∧
        ((baselineAdjustFrame oob baseLEnd wave).take (lowTime + 1)).sum
          > lowThresh * (baselineAdjustFrame oob baseLEnd wave).sum ∧
        ∀ j, j < lowTime → ¬ ((baselineAdjustFrame oob baseLEnd wave).take (j + 1)).sum
          > lowThresh * (baselineAdjustFrame oob baseLEnd wave).sum) ∧
      (highTime < (baselineAdjustFrame oob baseLEnd wave).length ∧
        ((baselineAdjustFrame oob baseLEnd wave).take (highTime + 1)).sum
          > highThresh * (baselineAdjustFrame oob baseLEnd wave).sum ∧
        ∀ j, j < highTime → ¬ ((baselineAdjustFrame oob baseLEnd wave).take (j + 1)).sum
          > highThresh * (baselineAdjustFrame oob baseLEnd wave).sum) ∧
      risetimeScan lowThresh highThresh baseLEnd oob s.1 wave
        = ⟨(lowTime : ℤ), (highTime : ℤ)⟩ ∧
      (risetimeProcess lowThresh highThresh baseLEnd oob s wave).2
        = s.2 ++ [(maxModVal (baselineAdjustFrame oob baseLEnd wave),
            (highTime : ℤ) - (lowTime : ℤ))] := by
  have htot : risetimeTotalIntegral (baselineAdjustFrame oob baseLEnd wave)
      = (baselineAdjustFrame oob baseLEnd wave).sum := by
    unfold risetimeTotalIntegral
    rw [foldl_add_eq_sum]
    ring
  refine ⟨htot, ?_⟩
  obtain ⟨kl, hkl, hl1, hl2, hl3⟩ :=
    scanAccumulate_first (lowThresh * (baselineAdjustFrame oob baseLEnd wave).sum)
      (baselineAdjustFrame oob baseLEnd wave) 0 0 (by simpa using hlow)
  obtain ⟨kh, hkh, hh1, hh2, hh3⟩ :=
    scanAccumulate_first (highThresh * (baselineAdjustFrame oob baseLEnd wave).sum)
      (baselineAdjustFrame oob baseLEnd wave) 0 0 (by simpa using hhigh)
  have hscan : risetimeScan lowThresh highThresh baseLEnd oob s.1 wave
      = ⟨(kl : ℤ), (kh : ℤ)⟩ := by
    simp only [risetimeScan, htot, hkl, hkh]
    simp
  refine ⟨kl, kh, ⟨hl1, by simpa using hl2, ?_⟩, ⟨hh1, by simpa using hh2, ?_⟩, hscan, ?_⟩
  · intro j hj
    simpa using hl3 j hj
  · intro j hj
    simpa using hh3 j hj
  · simp only [risetimeProcess, hscan]

/-- Witness of C19: the frame `[0, 1, 2, 3, 1]` with `baseLEnd = 1` and the
levels `1/10` and `9/10`; the prefix sums are 0, 1, 3, 6, 7, the record is
`(3, 3)`. -/
theorem risetime_is_difference_of_first_crossings_witness :
    ((∃ i, i < (baselineAdjustFrame (fun _ => 0) 1 [0, 1, 2, 3, 1]).length ∧
        ((baselineAdjustFrame (fun _ => 0) 1 [0, 1, 2, 3, 1]).take (i + 1)).sum > 1 / 10 * (baselineAdjustFrame (fun _ => 0) 1 [0, 1, 2, 3, 1]).sum) ∧
      (∃ i, i < (baselineAdjustFrame (fun _ => 0) 1 [0, 1, 2, 3, 1]).length ∧
        ((baselineAdjustFrame (fun _ => 0) 1 [0, 1, 2, 3, 1]).take (i + 1)).sum > 9 / 10 * (baselineAdjustFrame (fun _ => 0) 1 [0, 1, 2, 3, 1]).sum)) ∧
    (risetimeTotalIntegral (baselineAdjustFrame (fun _ => 0) 1 [0, 1, 2, 3, 1]) = (baselineAdjustFrame (fun _ => 0) 1 [0, 1, 2, 3, 1]).sum ∧
    ∃ lowTime highTime : ℕ,
      (lowTime < (baselineAdjustFrame (fun _ => 0) 1 [0, 1, 2, 3, 1]).length ∧
        ((baselineAdjustFrame (fun _ => 0) 1 [0, 1, 2, 3, 1]).take (lowTime + 1)).sum > 1 / 10 * (baselineAdjustFrame (fun _ => 0) 1 [0, 1, 2, 3, 1]).sum ∧
        ∀ j, j < lowTime → ¬ ((baselineAdjustFrame (fun _ => 0) 1 [0, 1, 2, 3, 1]).take (j + 1)).sum > 1 / 10 * (baselineAdjustFrame (fun _ => 0) 1 [0, 1, 2, 3, 1]).sum) ∧
      (highTime < (baselineAdjustFrame (fun _ => 0) 1 [0, 1, 2, 3, 1]).length ∧
        ((baselineAdjustFrame (fun _ => 0) 1 [0, 1, 2, 3, 1]).take (highTime + 1)).sum > 9 / 10 * (baselineAdjustFrame (fun _ => 0) 1 [0, 1, 2, 3, 1]).sum ∧
        ∀ j, j < highTime → ¬ ((baselineAdjustFrame (fun _ => 0) 1 [0, 1, 2, 3, 1]).take (j + 1)).sum > 9 / 10 * (baselineAdjustFrame (fun _ => 0) 1 [0, 1, 2, 3, 1]).sum) ∧
      risetimeScan (1 / 10) (9 / 10) 1 (fun _ => 0) (⟨0, 0⟩, ([] : List (ℚ × ℤ))).1
          [0, 1, 2, 3, 1]
        = ⟨(lowTime : ℤ), (highTime : ℤ)⟩ ∧
      (risetimeProcess (1 / 10) (9 / 10) 1 (fun _ => 0) (⟨0, 0⟩, []) [0, 1, 2, 3, 1]).2
        = ([] : List (ℚ × ℤ)) ++ [(maxModVal (baselineAdjustFrame (fun _ => 0) 1 [0, 1, 2, 3, 1]), (highTime : ℤ) - (lowTime : ℤ))]) ∧
    IntegralRisetimeVsAmplitude (1 / 10) (9 / 10) 5 1 (fun _ => 0) ⟨0, 0⟩
        [0, 1, 2, 3, 1, 9, 0, 0, 0, 4, 0, 9]
      = [(3, 3), (4, 0)] :=
  ⟨⟨⟨1, by decide!, by decide!⟩, ⟨4, by decide!, by decide!⟩⟩,
    risetime_is_difference_of_first_crossings (1 / 10) (9 / 10) 1 (fun _ => 0) (⟨0, 0⟩, [])
      [0, 1, 2, 3, 1] ⟨1, by decide!, by decide!⟩ ⟨4, by decide!, by decide!⟩,
    by decide!⟩

/-- Every frame the reading loop forms has exactly `wSize` samples. -/
theorem frames_mem_length (wSize : ℕ) : ∀ (n : ℕ) (input : List ℚ), input.length = n →
    ∀ f, f ∈ frames wSize input → f.length = wSize := by
  intro n
  induction n using Nat.strong_induction_on with
  | _ n ih =>
    intro input hlen f hf
    rw [frames_unfold] at hf
    by_cases h : wSize < input.length
    · rw [if_pos h] at hf
      rcases List.mem_cons.mp hf with hf1 | hf2
      · rw [hf1, List.length_take]
        omega
      · exact ih (n - (wSize + 1)) (by omega) (input.drop (wSize + 1)) (by simp; omega) f hf2
    · rw [if_neg h] at hf
      simp at hf

/-- C20: for a frame of `wSize` samples and `sampleNo < wSize`, the value of
`PGA` for the frame is `|frame[sampleNo] - maxModVal(frame)|` on the frame
after the baseline subtraction; `PGA` writes that value for every frame the
reading loop forms, each of which has `wSize` samples. -/
theorem PGA_is_distance_of_sample_to_peak (oob : ℕ → ℚ) (sampleNo wSize baseLEnd : ℕ)
    (wave input : List ℚ) (hlen : wave.length = wSize) (hs : sampleNo < wSize) :
    PGAFrame oob sampleNo baseLEnd wave
      = |(baselineAdjustFrame oob baseLEnd wave).getD sampleNo 0
          - maxModVal (baselineAdjustFrame oob baseLEnd wave)| ∧
    PGA oob sampleNo wSize baseLEnd input
      = (frames wSize input).map (PGAFrame oob sampleNo baseLEnd) ∧
    (∀ f, f ∈ frames wSize input → f.length = wSize) := by
  refine ⟨?_, ?_, frames_mem_length wSize _ input rfl⟩
  · have hadj : sampleNo < (baselineAdjustFrame oob baseLEnd wave).length := by
      simp [baselineAdjustFrame, subtractBasel, hlen, hs]
    simp only [PGAFrame, rd]
    rw [List.getD_eq_getElem _ _ hadj, List.getD_eq_getElem _ _ hadj]
  · unfold PGA
    exact frameLoop_append_map wSize _ input

/-- Witness of C20: the frame `[0, 1, 2, 3, 1]` with `baseLEnd = 1` and
`sampleNo = 1`; the value is `|1 - 3| = 2`. -/
theorem PGA_is_distance_of_sample_to_peak_witness :
    (([0, 1, 2, 3, 1] : List ℚ).length = 5 ∧ 1 < 5) ∧
    (PGAFrame (fun _ => 0) 1 1 [0, 1, 2, 3, 1]
      = |(baselineAdjustFrame (fun _ => 0) 1 [0, 1, 2, 3, 1]).getD 1 0 - maxModVal (baselineAdjustFrame (fun _ => 0) 1 [0, 1, 2, 3, 1])| ∧
    PGA (fun _ => 0) 1 5 1 [0, 1, 2, 3, 1, 9, 0, 0, 0, 4, 0, 9]
      = (frames 5 [0, 1, 2, 3, 1, 9, 0, 0, 0, 4, 0, 9]).map (PGAFrame (fun _ => 0) 1 1) ∧
    (∀ f, f ∈ frames 5 [0, 1, 2, 3, 1, 9, 0, 0, 0, 4, 0, 9] → f.length = 5)) ∧
    PGA (fun _ => 0) 1 5 1 [0, 1, 2, 3, 1, 9, 0, 0, 0, 4, 0, 9] = [2, 4] :=
  ⟨⟨by decide, by decide⟩,
    PGA_is_distance_of_sample_to_peak (fun _ => 0) 1 5 1 [0, 1, 2, 3, 1]
      [0, 1, 2, 3, 1, 9, 0, 0, 0, 4, 0, 9] (by decide) (by decide),
    by decide!⟩

/-! ## PGA outside the frame (claim C21) -/

/-- C21 as stated fails: with `sampleNo = wSize = 5` the run is not stopped
by an index error; `PGA` writes a numeric record for each of the two frames,
whatever the memory past the frame holds (with zeros there, 3 and 4). -/
theorem PGA_index_error_counterexample :
    (5 : ℕ) ≥ 5 ∧
    PGA (fun _ => 0) 5 5 1 [0, 1, 2, 3, 1, 9, 0, 0, 0, 4, 0, 9] = [3, 4] ∧
    (∀ oob : ℕ → ℚ, (PGA oob 5 5 1 [0, 1, 2, 3, 1, 9, 0, 0, 0, 4, 0, 9]).length = 2) := by
  refine ⟨le_refl _, by decide!, ?_⟩
  intro oob
  have h : frames 5 [0, 1, 2, 3, 1, 9, 0, 0, 0, 4, 0, 9] = [[0, 1, 2, 3, 1], [0, 0, 0, 4, 0]] := by
    decide
  unfold PGA
  rw [frameLoop_append_map, h]
  rfl

/-- A killed run of `PGA` writes nothing more. -/
theorem PGAStep_foldl_killed (oob : ℕ → ℚ) (mem : ℤ → Option ℚ) (sampleNo : ℤ)
    (baseLEnd : ℕ) (fs : List (List ℚ)) : ∀ acc : List ℚ,
    fs.foldl (PGAStep oob mem sampleNo baseLEnd) (acc, true) = (acc, true) := by
  induction fs with
  | nil => intro acc; rfl
  | cons f fs ih =>
    intro acc
    simp only [List.foldl_cons, PGAStep, if_true]
    exact ih acc

/-- A run of `PGA` whose reads all yield a value writes one record per
frame and is not killed. -/
theorem PGAStep_foldl_some (oob : ℕ → ℚ) (mem : ℤ → Option ℚ) (sampleNo : ℤ)
    (baseLEnd : ℕ) (g : List ℚ → ℚ) (fs : List (List ℚ)) :
    (∀ f, f ∈ fs → PGAFrameInt oob mem sampleNo baseLEnd f = some (g f)) →
    ∀ acc : List ℚ,
      fs.foldl (PGAStep oob mem sampleNo baseLEnd) (acc, false)
        = (acc ++ fs.map g, false) := by
  induction fs with
  | nil => intro _ acc; simp
  | cons f fs ih =>
    intro h acc
    have hf := h f (List.mem_cons_self f fs)
    simp only [List.foldl_cons, PGAStep, hf, Bool.false_eq_true, if_false]
    rw [ih (fun f2 hf2 => h f2 (List.mem_cons_of_mem f hf2)) (acc ++ [g f])]
    simp

/-- A run of `PGA` whose first read traps is killed with nothing written. -/
theorem PGAStep_foldl_none (oob : ℕ → ℚ) (mem : ℤ → Option ℚ) (sampleNo : ℤ)
    (baseLEnd : ℕ) (fs : List (List ℚ))
    (h : ∀ f, f ∈ fs → PGAFrameInt oob mem sampleNo baseLEnd f = none) :
    fs.foldl (PGAStep oob mem sampleNo baseLEnd) ([], false) = ([], !fs.isEmpty) := by
  cases fs with
  | nil => rfl
  | cons f fs =>
    have hf := h f (List.mem_cons_self f fs)
    simp only [List.foldl_cons, PGAStep, hf, Bool.false_eq_true, if_false]
    rw [PGAStep_foldl_killed]
    rfl

/-- C21 as amended: `PGA` makes no test of `sampleNo` and has no index-error
path; what happens outside `0 .. wSize-1` is what the unchecked read
`wave[sampleNo]` does.  For every `int` index: (1) inside the frame the run
is not killed and writes the values of `PGA`, one per frame; (2) outside the
frame, when the access yields a word `v`, the run is not killed and writes
the numeric record `|v - maxModVal(frame)|` for every frame; (3) outside the
frame, when the access traps, the program is killed at the first frame with
nothing written.  On the two frames `0 1 2 3 1` and `0 0 0 4 0`
(`wSize = 5`, `baseLEnd = 1`): index 5 or -1 reading a word 0 gives the
records 3 and 4; index 100000000 trapping gives no record and a killed
program. -/
theorem PGA_unchecked_read_yields_record_or_kills (oob : ℕ → ℚ) (mem : ℤ → Option ℚ)
    (sampleNo : ℤ) (wSize baseLEnd : ℕ) (input : List ℚ) :
    ((0 ≤ sampleNo ∧ sampleNo < (wSize : ℤ)) →
      PGAInt oob mem sampleNo wSize baseLEnd input
        = (PGA oob sampleNo.toNat wSize baseLEnd input, false)) ∧
    (∀ v : ℚ, ¬ (0 ≤ sampleNo ∧ sampleNo < (wSize : ℤ)) → mem sampleNo = some v →
      PGAInt oob mem sampleNo wSize baseLEnd input
        = ((frames wSize input).map
            (fun wave => |v - maxModVal (baselineAdjustFrame oob baseLEnd wave)|), false)) ∧
    (¬ (0 ≤ sampleNo ∧ sampleNo < (wSize : ℤ)) → mem sampleNo = none →
      PGAInt oob mem sampleNo wSize baseLEnd input
        = ([], !(frames wSize input).isEmpty)) ∧
    PGAInt (fun _ => 0) (fun _ => some 0) 5 5 1 [0, 1, 2, 3, 1, 9, 0, 0, 0, 4, 0, 9]
      = ([3, 4], false) ∧
    PGAInt (fun _ => 0) (fun _ => some 0) (-1) 5 1 [0, 1, 2, 3, 1, 9, 0, 0, 0, 4, 0, 9]
      = ([3, 4], false) ∧
    PGAInt (fun _ => 0) (fun _ => none) 100000000 5 1 [0, 1, 2, 3, 1, 9, 0, 0, 0, 4, 0, 9]
      = ([], true) ∧
    PGAInt (fun _ => 0) (fun _ => none) (-1) 5 1 [0, 1, 2, 3, 1, 9, 0, 0, 0, 4, 0, 9]
      = ([], true) ∧
    PGAInt (fun _ => 0) (fun _ => none) 1 5 1 [0, 1, 2, 3, 1, 9, 0, 0, 0, 4, 0, 9]
      = ([2, 4], false) := by
  have hfold : PGAInt oob mem sampleNo wSize baseLEnd input
      = (frames wSize input).foldl (PGAStep oob mem sampleNo baseLEnd) ([], false) := by
    unfold PGAInt frames
    exact frameLoop_eq_foldl wSize _ input 0 [] ([], false)
  have hlenf : ∀ f, f ∈ frames wSize input →
      (baselineAdjustFrame oob baseLEnd f).length = wSize := by
    intro f hf
    have := frames_mem_length wSize _ input rfl f hf
    simpa [baselineAdjustFrame, subtractBasel] using this
  refine ⟨?_, ?_, ?_, by decide!, by decide!, by decide!, by decide!, by decide!⟩
  · intro hin
    have hsome : ∀ f, f ∈ frames wSize input →
        PGAFrameInt oob mem sampleNo baseLEnd f
          = some (PGAFrame oob sampleNo.toNat baseLEnd f) := by
      intro f hf
      have hl := hlenf f hf
      have hn : sampleNo.toNat < (baselineAdjustFrame oob baseLEnd f).length := by
        rw [hl]
        omega
      simp only [PGAFrameInt, readSample, PGAFrame, rd, hl, hin, and_self, if_true]
      rw [List.getD_eq_getElem _ _ hn, List.getD_eq_getElem _ _ hn]
    rw [hfold, PGAStep_foldl_some oob mem sampleNo baseLEnd _ _ hsome []]
    unfold PGA
    rw [frameLoop_append_map]
    simp
  · intro v hout hmem
    have hsome : ∀ f, f ∈ frames wSize input →
        PGAFrameInt oob mem sampleNo baseLEnd f
          = some ((fun wave => |v - maxModVal (baselineAdjustFrame oob baseLEnd wave)|) f) := by
      intro f hf
      have hl := hlenf f hf
      simp only [PGAFrameInt, readSample, hl, if_neg hout, hmem]
    rw [hfold, PGAStep_foldl_some oob mem sampleNo baseLEnd _ _ hsome []]
    simp
  · intro hout hmem
    have hnone : ∀ f, f ∈ frames wSize input →
        PGAFrameInt oob mem sampleNo baseLEnd f = none := by
      intro f hf
      have hl := hlenf f hf
      simp only [PGAFrameInt, readSample, hl, if_neg hout, hmem]
    rw [hfold, PGAStep_foldl_none oob mem sampleNo baseLEnd _ hnone]

/-! ## Scan results kept from frame to frame (claims C22, C23) -/

/-- C22: with threshold `1/2`, `wSize = 5`, `baseLEnd = 1` the two inputs
`0 1 2 3 1 | 9 | 7 7 7 7 7 | 9` and `0 3 3 3 1 | 9 | 7 7 7 7 7 | 9` have the
same second frame, the constant frame `[7, 7, 7, 7, 7]`.  Neither scan breaks
on it, `lowTime` and `highTime` keep the values of the first frame, and the
record for the second frame is the width of the first: 1 for the first
input, 2 for the second, in `Widths` and in `totalIntVsWidth`. -/
theorem width_of_frame_depends_on_earlier_frame :
    (frames 5 [0, 1, 2, 3, 1, 9, 7, 7, 7, 7, 7, 9]).getD 1 [] = [7, 7, 7, 7, 7] ∧
    (frames 5 [0, 3, 3, 3, 1, 9, 7, 7, 7, 7, 7, 9]).getD 1 [] = [7, 7, 7, 7, 7] ∧
    Widths (1 / 2) 5 1 (fun _ => 0) ⟨0, 0⟩ [0, 1, 2, 3, 1, 9, 7, 7, 7, 7, 7, 9] = [1, 1] ∧
    Widths (1 / 2) 5 1 (fun _ => 0) ⟨0, 0⟩ [0, 3, 3, 3, 1, 9, 7, 7, 7, 7, 7, 9] = [2, 2] ∧
    totalIntVsWidth (1 / 2) 5 1 1 4 (fun _ => 0) ⟨0, 0⟩ [0, 1, 2, 3, 1, 9, 7, 7, 7, 7, 7, 9]
      = [(1, 6), (1, 0)] ∧
    totalIntVsWidth (1 / 2) 5 1 1 4 (fun _ => 0) ⟨0, 0⟩ [0, 3, 3, 3, 1, 9, 7, 7, 7, 7, 7, 9]
      = [(2, 9), (2, 0)] ∧
    (widthsProcess (1 / 2) 5 1 (fun _ => 0) (⟨2, 3⟩, []) [7, 7, 7, 7, 7]).2 = [1] ∧
    (widthsProcess (1 / 2) 5 1 (fun _ => 0) (⟨1, 3⟩, []) [7, 7, 7, 7, 7]).2 = [2] := by
  decide!

/-- C23: the constant frame `[7, 7, 7, 7, 7]` is all zeros after the
baseline subtraction and neither scan finds a crossing in it (the word past
the frame being 0), yet a record is written for it: after the frame
`[0, 1, 2, 3, 1]` of width 1, `Widths` writes the width 1 again and
`totalIntVsWidth` the record `(1, 0)`. -/
theorem constant_frame_repeats_previous_width :
    widthsAdjusted (fun _ => 0) 1 [7, 7, 7, 7, 7] = [0, 0, 0, 0, 0] ∧
    scanLow (1 / 2) (maxModVal [0, 0, 0, 0, 0]) [0, 0, 0, 0, 0] 0 = none ∧
    scanHigh (fun _ => 0) (1 / 2) (maxModVal [0, 0, 0, 0, 0]) [0, 0, 0, 0, 0] 5 = none ∧
    frames 5 [0, 1, 2, 3, 1, 9, 7, 7, 7, 7, 7, 9] = [[0, 1, 2, 3, 1], [7, 7, 7, 7, 7]] ∧
    Widths (1 / 2) 5 1 (fun _ => 0) ⟨0, 0⟩ [0, 1, 2, 3, 1, 9] = [1] ∧
    Widths (1 / 2) 5 1 (fun _ => 0) ⟨0, 0⟩ [0, 1, 2, 3, 1, 9, 7, 7, 7, 7, 7, 9] = [1, 1] ∧
    totalIntVsWidth (1 / 2) 5 1 1 4 (fun _ => 0) ⟨0, 0⟩ [0, 1, 2, 3, 1, 9] = [(1, 6)] ∧
    totalIntVsWidth (1 / 2) 5 1 1 4 (fun _ => 0) ⟨0, 0⟩ [0, 1, 2, 3, 1, 9, 7, 7, 7, 7, 7, 9]
      = [(1, 6), (1, 0)] := by
  decide!

/-! ## The presets of main (claims C24, C30) -/

/-- C24: a `LUNA` run on line 5 of the details file is processed with the
cuts 5 and 50 when line 4 is a `SeptEdinburgh` run and with the cuts 19000
and 40000 when line 4 is a `JanEdinburgh` run: the `LUNA` preset assigns no
cuts (and no source activity), the variables keep what the earlier run
left. -/
theorem luna_cuts_come_from_earlier_run :
    (mainRuns 0 ⟨0, 0, 0, 0, 0, 0, 0, 0, 0, 0⟩ [LUNA, LUNA, LUNA, SeptEdinburgh, LUNA]).map
        (fun vars => (vars.wSize, vars.widthLowCut, vars.widthHighCut, vars.AmBeSourceActivity))
      = [(1000, 5, 50, 273800), (4000, 5, 50, 273800)] ∧
    (mainRuns 0 ⟨0, 0, 0, 0, 0, 0, 0, 0, 0, 0⟩ [LUNA, LUNA, LUNA, JanEdinburgh, LUNA]).map
        (fun vars => (vars.wSize, vars.widthLowCut, vars.widthHighCut, vars.AmBeSourceActivity))
      = [(100000, 19000, 40000, 273700), (4000, 19000, 40000, 273700)] ∧
    (setLocation LUNA ⟨0, 0, 0, 0, 0, 0, 0, 273800, 5, 50⟩).map (fun vars => vars.widthLowCut)
      = some 5 ∧
    (setLocation LUNA ⟨0, 0, 0, 0, 0, 0, 0, 273700, 19000, 40000⟩).map
        (fun vars => vars.widthLowCut)
      = some 19000 := by
  decide!

/-- C30: every preset of `main` leaves a frame geometry with
`0 < baseLEnd < wSize`, `0 ≤ wStart < wEnd ≤ wSize`,
`0 < peakXValue < tailW ≤ wSize` and `0 ≤ PGASampleVal < wSize`, whatever
the variables held before; the recognised tags are the four of the source. -/
theorem presets_satisfy_frame_geometry (location : String) (prev vars : RunParams)
    (h : setLocation location prev = some vars) :
    (0 < vars.baseLEnd ∧ vars.baseLEnd < vars.wSize) ∧
    (0 ≤ vars.wStart ∧ vars.wStart < vars.wEnd ∧ vars.wEnd ≤ vars.wSize) ∧
    (0 < vars.peakXValue ∧ vars.peakXValue < vars.tailW ∧ vars.tailW ≤ vars.wSize) ∧
    (0 ≤ vars.PGASampleVal ∧ vars.PGASampleVal < vars.wSize) ∧
    (location = SeptEdinburgh ∨ location = LUNA ∨ location = JanEdinburgh
      ∨ location = FebEdinburgh) := by
  unfold setLocation at h
  split_ifs at h with h1 h2 h3 h4
  · cases h
    exact ⟨by norm_num, by norm_num, by norm_num, by norm_num, Or.inl h1⟩
  · cases h
    exact ⟨by norm_num, by norm_num, by norm_num, by norm_num, Or.inr (Or.inl h2)⟩
  · cases h
    exact ⟨by norm_num, by norm_num, by norm_num, by norm_num, Or.inr (Or.inr (Or.inl h3))⟩
  · cases h
    exact ⟨by norm_num, by norm_num, by norm_num, by norm_num, Or.inr (Or.inr (Or.inr h4))⟩

/-- Witness of C30 at the `LUNA` preset applied to variables all 0; the
other three tags are recognised as well. -/
theorem presets_satisfy_frame_geometry_witness :
    setLocation LUNA ⟨0, 0, 0, 0, 0, 0, 0, 0, 0, 0⟩
      = some ⟨4000, 30, 200, 34, 30, 100, 100, 0, 0, 0⟩ ∧
    ((0 : ℤ) < 30 ∧ (30 : ℤ) < 4000) ∧
    (setLocation SeptEdinburgh ⟨0, 0, 0, 0, 0, 0, 0, 0, 0, 0⟩).isSome = true ∧
    (setLocation JanEdinburgh ⟨0, 0, 0, 0, 0, 0, 0, 0, 0, 0⟩).isSome = true ∧
    (setLocation FebEdinburgh ⟨0, 0, 0, 0, 0, 0, 0, 0, 0, 0⟩).isSome = true :=
  ⟨by decide!,
    (presets_satisfy_frame_geometry LUNA ⟨0, 0, 0, 0, 0, 0, 0, 0, 0, 0⟩
      ⟨4000, 30, 200, 34, 30, 100, 100, 0, 0, 0⟩ (by decide!)).1,
    by decide!, by decide!, by decide!⟩

/-! ## Reading back an adjusted file (claim C26) -/

/-- On one frame the two routes agree: the frame body of
`totalIntVsWidthPostBaselineAdjusted` run on the adjusted frame is the frame
body of `totalIntVsWidth` run on the frame. -/
theorem postBaselineProcess_on_adjusted_frame (threshold : ℚ)
    (wSize baseLEnd wStart wEnd : ℕ) (oob : ℕ → ℚ) (s : ScanState × List (ℤ × ℚ))
    (wave : List ℚ) :
    postBaselineProcess threshold wSize wStart wEnd oob s (baselineAdjustFrame oob baseLEnd wave)
      = totalIntVsWidthProcess threshold wSize baseLEnd wStart wEnd oob s wave := by
  rfl

/-- The file `baselineAdjust` writes holds the adjusted frames one after the
other, `wSize` lines each. -/
theorem heightsOfLines_baselineAdjust (oob : ℕ → ℚ) (wSize baseLEnd : ℕ) (input : List ℚ) :
    heightsOfLines (baselineAdjust oob wSize baseLEnd input)
      = ((frames wSize input).map (baselineAdjustFrame oob baseLEnd)).flatten := by
  unfold baselineAdjust heightsOfLines
  rw [frameLoop_eq_foldl]
  have : ∀ (l : List (List ℚ)) (out : List (ℕ × ℚ)),
      (l.foldl (fun out wave => out ++ (baselineAdjustFrame oob baseLEnd wave).enum) out).map
          Prod.snd
        = out.map Prod.snd ++ (l.map (baselineAdjustFrame oob baseLEnd)).flatten := by
    intro l
    induction l with
    | nil => intro out; simp
    | cons a l ih =>
      intro out
      simp only [List.foldl_cons, List.map_cons, List.flatten_cons]
      rw [ih]
      simp [List.enum_map_snd]
  simpa [frames] using this _ []

/-- C26: with threshold `1/2`, `wSize = 5`, `baseLEnd = 1` and the window
`[1, 4)`, the input `0 1 2 3 1 | 9` gives the record `(1, 6)` through
`totalIntVsWidth`; `baselineAdjust` writes the 5 lines of its one frame, and
`totalIntVsWidthPostBaselineAdjusted`, whose reading loop needs `wSize + 1`
amplitudes to form a frame, writes nothing from them.  On a two-frame input
the adjusted file has 10 lines, of which the reading loop forms one frame. -/
theorem adjusted_file_is_reframed :
    totalIntVsWidth (1 / 2) 5 1 1 4 (fun _ => 0) ⟨0, 0⟩ [0, 1, 2, 3, 1, 9] = [(1, 6)] ∧
    heightsOfLines (baselineAdjust (fun _ => 0) 5 1 [0, 1, 2, 3, 1, 9]) = [0, 1, 2, 3, 1] ∧
    totalIntVsWidthPostBaselineAdjusted (1 / 2) 5 1 4 (fun _ => 0) ⟨0, 0⟩
        (heightsOfLines (baselineAdjust (fun _ => 0) 5 1 [0, 1, 2, 3, 1, 9])) = [] ∧
    totalIntVsWidth (1 / 2) 5 1 1 4 (fun _ => 0) ⟨0, 0⟩ [0, 1, 2, 3, 1, 9, 0, 0, 3, 3, 1, 9]
      = [(1, 6), (1, 6)] ∧
    heightsOfLines (baselineAdjust (fun _ => 0) 5 1 [0, 1, 2, 3, 1, 9, 0, 0, 3, 3, 1, 9])
      = [0, 1, 2, 3, 1, 0, 0, 3, 3, 1] ∧
    frames 5 [0, 1, 2, 3, 1, 0, 0, 3, 3, 1] = [[0, 1, 2, 3, 1]] ∧
    totalIntVsWidthPostBaselineAdjusted (1 / 2) 5 1 4 (fun _ => 0) ⟨0, 0⟩
        (heightsOfLines (baselineAdjust (fun _ => 0) 5 1 [0, 1, 2, 3, 1, 9, 0, 0, 3, 3, 1, 9]))
      = [(1, 6)] := by
  decide!

/-! ## The first waveforms (claim C27) -/

/-- The loop of `firstTen` entered with `numWaves ≤ 9` writes the frames the
reading loop forms until `numWaves` would reach 10: at most `9 - numWaves`
of them. -/
theorem firstTenLoop_eq (wSize : ℕ) : ∀ (input : List ℚ) (counter : ℕ) (wave1 : List ℚ)
    (numWaves : ℕ) (out : List (ℕ × ℚ)), numWaves ≤ 9 →
    firstTenLoop wSize counter wave1 numWaves out input
      = out ++ ((frameLoop wSize (fun acc wave => acc ++ [wave]) counter wave1 [] input).take
          (9 - numWaves)).flatMap List.enum := by
  intro input
  induction input with
  | nil => intro counter wave1 numWaves out _; simp [firstTenLoop, frameLoop]
  | cons height rest ih =>
    intro counter wave1 numWaves out hn
    by_cases hc : counter < wSize
    · simp only [firstTenLoop, frameLoop, if_pos hc]
      exact ih _ _ _ _ hn
    · simp only [firstTenLoop, frameLoop, if_neg hc]
      rw [frameLoop_collect_acc wSize rest 0 [] ([] ++ [wave1])]
      by_cases h10 : numWaves + 1 < 10
      · obtain ⟨m, hm⟩ : ∃ m, 9 - numWaves = m + 1 := ⟨8 - numWaves, by omega⟩
        have hm2 : 9 - (numWaves + 1) = m := by omega
        rw [if_pos h10, ih 0 [] (numWaves + 1) (out ++ wave1.enum) (by omega), hm, hm2]
        simp
      · have h0 : 9 - numWaves = 0 := by omega
        rw [if_neg h10, h0]
        simp

/-- What `firstTen` writes: the first 9 frames the reading loop forms, each
as its lines `i wave1[i]`. -/
theorem firstTen_eq_first_nine_frames (wSize : ℕ) (input : List ℚ) :
    firstTen wSize input = ((frames wSize input).take 9).flatMap List.enum := by
  unfold firstTen frames
  rw [firstTenLoop_eq wSize input 0 [] 0 [] (by omega)]
  simp

/-- C27: with `wSize = 1` the 22 amplitudes `1 2 ... 22` hold more than 10
waveforms (the reading loop forms 11 frames from them), and `firstTen` writes
9 lines, one per waveform for 9 waveforms, not `10 * wSize = 10`: the test
`numWaves<10` is made after `numWaves++`. -/
theorem firstTen_writes_nine_waveforms :
    (frames 1 [1, 2, 3, 4, 5, 6, 7, 8, 9, 10, 11, 12, 13, 14, 15, 16, 17, 18, 19, 20, 21,
      22]).length = 11 ∧
    firstTen 1 [1, 2, 3, 4, 5, 6, 7, 8, 9, 10, 11, 12, 13, 14, 15, 16, 17, 18, 19, 20, 21, 22]
      = [(0, 1), (0, 3), (0, 5), (0, 7), (0, 9), (0, 11), (0, 13), (0, 15), (0, 17)] ∧
    (firstTen 1 [1, 2, 3, 4, 5, 6, 7, 8, 9, 10, 11, 12, 13, 14, 15, 16, 17, 18, 19, 20, 21,
      22]).length = 9 := by
  decide

/-! ## The indices the scans read (claim C28) -/

/-- The forward scan reads only indices of its list: from the index of the
head up to the last sample. -/
theorem scanLowReads_inside (threshold maxVal : ℚ) (l : List ℚ) : ∀ (i0 i : ℕ),
    i ∈ scanLowReads threshold maxVal l i0 → i0 ≤ i ∧ i < i0 + l.length := by
  induction l with
  | nil => intro i0 i h; simp [scanLowReads] at h
  | cons x xs ih =>
    intro i0 i h
    by_cases hx : |x| > threshold * |maxVal|
    · simp only [scanLowReads, if_pos hx, List.mem_singleton] at h
      subst h
      simp
    · simp only [scanLowReads, if_neg hx, List.mem_cons] at h
      rcases h with h | h
      · subst h
        simp
      · have := ih (i0 + 1) i h
        simp only [List.length_cons]
        omega

/-- The index at which the backward scan breaks is one of the indices it
reads. -/
theorem scanHigh_mem_reads (oob : ℕ → ℚ) (threshold maxVal : ℚ) (wave : List ℚ) :
    ∀ (n k : ℕ), scanHigh oob threshold maxVal wave n = some k →
      k ∈ scanHighReads oob threshold maxVal wave n := by
  intro n
  induction n with
  | zero => intro k h; simp [scanHigh] at h
  | succ n ih =>
    intro k h
    by_cases hc : |rd oob wave (n + 1)| > threshold * |maxVal|
    · simp only [scanHigh, if_pos hc, Option.some.injEq] at h
      subst h
      simp only [scanHighReads, if_pos hc, List.mem_singleton]
    · simp only [scanHigh, if_neg hc] at h
      simp only [scanHighReads, if_neg hc, List.mem_cons]
      exact Or.inr (ih k h)

/-- C28: the first index the backward scan entered at `wSize = n + 1` reads
is `n + 1`, one past the last index `n` of a frame of `n + 1` samples,
whatever the frame holds.  With the word past the frame holding 100, the
three routines set `highTime = 5` on the 5-sample frame `[0, 1, 2, 3, 1]`,
an index outside `0..4`. -/
theorem backward_scan_reads_past_frame (oob : ℕ → ℚ) (threshold maxVal : ℚ)
    (wave : List ℚ) (n : ℕ) :
    (scanHighReads oob threshold maxVal wave (n + 1)).head? = some (n + 1) ∧
    scanHighReads (fun _ => 0) (1 / 2) 3 [0, 1, 2, 3, 1] 5 = [5, 4, 3] ∧
    scanHigh (fun _ => 100) (1 / 2) 3 [0, 1, 2, 3, 1] 5 = some 5 ∧
    (widthsScan (1 / 2) 5 1 (fun _ => 100) ⟨0, 0⟩ [0, 1, 2, 3, 1]).highTime = 5 ∧
    (totalIntVsWidthScan (1 / 2) 5 1 (fun _ => 100) ⟨0, 0⟩ [0, 1, 2, 3, 1]).highTime = 5 ∧
    (postBaselineScan (1 / 2) 5 (fun _ => 100) ⟨0, 0⟩ [0, 1, 2, 3, 1]).highTime = 5 := by
  refine ⟨?_, by decide!, by decide!, by decide!, by decide!, by decide!⟩
  by_cases hc : |rd oob wave (n + 1)| > threshold * |maxVal|
  · simp [scanHighReads, if_pos hc]
  · simp [scanHighReads, if_neg hc]

/-! ## The unit of the detector length (claim C29) -/

/-- The argument of `atan` grows with the length put in the formula: with a
square root above 1 for the length `1/2` and a square root below 26 for the
length 50, the first argument is the smaller. -/
theorem solidAngle_arg_lt (sM sC : ℝ) (hM : 1 < sM) (hC0 : 0 < sC) (hC : sC < 26) :
    (47 / 2000 * (1 / 2) : ℝ) / (4 * (1027 / 1000) * sM)
      < (47 / 2000 * 50 : ℝ) / (4 * (1027 / 1000) * sC) := by
  have hM0 : (0 : ℝ) < sM := by linarith
  rw [div_lt_div_iff₀ (by positivity) (by positivity)]
  nlinarith

/-- C29: the length that enters the solid-angle formula is `EJ426DETX = 50`,
the length in centimetres, not `EJ426DETX/100 = 0.5`; the width
`DETZ/100 = 0.0235` and the distance `1 + 0.027` are in metres.  For a
horizontal detector one metre from the source the solid angle of
`WidthsDerivedEfficiencies` is larger than the solid angle with the three
lengths in metres. -/
theorem solid_angle_length_is_in_centimetres :
    EJ426DETX = 50 ∧ EJ426DETX / 100 = 1 / 2 ∧
    detectorWidth horizontal = 47 / 2000 ∧
    detectorWidth vertical = 27 / 500 ∧
    trueDistance horizontal 1 = 1027 / 1000 ∧
    solidAngle Real.sqrt Real.arctan horizontal 1
      = 4 * Real.arctan ((47 / 2000 * 50 : ℝ)
          / (4 * (1027 / 1000)
              * Real.sqrt ((47 / 2000) ^ 2 / 4 + 50 ^ 2 / 4 + (1027 / 1000) ^ 2))) ∧
    solidAngleMetres Real.sqrt Real.arctan horizontal 1
      = 4 * Real.arctan ((47 / 2000 * (1 / 2) : ℝ)
          / (4 * (1027 / 1000)
              * Real.sqrt ((47 / 2000) ^ 2 / 4 + (1 / 2) ^ 2 / 4 + (1027 / 1000) ^ 2))) ∧
    solidAngleMetres Real.sqrt Real.arctan horizontal 1
      < solidAngle Real.sqrt Real.arctan horizontal 1 := by
  have hw : detectorWidth horizontal = 47 / 2000 := by decide!
  have hd : trueDistance horizontal 1 = 1027 / 1000 := by decide!
  have hC : solidAngle Real.sqrt Real.arctan horizontal 1
      = 4 * Real.arctan ((47 / 2000 * 50 : ℝ)
          / (4 * (1027 / 1000)
              * Real.sqrt ((47 / 2000) ^ 2 / 4 + 50 ^ 2 / 4 + (1027 / 1000) ^ 2))) := by
    unfold solidAngle
    rw [hw, hd]
    simp only [EJ426DETX]
    have h1 : (((47 / 2000 * (47 / 2000) / 4 + 50 * 50 / 4
        + 1027 / 1000 * (1027 / 1000) : ℚ)) : ℝ)
        = (47 / 2000) ^ 2 / 4 + 50 ^ 2 / 4 + (1027 / 1000) ^ 2 := by
      push_cast
      ring
    rw [h1]
    push_cast
    rfl
  have hM : solidAngleMetres Real.sqrt Real.arctan horizontal 1
      = 4 * Real.arctan ((47 / 2000 * (1 / 2) : ℝ)
          / (4 * (1027 / 1000)
              * Real.sqrt ((47 / 2000) ^ 2 / 4 + (1 / 2) ^ 2 / 4 + (1027 / 1000) ^ 2))) := by
    unfold solidAngleMetres
    rw [hw, hd]
    simp only [EJ426DETX]
    have h1 : (((47 / 2000 * (47 / 2000) / 4 + 50 / 100 * (50 / 100) / 4
        + 1027 / 1000 * (1027 / 1000) : ℚ)) : ℝ)
        = (47 / 2000) ^ 2 / 4 + (1 / 2) ^ 2 / 4 + (1027 / 1000) ^ 2 := by
      push_cast
      ring
    rw [h1]
    push_cast
    norm_num
  refine ⟨rfl, by decide!, hw, by decide!, hd, hC, hM, ?_⟩
  rw [hC, hM]
  have hsM : (1 : ℝ)
      < Real.sqrt ((47 / 2000) ^ 2 / 4 + (1 / 2) ^ 2 / 4 + (1027 / 1000) ^ 2) := by
    rw [Real.lt_sqrt (by norm_num)]
    norm_num
  have hsC0 : (0 : ℝ) < Real.sqrt ((47 / 2000) ^ 2 / 4 + 50 ^ 2 / 4 + (1027 / 1000) ^ 2) :=
    Real.sqrt_pos.mpr (by norm_num)
  have hsC : Real.sqrt ((47 / 2000) ^ 2 / 4 + 50 ^ 2 / 4 + (1027 / 1000) ^ 2) < (26 : ℝ) := by
    rw [Real.sqrt_lt' (by norm_num)]
    norm_num
  have harg := solidAngle_arg_lt _ _ hsM hsC0 hsC
  have hat := Real.arctan_strictMono harg
  linarith

/-! ## The triangular pulse (claim C25) -/

/-- The triangular pulse fills the frame. -/
theorem trianglePulse_length (wSize h p : ℕ) : (trianglePulse wSize h p).length = wSize := by
  simp [trianglePulse]

/-- The sample of the triangular pulse at an index of the frame. -/
theorem trianglePulse_getD (wSize h p i : ℕ) (hi : i < wSize) :
    (trianglePulse wSize h p).getD i 0 = max 0 ((h : ℚ) - |(i : ℚ) - (p : ℚ)|) := by
  have hlen : i < (trianglePulse wSize h p).length := by
    rw [trianglePulse_length]; exact hi
  rw [List.getD_eq_getElem _ _ hlen]
  simp [trianglePulse]

/-- The samples of the triangular pulse lie between 0 and `h`. -/
theorem trianglePulse_bounds (wSize h p i : ℕ) (hi : i < wSize) :
    0 ≤ (trianglePulse wSize h p).getD i 0 ∧ (trianglePulse wSize h p).getD i 0 ≤ (h : ℚ) := by
  rw [trianglePulse_getD wSize h p i hi]
  refine ⟨le_max_left _ _, max_le (Nat.cast_nonneg h) ?_⟩
  have := abs_nonneg ((i : ℚ) - (p : ℚ))
  linarith

/-- The peak of the triangular pulse is `h`, the value of `maxModVal`. -/
theorem maxModVal_trianglePulse (wSize h p : ℕ) (hp : p < wSize) :
    maxModVal (trianglePulse wSize h p) = (h : ℚ) := by
  have hne : trianglePulse wSize h p ≠ [] := by
    intro h0
    have := trianglePulse_length wSize h p
    rw [h0] at this
    simp at this
    omega
  obtain ⟨idx, hidx, hget, hall, _⟩ := maxModVal_attained _ hne
  rw [trianglePulse_length] at hidx hall
  have hb := trianglePulse_bounds wSize h p idx hidx
  have hpk : (trianglePulse wSize h p).getD p 0 = (h : ℚ) := by
    rw [trianglePulse_getD wSize h p p hp]
    simp
  have h1 := hall p hp
  rw [hpk, ← hget, abs_of_nonneg (Nat.cast_nonneg h), abs_of_nonneg hb.1] at h1
  rw [← hget]
  exact le_antisymm hb.2 h1

/-- A sample of the triangular pulse exceeds half the peak exactly when its
index is at a distance below `h/2` from the index of the peak. -/
theorem trianglePulse_cross_iff (wSize h p i : ℕ) (hi : i < wSize) (hh : 0 < h) :
    |(trianglePulse wSize h p).getD i 0| > 1 / 2 * |(h : ℚ)|
      ↔ (2 * (p : ℤ) < 2 * (i : ℤ) + (h : ℤ) ∧ 2 * (i : ℤ) < 2 * (p : ℤ) + (h : ℤ)) := by
  have hb := trianglePulse_bounds wSize h p i hi
  have hhq : (0 : ℚ) < (h : ℚ) := by exact_mod_cast hh
  rw [abs_of_nonneg hb.1, abs_of_nonneg (le_of_lt hhq), trianglePulse_getD wSize h p i hi]
  have hq : (max 0 ((h : ℚ) - |(i : ℚ) - (p : ℚ)|) > 1 / 2 * (h : ℚ))
      ↔ (2 * (p : ℚ) < 2 * (i : ℚ) + (h : ℚ) ∧ 2 * (i : ℚ) < 2 * (p : ℚ) + (h : ℚ)) := by
    constructor
    · intro hgt
      have h1 : 1 / 2 * (h : ℚ) < (h : ℚ) - |(i : ℚ) - (p : ℚ)| := by
        rcases lt_max_iff.mp hgt with h0 | h0
        · linarith
        · exact h0
      have h2 : |(i : ℚ) - (p : ℚ)| < (h : ℚ) / 2 := by linarith
      obtain ⟨h3, h4⟩ := abs_lt.mp h2
      constructor <;> linarith
    · intro hlt
      obtain ⟨h3, h4⟩ := hlt
      have h2 : |(i : ℚ) - (p : ℚ)| < (h : ℚ) / 2 := abs_lt.mpr ⟨by linarith, by linarith⟩
      exact lt_max_iff.mpr (Or.inr (by linarith))
  rw [hq]
  constructor
  · intro hlt
    obtain ⟨h3, h4⟩ := hlt
    exact ⟨by exact_mod_cast h3, by exact_mod_cast h4⟩
  · intro hlt
    obtain ⟨h3, h4⟩ := hlt
    exact ⟨by exact_mod_cast h3, by exact_mod_cast h4⟩

/-- The baseline of `Widths` on a triangular pulse whose first `baseLEnd`
samples are 0 is 0, and the subtraction leaves the pulse as it is. -/
theorem widthsAdjusted_trianglePulse (oob : ℕ → ℚ) (wSize h p baseLEnd : ℕ)
    (hh : 0 < h) (hb : baseLEnd + h ≤ p + 1) (hp : p + h ≤ wSize) :
    widthsAdjusted oob baseLEnd (trianglePulse wSize h p) = trianglePulse wSize h p := by
  have hle : baseLEnd ≤ (trianglePulse wSize h p).length := by
    rw [trianglePulse_length]; omega
  have hsum : ((trianglePulse wSize h p).take baseLEnd).sum = 0 := by
    apply List.sum_eq_zero
    intro x hx
    have hx2 : x ∈ ((List.range wSize).take baseLEnd).map
        (fun (i : ℕ) => max 0 ((h : ℚ) - |(i : ℚ) - (p : ℚ)|)) := by
      simpa [trianglePulse, List.map_take] using hx
    obtain ⟨i, hi, hxi⟩ := List.mem_map.mp hx2
    have hi2 : i < baseLEnd := by
      rw [List.take_range] at hi
      have := List.mem_range.mp hi
      omega
    rw [← hxi]
    apply max_eq_left
    have h1 : (i : ℚ) + (h : ℚ) ≤ (p : ℚ) := by exact_mod_cast (by omega : i + h ≤ p)
    have h2 : (i : ℚ) - (p : ℚ) ≤ 0 := by
      have : (0 : ℚ) ≤ (h : ℚ) := Nat.cast_nonneg h
      linarith
    rw [abs_of_nonpos h2]
    linarith
  have hbasel : baselSum oob (trianglePulse wSize h p) baseLEnd = 0 := by
    unfold baselSum
    rw [baselSum_loop oob _ baseLEnd hle, hsum]
    simp
  unfold widthsAdjusted subtractBasel
  rw [hbasel]
  simp

/-- On a symmetric triangular pulse of peak `h ≥ 3` at index `p`, wholly
inside the frame after index 0 (`h ≤ p`, `p + h ≤ wSize`), with its first
`baseLEnd` samples 0, and provided the word read past the frame at
`wave[wSize]` does not exceed `h/2` in modulus, the scans of `Widths` with
threshold `1/2` end at `lowTime = p - (h-1)/2` and `highTime = p + (h-1)/2`
(integer division); when the width `2 * ((h-1)/2)`, which is `h - 2` for even
`h` and `h - 1` for odd `h`, is below `0.8 * wSize`, it is the record
written. -/
theorem trianglePulse_width_when_word_past_frame_is_low (oob : ℕ → ℚ)
    (wSize h p baseLEnd : ℕ) (s : ScanState × List ℤ)
    (hh : 3 ≤ h) (hp0 : h ≤ p) (hp : p + h ≤ wSize) (hb : baseLEnd + h ≤ p + 1)
    (hoob : ¬ |oob wSize| > 1 / 2 * |(h : ℚ)|)
    (hceil : ((2 * ((h - 1) / 2) : ℕ) : ℚ) < 4 / 5 * (wSize : ℚ)) :
    widthsScan (1 / 2) wSize baseLEnd oob s.1 (trianglePulse wSize h p)
      = ⟨((p - (h - 1) / 2 : ℕ) : ℤ), ((p + (h - 1) / 2 : ℕ) : ℤ)⟩ ∧
    (widthsProcess (1 / 2) wSize baseLEnd oob s (trianglePulse wSize h p)).2
      = s.2 ++ [((2 * ((h - 1) / 2) : ℕ) : ℤ)] ∧
    2 * ((h - 1) / 2) = (if h % 2 = 0 then h - 2 else h - 1) := by
  have hh0 : 0 < h := by omega
  have hpw : p < wSize := by omega
  have hadj := widthsAdjusted_trianglePulse oob wSize h p baseLEnd hh0 hb hp
  have hmax := maxModVal_trianglePulse wSize h p hpw
  have hlen := trianglePulse_length wSize h p
  -- the forward scan
  have hex : ∃ i, i < (trianglePulse wSize h p).length ∧
      |(trianglePulse wSize h p).getD i 0| > 1 / 2 * |(h : ℚ)| := by
    refine ⟨p, by rw [hlen]; exact hpw, ?_⟩
    rw [trianglePulse_cross_iff wSize h p p hpw hh0]
    omega
  obtain ⟨kl, hkl, hkl1, hkl2, hkl3⟩ :=
    scanLow_first (1 / 2) (h : ℚ) (trianglePulse wSize h p) 0 hex
  rw [hlen] at hkl1
  have hklval : kl = p - (h - 1) / 2 := by
    have hc := (trianglePulse_cross_iff wSize h p kl hkl1 hh0).mp hkl2
    have hL : p - (h - 1) / 2 < wSize := by omega
    have hcL : |(trianglePulse wSize h p).getD (p - (h - 1) / 2) 0| > 1 / 2 * |(h : ℚ)| := by
      rw [trianglePulse_cross_iff wSize h p _ hL hh0]
      omega
    have hmin : ¬ (p - (h - 1) / 2 < kl) := fun hlt => hkl3 _ hlt hcL
    omega
  -- the backward scan
  have hrdin : ∀ j, j < wSize →
      rd oob (trianglePulse wSize h p) j = (trianglePulse wSize h p).getD j 0 := by
    intro j hj
    have hj2 : j < (trianglePulse wSize h p).length := by rw [hlen]; exact hj
    unfold rd
    rw [List.getD_eq_getElem _ _ hj2, List.getD_eq_getElem _ _ hj2]
  have hrdout : rd oob (trianglePulse wSize h p) wSize = oob wSize := by
    unfold rd
    exact List.getD_eq_default _ _ (by rw [hlen])
  have hH : p + (h - 1) / 2 < wSize := by omega
  have hcH : |rd oob (trianglePulse wSize h p) (p + (h - 1) / 2)| > 1 / 2 * |(h : ℚ)| := by
    rw [hrdin _ hH, trianglePulse_cross_iff wSize h p _ hH hh0]
    omega
  have hkh : scanHigh oob (1 / 2) (h : ℚ) (trianglePulse wSize h p) wSize
      = some (p + (h - 1) / 2) := by
    rcases scanHigh_spec oob (1 / 2) (h : ℚ) (trianglePulse wSize h p) wSize with
      ⟨k, hk, hk1, hk2, hk3, hk4⟩ | ⟨_, hnone⟩
    · have hkne : k ≠ wSize := by
        intro hkw
        rw [hkw, hrdout] at hk3
        exact hoob hk3
      have hklt : k < wSize := by omega
      rw [hrdin k hklt, trianglePulse_cross_iff wSize h p k hklt hh0] at hk3
      have hnot : ¬ (k < p + (h - 1) / 2) := fun hlt => hk4 _ hlt (by omega) hcH
      have : k = p + (h - 1) / 2 := by omega
      rw [hk, this]
    · exact absurd hcH (hnone _ (by omega) (by omega))
  have hscan : widthsScan (1 / 2) wSize baseLEnd oob s.1 (trianglePulse wSize h p)
      = ⟨((p - (h - 1) / 2 : ℕ) : ℤ), ((p + (h - 1) / 2 : ℕ) : ℤ)⟩ := by
    simp only [widthsScan, hadj, hmax, hkl, hkh, hklval]
    simp
  have hwidth : (((p + (h - 1) / 2 : ℕ) : ℤ) - ((p - (h - 1) / 2 : ℕ) : ℤ))
      = ((2 * ((h - 1) / 2) : ℕ) : ℤ) := by
    omega
  refine ⟨hscan, ?_, ?_⟩
  · simp only [widthsProcess, hscan, hwidth]
    have hv : widthValid wSize ((2 * ((h - 1) / 2) : ℕ) : ℤ) := by
      unfold widthValid
      constructor
      · exact_mod_cast hceil
      · have : 0 < 2 * ((h - 1) / 2) := by omega
        exact_mod_cast this
    rw [if_pos hv]
  · split_ifs with hpar <;> omega

/-- C25: on the triangular pulse of peak 3 at index 4 in a frame of 8
samples, `[0, 0, 1, 2, 3, 2, 1, 0]`, with `baseLEnd = 2` and threshold `1/2`,
the span between the first and the last sample above `3/2` is `h - 1 = 2`.
`Widths` writes 2 when the word past the frame, which its backward scan reads
first, holds 0, and writes 5 when that word holds 5. -/
theorem trianglePulse_width_depends_on_word_past_frame :
    trianglePulse 8 3 4 = [0, 0, 1, 2, 3, 2, 1, 0] ∧
    Widths (1 / 2) 8 2 (fun _ => 0) ⟨0, 0⟩ [0, 0, 1, 2, 3, 2, 1, 0, 9] = [2] ∧
    Widths (1 / 2) 8 2 (fun _ => 5) ⟨0, 0⟩ [0, 0, 1, 2, 3, 2, 1, 0, 9] = [5] ∧
    widthsScan (1 / 2) 8 2 (fun _ => 5) ⟨0, 0⟩ [0, 0, 1, 2, 3, 2, 1, 0] = ⟨3, 8⟩ ∧
    scanHighReads (fun _ => 5) (1 / 2) 3 [0, 0, 1, 2, 3, 2, 1, 0] 8 = [8] := by
  decide!

/-! ## The scans of Widths around the peak (claim C31) -/

/-- C31: in the frame body of `Widths`, for a threshold below 1 (in
particular `0 ≤ threshold < 1`), a frame of `wSize` samples whose
baseline-subtracted peak `maxModVal` is not zero, and an index `p ≥ 1` inside
the frame whose sample is that peak (in particular the first one, which is
the sample `maxModVal` returns), both scans break, at `lowTime ≤ p` and at
`highTime ≥ p`, whatever the word read past the frame holds; the width
`highTime - lowTime` is `≥ 0`. -/
theorem widths_scans_span_the_peak (threshold : ℚ) (wSize baseLEnd : ℕ) (oob : ℕ → ℚ)
    (st : ScanState) (wave : List ℚ) (p : ℕ)
    (hlen : wave.length = wSize) (ht1 : threshold < 1)
    (hpeak : maxModVal (widthsAdjusted oob baseLEnd wave) ≠ 0)
    (hp : p < wSize) (hp1 : 1 ≤ p)
    (hpv : (widthsAdjusted oob baseLEnd wave).getD p 0
      = maxModVal (widthsAdjusted oob baseLEnd wave)) :
    ∃ lowCrossIndex highCrossIndex : ℕ,
      scanLow threshold (maxModVal (widthsAdjusted oob baseLEnd wave))
          (widthsAdjusted oob baseLEnd wave) 0 = some lowCrossIndex ∧
      scanHigh oob threshold (maxModVal (widthsAdjusted oob baseLEnd wave))
          (widthsAdjusted oob baseLEnd wave) wSize = some highCrossIndex ∧
      widthsScan threshold wSize baseLEnd oob st wave
        = ⟨(lowCrossIndex : ℤ), (highCrossIndex : ℤ)⟩ ∧
      lowCrossIndex ≤ p ∧ p ≤ highCrossIndex ∧ highCrossIndex ≤ wSize ∧
      0 ≤ (widthsScan threshold wSize baseLEnd oob st wave).highTime
        - (widthsScan threshold wSize baseLEnd oob st wave).lowTime := by
  have hlenA : (widthsAdjusted oob baseLEnd wave).length = wSize := by
    simp [widthsAdjusted, subtractBasel, hlen]
  have hpos : 0 < |maxModVal (widthsAdjusted oob baseLEnd wave)| := abs_pos.mpr hpeak
  have hcross : |(widthsAdjusted oob baseLEnd wave).getD p 0|
      > threshold * |maxModVal (widthsAdjusted oob baseLEnd wave)| := by
    rw [hpv]
    nlinarith
  have hrd : rd oob (widthsAdjusted oob baseLEnd wave) p
      = (widthsAdjusted oob baseLEnd wave).getD p 0 := by
    unfold rd
    rw [List.getD_eq_getElem _ _ (by rw [hlenA]; exact hp),
      List.getD_eq_getElem _ _ (by rw [hlenA]; exact hp)]
  obtain ⟨kl, hkl, _, _, hmin⟩ :=
    scanLow_first threshold (maxModVal (widthsAdjusted oob baseLEnd wave))
      (widthsAdjusted oob baseLEnd wave) 0 ⟨p, by rw [hlenA]; exact hp, hcross⟩
  rw [Nat.zero_add] at hkl
  have hklp : kl ≤ p := by
    by_contra hnot
    exact hmin p (by omega) hcross
  rcases scanHigh_spec oob threshold (maxModVal (widthsAdjusted oob baseLEnd wave))
      (widthsAdjusted oob baseLEnd wave) wSize with ⟨kh, hkh, _, hkn, _, hmax⟩ | ⟨_, hall⟩
  · have hpkh : p ≤ kh := by
      by_contra hnot
      exact hmax p (by omega) (by omega) (by rw [hrd]; exact hcross)
    have hscan : widthsScan threshold wSize baseLEnd oob st wave
        = ⟨(kl : ℤ), (kh : ℤ)⟩ := by
      simp only [widthsScan, hkl, hkh]
    refine ⟨kl, kh, hkl, hkh, hscan, hklp, hpkh, hkn, ?_⟩
    rw [hscan]
    show (0 : ℤ) ≤ (kh : ℤ) - (kl : ℤ)
    omega
  · exact absurd (by rw [hrd]; exact hcross) (hall p hp1 (by omega))

/-- Witness of C31: the frame `0 1 2 3 1` with peak 3 at index 3. -/
theorem widths_scans_span_the_peak_witness :
    ∃ lowCrossIndex highCrossIndex : ℕ,
      scanLow (1 / 2) (maxModVal (widthsAdjusted (fun _ => 0) 1 [0, 1, 2, 3, 1]))
          (widthsAdjusted (fun _ => 0) 1 [0, 1, 2, 3, 1]) 0 = some lowCrossIndex ∧
      scanHigh (fun _ => 0) (1 / 2) (maxModVal (widthsAdjusted (fun _ => 0) 1 [0, 1, 2, 3, 1]))
          (widthsAdjusted (fun _ => 0) 1 [0, 1, 2, 3, 1]) 5 = some highCrossIndex ∧
      widthsScan (1 / 2) 5 1 (fun _ => 0) ⟨0, 0⟩ [0, 1, 2, 3, 1]
        = ⟨(lowCrossIndex : ℤ), (highCrossIndex : ℤ)⟩ ∧
      lowCrossIndex ≤ 3 ∧ 3 ≤ highCrossIndex ∧ highCrossIndex ≤ 5 ∧
      0 ≤ (widthsScan (1 / 2) 5 1 (fun _ => 0) ⟨0, 0⟩ [0, 1, 2, 3, 1]).highTime
        - (widthsScan (1 / 2) 5 1 (fun _ => 0) ⟨0, 0⟩ [0, 1, 2, 3, 1]).lowTime :=
  widths_scans_span_the_peak (1 / 2) 5 1 (fun _ => 0) ⟨0, 0⟩ [0, 1, 2, 3, 1] 3
    (by decide) (by norm_num) (by decide!) (by decide) (by decide) (by decide!)

/-! ## Offset and gain of the frame in Widths (claim C32) -/

/-- The comparison of `maxModVal` and of the scans is unchanged when both
sides are multiplied by a non-zero gain. -/
theorem abs_gain_lt_iff (k a b t : ℚ) (hk : k ≠ 0) :
    (|k * a| > t * |k * b|) ↔ (|a| > t * |b|) := by
  have hpos : 0 < |k| := abs_pos.mpr hk
  rw [abs_mul, abs_mul]
  constructor
  · intro h
    by_contra hnot
    have h2 : |a| ≤ t * |b| := not_lt.mp hnot
    nlinarith
  · intro h
    have h2 : t * |b| < |a| := h
    nlinarith

/-- The loop of `maxModVal` on a frame multiplied by a non-zero gain. -/
theorem maxModVal_loop_gain (k : ℚ) (hk : k ≠ 0) (l : List ℚ) : ∀ out : ℚ,
    (l.map (fun x => k * x)).foldl (fun output v => if |v| > |output| then v else output)
        (k * out)
      = k * l.foldl (fun output v => if |v| > |output| then v else output) out := by
  induction l with
  | nil => intro out; rfl
  | cons a l ih =>
    intro out
    simp only [List.map_cons, List.foldl_cons]
    have hiff : (|k * a| > |k * out|) ↔ (|a| > |out|) := by
      have h := abs_gain_lt_iff k a out 1 hk
      simpa using h
    by_cases h : |a| > |out|
    · rw [if_pos (hiff.mpr h), if_pos h]
      exact ih a
    · rw [if_neg (fun hh => h (hiff.mp hh)), if_neg h]
      exact ih out

/-- The peak of a frame multiplied by a non-zero gain is the peak multiplied
by the gain. -/
theorem maxModVal_gain (k : ℚ) (hk : k ≠ 0) (l : List ℚ) :
    maxModVal (l.map (fun x => k * x)) = k * maxModVal l := by
  cases l with
  | nil => simp [maxModVal]
  | cons a l =>
    have h := maxModVal_loop_gain k hk (a :: l) a
    simpa [maxModVal] using h

/-- The sum of samples after a gain and an offset. -/
theorem sum_map_gain_offset (k c : ℚ) (l : List ℚ) :
    (l.map (fun x => k * x + c)).sum = k * l.sum + (l.length : ℚ) * c := by
  induction l with
  | nil => simp
  | cons a l ih =>
    simp only [List.map_cons, List.sum_cons, List.length_cons]
    rw [ih]
    push_cast
    ring

/-- The baseline of `Widths` follows the gain and the offset of the frame
when its samples are inside the frame. -/
theorem baselSum_gain_offset (oob : ℕ → ℚ) (k c : ℚ) (baseLEnd : ℕ) (wave : List ℚ)
    (hb0 : 0 < baseLEnd) (hb : baseLEnd ≤ wave.length) :
    baselSum oob (wave.map (fun x => k * x + c)) baseLEnd
      = k * baselSum oob wave baseLEnd + c := by
  have hbq : (baseLEnd : ℚ) ≠ 0 := by
    have : (0 : ℚ) < (baseLEnd : ℚ) := by exact_mod_cast hb0
    exact ne_of_gt this
  unfold baselSum
  rw [baselSum_loop oob _ baseLEnd (by simpa using hb), baselSum_loop oob wave baseLEnd hb,
    ← List.map_take, sum_map_gain_offset]
  have hl : (wave.take baseLEnd).length = baseLEnd := by
    rw [List.length_take]
    omega
  rw [hl]
  field_simp
  ring

/-- The baseline-subtracted frame of `Widths` loses the offset and keeps the
gain. -/
theorem widthsAdjusted_gain_offset (oob : ℕ → ℚ) (k c : ℚ) (baseLEnd : ℕ) (wave : List ℚ)
    (hb0 : 0 < baseLEnd) (hb : baseLEnd ≤ wave.length) :
    widthsAdjusted oob baseLEnd (wave.map (fun x => k * x + c))
      = (widthsAdjusted oob baseLEnd wave).map (fun x => k * x) := by
  unfold widthsAdjusted subtractBasel
  rw [baselSum_gain_offset oob k c baseLEnd wave hb0 hb, List.map_map, List.map_map]
  apply List.map_congr_left
  intro x _
  simp only [Function.comp]
  ring

/-- The forward scan breaks at the same index after a non-zero gain. -/
theorem scanLow_gain (threshold k m : ℚ) (hk : k ≠ 0) (l : List ℚ) : ∀ i0 : ℕ,
    scanLow threshold (k * m) (l.map (fun x => k * x)) i0 = scanLow threshold m l i0 := by
  induction l with
  | nil => intro i0; rfl
  | cons a l ih =>
    intro i0
    simp only [List.map_cons, scanLow]
    by_cases h : |a| > threshold * |m|
    · rw [if_pos ((abs_gain_lt_iff k a m threshold hk).mpr h), if_pos h]
    · rw [if_neg (fun hh => h ((abs_gain_lt_iff k a m threshold hk).mp hh)), if_neg h]
      exact ih (i0 + 1)

/-- The backward scan entered at the length of the frame breaks at the same
index after a non-zero gain, provided the word past the frame, which the gain
does not touch, compares with both thresholds in the same way. -/
theorem scanHigh_gain (oob : ℕ → ℚ) (threshold k m : ℚ) (hk : k ≠ 0) (l : List ℚ)
    (hoob : (|oob l.length| > threshold * |k * m|) ↔ (|oob l.length| > threshold * |m|)) :
    ∀ n : ℕ, n ≤ l.length →
      scanHigh oob threshold (k * m) (l.map (fun x => k * x)) n
        = scanHigh oob threshold m l n := by
  intro n
  induction n with
  | zero => intro _; rfl
  | succ n ih =>
    intro hn
    have hiff : (|rd oob (l.map (fun x => k * x)) (n + 1)| > threshold * |k * m|)
        ↔ (|rd oob l (n + 1)| > threshold * |m|) := by
      by_cases hin : n + 1 < l.length
      · have h1 : rd oob (l.map (fun x => k * x)) (n + 1) = k * rd oob l (n + 1) := by
          unfold rd
          rw [List.getD_eq_getElem _ _ (by simpa using hin), List.getD_eq_getElem _ _ hin]
          simp
        rw [h1]
        exact abs_gain_lt_iff k _ m threshold hk
      · have he : n + 1 = l.length := by omega
        have h1 : rd oob (l.map (fun x => k * x)) (n + 1) = oob l.length := by
          unfold rd
          rw [List.getD_eq_default _ _ (by simp; omega), he]
        have h2 : rd oob l (n + 1) = oob l.length := by
          unfold rd
          rw [List.getD_eq_default _ _ (by omega), he]
        rw [h1, h2]
        exact hoob
    simp only [scanHigh]
    by_cases h : |rd oob l (n + 1)| > threshold * |m|
    · rw [if_pos (hiff.mpr h), if_pos h]
    · rw [if_neg (fun hh => h (hiff.mp hh)), if_neg h]
      exact ih (by omega)

/-- The scans and the record of `Widths` on a frame of `wSize` samples are
unchanged by an offset `c` and a non-zero gain `k` of its samples, with
`0 < baseLEnd ≤ wSize`, provided the word read past the frame at
`wave[wSize]`, which is neither shifted nor scaled, compares in the same way
with the threshold of the original frame and with that of the transformed
frame.  The proviso holds for every word when `|k| = 1`. -/
theorem widthsScan_gain_offset_when_word_past_frame_agrees (threshold : ℚ)
    (wSize baseLEnd : ℕ) (oob : ℕ → ℚ) (s : ScanState × List ℤ) (wave : List ℚ) (k c : ℚ)
    (hlen : wave.length = wSize) (hk : k ≠ 0) (hb0 : 0 < baseLEnd) (hb : baseLEnd ≤ wSize)
    (hoob : (|oob wSize| > threshold * |k * maxModVal (widthsAdjusted oob baseLEnd wave)|)
      ↔ (|oob wSize| > threshold * |maxModVal (widthsAdjusted oob baseLEnd wave)|)) :
    widthsScan threshold wSize baseLEnd oob s.1 (wave.map (fun x => k * x + c))
      = widthsScan threshold wSize baseLEnd oob s.1 wave ∧
    widthsProcess threshold wSize baseLEnd oob s (wave.map (fun x => k * x + c))
      = widthsProcess threshold wSize baseLEnd oob s wave := by
  have hlenA : (widthsAdjusted oob baseLEnd wave).length = wSize := by
    simp [widthsAdjusted, subtractBasel, hlen]
  have hscan : widthsScan threshold wSize baseLEnd oob s.1 (wave.map (fun x => k * x + c))
      = widthsScan threshold wSize baseLEnd oob s.1 wave := by
    unfold widthsScan
    simp only
    rw [widthsAdjusted_gain_offset oob k c baseLEnd wave hb0 (by omega),
      maxModVal_gain k hk, scanLow_gain threshold k _ hk,
      scanHigh_gain oob threshold k _ hk _ (by rw [hlenA]; exact hoob) wSize (by omega)]
  refine ⟨hscan, ?_⟩
  unfold widthsProcess
  simp only [hscan]

/-- The proviso on the word past the frame holds when the gain is `1` or
`-1`: an offset and a polarity inversion never change the scans. -/
theorem widthsScan_offset_and_inversion (threshold : ℚ)
    (wSize baseLEnd : ℕ) (oob : ℕ → ℚ) (s : ScanState × List ℤ) (wave : List ℚ) (k c : ℚ)
    (hlen : wave.length = wSize) (hk : |k| = 1) (hb0 : 0 < baseLEnd) (hb : baseLEnd ≤ wSize) :
    widthsProcess threshold wSize baseLEnd oob s (wave.map (fun x => k * x + c))
      = widthsProcess threshold wSize baseLEnd oob s wave := by
  have hk0 : k ≠ 0 := by
    intro h
    rw [h] at hk
    simp at hk
  refine (widthsScan_gain_offset_when_word_past_frame_agrees threshold wSize baseLEnd oob s
    wave k c hlen hk0 hb0 hb ?_).2
  rw [abs_mul, hk, one_mul]

/-- C32: the frame `0 1 2 3 1` (`wSize = 5`, `baseLEnd = 1`, threshold
`1/2`) and the same frame with gain 10 and offset 7, `7 17 27 37 17`, have
the same baseline-subtracted shape up to the gain, and the same forward
crossing 2.  With the word past the frame holding 5, the backward scan of the
first frame breaks at once at index 5 (5 exceeds `3/2`) and `Widths` writes 3;
on the second frame the same word does not exceed 15, the scan breaks at
index 3 and `Widths` writes 1.  When the word holds 0 both widths are 1. -/
theorem widths_gain_changes_width_through_word_past_frame :
    [7, 17, 27, 37, 17] = ([0, 1, 2, 3, 1] : List ℚ).map (fun x => 10 * x + 7) ∧
    widthsScan (1 / 2) 5 1 (fun _ => 5) ⟨0, 0⟩ [0, 1, 2, 3, 1] = ⟨2, 5⟩ ∧
    widthsScan (1 / 2) 5 1 (fun _ => 5) ⟨0, 0⟩ [7, 17, 27, 37, 17] = ⟨2, 3⟩ ∧
    Widths (1 / 2) 5 1 (fun _ => 5) ⟨0, 0⟩ [0, 1, 2, 3, 1, 9] = [3] ∧
    Widths (1 / 2) 5 1 (fun _ => 5) ⟨0, 0⟩ [7, 17, 27, 37, 17, 97] = [1] ∧
    Widths (1 / 2) 5 1 (fun _ => 0) ⟨0, 0⟩ [0, 1, 2, 3, 1, 9] = [1] ∧
    Widths (1 / 2) 5 1 (fun _ => 0) ⟨0, 0⟩ [7, 17, 27, 37, 17, 97] = [1] := by
  decide!

/-! ## Order of the risetime scans (claim C33) -/

/-- C33: in a frame whose baseline-subtracted samples sum to more than 0,
with `lowThresh ≤ highThresh < 1`, both scans of
`IntegralRisetimeVsAmplitude` break, at indices `lowTime ≤ highTime` of the
frame, so the risetime written lies between 0 and `wSize - 1`. -/
theorem risetime_scans_break_in_order (lowThresh highThresh : ℚ) (baseLEnd : ℕ)
    (oob : ℕ → ℚ) (s : ScanState × List (ℚ × ℤ)) (wave : List ℚ)
    (htot : 0 < risetimeTotalIntegral (baselineAdjustFrame oob baseLEnd wave))
    (hlh : lowThresh ≤ highThresh) (hh : highThresh < 1) :
    ∃ lowTime highTime : ℕ,
      scanAccumulate (lowThresh * risetimeTotalIntegral (baselineAdjustFrame oob baseLEnd wave)) (baselineAdjustFrame oob baseLEnd wave) 0 0 = some lowTime ∧
      scanAccumulate (highThresh * risetimeTotalIntegral (baselineAdjustFrame oob baseLEnd wave)) (baselineAdjustFrame oob baseLEnd wave) 0 0 = some highTime ∧
      risetimeScan lowThresh highThresh baseLEnd oob s.1 wave
        = ⟨(lowTime : ℤ), (highTime : ℤ)⟩ ∧
      lowTime ≤ highTime ∧ highTime < wave.length ∧
      (risetimeProcess lowThresh highThresh baseLEnd oob s wave).2
        = s.2 ++ [(maxModVal (baselineAdjustFrame oob baseLEnd wave), (highTime : ℤ) - (lowTime : ℤ))] ∧
      0 ≤ (highTime : ℤ) - (lowTime : ℤ) ∧
      (highTime : ℤ) - (lowTime : ℤ) ≤ (wave.length : ℤ) - 1 := by
  have hlenadj : (baselineAdjustFrame oob baseLEnd wave).length = wave.length := by
    simp [baselineAdjustFrame, subtractBasel]
  have htotal : risetimeTotalIntegral (baselineAdjustFrame oob baseLEnd wave) = (baselineAdjustFrame oob baseLEnd wave).sum := by
    unfold risetimeTotalIntegral
    rw [foldl_add_eq_sum]
    ring
  rw [htotal] at htot
  have hpos : 0 < (baselineAdjustFrame oob baseLEnd wave).length := by
    rcases Nat.eq_zero_or_pos (baselineAdjustFrame oob baseLEnd wave).length with h0 | h0
    · have hnil : (baselineAdjustFrame oob baseLEnd wave) = [] := List.length_eq_zero.mp h0
      rw [hnil] at htot
      simp at htot
    · exact h0
  have hhigh : highThresh * (baselineAdjustFrame oob baseLEnd wave).sum < (baselineAdjustFrame oob baseLEnd wave).sum := by nlinarith
  have hlow : lowThresh * (baselineAdjustFrame oob baseLEnd wave).sum ≤ highThresh * (baselineAdjustFrame oob baseLEnd wave).sum :=
    mul_le_mul_of_nonneg_right hlh (le_of_lt htot)
  have hlast : ((baselineAdjustFrame oob baseLEnd wave).take ((baselineAdjustFrame oob baseLEnd wave).length - 1 + 1)).sum = (baselineAdjustFrame oob baseLEnd wave).sum := by
    rw [Nat.sub_add_cancel hpos, List.take_length]
  obtain ⟨kl, hkl, hl1, hl2, hl3⟩ :=
    scanAccumulate_first (lowThresh * (baselineAdjustFrame oob baseLEnd wave).sum) (baselineAdjustFrame oob baseLEnd wave) 0 0
      ⟨(baselineAdjustFrame oob baseLEnd wave).length - 1, by omega, by rw [hlast]; linarith⟩
  obtain ⟨kh, hkh, hh1, hh2, hh3⟩ :=
    scanAccumulate_first (highThresh * (baselineAdjustFrame oob baseLEnd wave).sum) (baselineAdjustFrame oob baseLEnd wave) 0 0
      ⟨(baselineAdjustFrame oob baseLEnd wave).length - 1, by omega, by rw [hlast]; linarith⟩
  rw [Nat.zero_add] at hkl hkh
  have hord : kl ≤ kh := by
    by_contra hnot
    have hlt : kh < kl := by omega
    exact hl3 kh hlt (by linarith)
  have hscan : risetimeScan lowThresh highThresh baseLEnd oob s.1 wave
      = ⟨(kl : ℤ), (kh : ℤ)⟩ := by
    simp only [risetimeScan, htotal, hkl, hkh]
  refine ⟨kl, kh, by rw [htotal]; exact hkl, by rw [htotal]; exact hkh, hscan, hord,
    by omega, ?_, by omega, by omega⟩
  simp only [risetimeProcess, hscan]

/-- Witness of C33: the frame `[0, 1, 2, 3, 1]` with `baseLEnd = 1` and the
levels `1/10` and `9/10`; the record is `(3, 3)`. -/
theorem risetime_scans_break_in_order_witness :
    ((0 : ℚ) < risetimeTotalIntegral (baselineAdjustFrame (fun _ => 0) 1 [0, 1, 2, 3, 1]) ∧
      (1 / 10 : ℚ) ≤ 9 / 10 ∧ (9 / 10 : ℚ) < 1) ∧
    (risetimeProcess (1 / 10) (9 / 10) 1 (fun _ => 0) (⟨0, 0⟩, []) [0, 1, 2, 3, 1]).2
      = [(3, 3)] ∧
    ∃ lowTime highTime : ℕ,
      risetimeScan (1 / 10) (9 / 10) 1 (fun _ => 0) ⟨0, 0⟩ [0, 1, 2, 3, 1]
        = ⟨(lowTime : ℤ), (highTime : ℤ)⟩ ∧
      lowTime ≤ highTime ∧ highTime < ([0, 1, 2, 3, 1] : List ℚ).length := by
  refine ⟨⟨by decide!, by norm_num, by norm_num⟩, by decide!, ?_⟩
  obtain ⟨lo, hi, _, _, h3, h4, h5, _⟩ :=
    risetime_scans_break_in_order (1 / 10) (9 / 10) 1 (fun _ => 0)
      ((⟨0, 0⟩, []) : ScanState × List (ℚ × ℤ)) [0, 1, 2, 3, 1]
      (by decide!) (by norm_num) (by norm_num)
  exact ⟨lo, hi, h3, h4, h5⟩

/-! ## The two integrals and the boundary sample (claim C34) -/

/-- Of indexed samples, those with index below `p`, the one with index `p`
and those with index strictly between `p` and `t` are, for `p < t`, exactly
those with index below `t`. -/
theorem indexed_sum_split (p t : ℕ) (hpt : p < t) : ∀ L : List (ℕ × ℚ),
    ((L.filter (fun iw => decide (iw.1 < p))).map Prod.snd).sum
      + ((L.filter (fun iw => decide (iw.1 = p))).map Prod.snd).sum
      + ((L.filter (fun iw => decide (p < iw.1 ∧ iw.1 < t))).map Prod.snd).sum
      = ((L.filter (fun iw => decide (iw.1 < t))).map Prod.snd).sum := by
  intro L
  induction L with
  | nil => simp
  | cons iw L ih =>
    by_cases h1 : iw.1 < p
    · have d1 : decide (iw.1 < p) = true := decide_eq_true h1
      have d2 : decide (iw.1 = p) = false := decide_eq_false (by omega)
      have d3 : decide (p < iw.1 ∧ iw.1 < t) = false := decide_eq_false (fun h => by omega)
      have d4 : decide (iw.1 < t) = true := decide_eq_true (by omega)
      simp only [List.filter_cons, d1, d2, d3, d4, if_true, Bool.false_eq_true, if_false,
        List.map_cons, List.sum_cons]
      linarith
    · by_cases h2 : iw.1 = p
      · have d1 : decide (iw.1 < p) = false := decide_eq_false h1
        have d2 : decide (iw.1 = p) = true := decide_eq_true h2
        have d3 : decide (p < iw.1 ∧ iw.1 < t) = false := decide_eq_false (fun h => by omega)
        have d4 : decide (iw.1 < t) = true := decide_eq_true (by omega)
        simp only [List.filter_cons, d1, d2, d3, d4, if_true, Bool.false_eq_true, if_false,
          List.map_cons, List.sum_cons]
        linarith
      · by_cases h4 : iw.1 < t
        · have d1 : decide (iw.1 < p) = false := decide_eq_false h1
          have d2 : decide (iw.1 = p) = false := decide_eq_false h2
          have d3 : decide (p < iw.1 ∧ iw.1 < t) = true := decide_eq_true ⟨by omega, h4⟩
          have d4 : decide (iw.1 < t) = true := decide_eq_true h4
          simp only [List.filter_cons, d1, d2, d3, d4, if_true, Bool.false_eq_true, if_false,
            List.map_cons, List.sum_cons]
          linarith
        · have d1 : decide (iw.1 < p) = false := decide_eq_false h1
          have d2 : decide (iw.1 = p) = false := decide_eq_false h2
          have d3 : decide (p < iw.1 ∧ iw.1 < t) = false := decide_eq_false (fun h => h4 h.2)
          have d4 : decide (iw.1 < t) = false := decide_eq_false h4
          simp only [List.filter_cons, d1, d2, d3, d4, Bool.false_eq_true, if_false]
          exact ih

/-- The samples of `l`, indexed from `n`, whose index is below `t` are the
first `t - n` samples of `l`. -/
theorem indexed_sum_below (t : ℕ) : ∀ (l : List ℚ) (n : ℕ),
    (((l.enumFrom n).filter (fun iw => decide (iw.1 < t))).map Prod.snd).sum
      = (l.take (t - n)).sum := by
  intro l
  induction l with
  | nil => intro n; simp
  | cons x xs ih =>
    intro n
    simp only [List.enumFrom_cons, List.filter_cons]
    by_cases h : n < t
    · obtain ⟨m, hm⟩ : ∃ m, t - n = m + 1 := ⟨t - n - 1, by omega⟩
      have hm2 : t - (n + 1) = m := by omega
      simp only [h, decide_True, if_true, List.map_cons, List.sum_cons]
      rw [ih (n + 1), hm, hm2, List.take_succ_cons, List.sum_cons]
    · have h0 : t - n = 0 := by omega
      have h1 : t - (n + 1) = 0 := by omega
      simp only [h, decide_False, Bool.false_eq_true, if_false]
      rw [ih (n + 1), h0, h1]
      simp

/-- The sample of `l`, indexed from `n`, whose index is `p`. -/
theorem indexed_sum_at (p : ℕ) : ∀ (l : List ℚ) (n : ℕ),
    (((l.enumFrom n).filter (fun iw => decide (iw.1 = p))).map Prod.snd).sum
      = if n ≤ p then l.getD (p - n) 0 else 0 := by
  intro l
  induction l with
  | nil => intro n; simp
  | cons x xs ih =>
    intro n
    simp only [List.enumFrom_cons, List.filter_cons]
    by_cases h : n = p
    · have h1 : ¬ (n + 1 ≤ p) := by omega
      have h2 : n ≤ p := by omega
      have h3 : p - n = 0 := by omega
      simp only [h, decide_True, if_true, List.map_cons, List.sum_cons]
      rw [ih (p + 1)]
      simp
    · simp only [h, decide_False, Bool.false_eq_true, if_false]
      rw [ih (n + 1)]
      by_cases hlt : n < p
      · obtain ⟨m, hm⟩ : ∃ m, p - n = m + 1 := ⟨p - n - 1, by omega⟩
        have hm2 : p - (n + 1) = m := by omega
        rw [if_pos (by omega : n + 1 ≤ p), if_pos (by omega : n ≤ p), hm, hm2,
          List.getD_cons_succ]
      · rw [if_neg (by omega : ¬ (n + 1 ≤ p)), if_neg (by omega : ¬ (n ≤ p))]

/-- C34: for boundaries `peakXValue < tailEndXVal`, the two integrals of
`peakTailIntegrate` and the sample at `peakXValue`, which is in neither,
add up to the sum of the first `tailEndXVal` samples of the
baseline-subtracted frame. -/
theorem peak_boundary_tail_add_to_leading_sum (oob : ℕ → ℚ)
    (wSize baseLEnd peakXValue tailEndXVal : ℕ) (wave : List ℚ)
    (hlen : wave.length = wSize) (hpt : peakXValue < tailEndXVal)
    (htw : tailEndXVal ≤ wSize) :
    (peakTailFrame oob baseLEnd peakXValue tailEndXVal wave).1
        + (baselineAdjustFrame oob baseLEnd wave).getD peakXValue 0
        + (peakTailFrame oob baseLEnd peakXValue tailEndXVal wave).2
      = ((baselineAdjustFrame oob baseLEnd wave).take tailEndXVal).sum ∧
    ((baselineAdjustFrame oob baseLEnd wave).take tailEndXVal).sum
      = ∑ i in Finset.range tailEndXVal, (baselineAdjustFrame oob baseLEnd wave).getD i 0 := by
  have _h1 : tailEndXVal ≤ wave.length := by omega
  have hloop := peakTail_loop peakXValue tailEndXVal ((baselineAdjustFrame oob baseLEnd wave).enumFrom 0) (0, 0)
  have hsplit := indexed_sum_split peakXValue tailEndXVal hpt ((baselineAdjustFrame oob baseLEnd wave).enumFrom 0)
  have hbelow := indexed_sum_below tailEndXVal (baselineAdjustFrame oob baseLEnd wave) 0
  have hat := indexed_sum_at peakXValue (baselineAdjustFrame oob baseLEnd wave) 0
  simp only [Nat.sub_zero, Nat.zero_le, if_true] at hbelow hat
  constructor
  · unfold peakTailFrame peakTailSplit List.enum
    rw [hloop]
    simp only [zero_add]
    rw [← hbelow, ← hsplit, hat]
  · have hgen : ∀ (l : List ℚ) (n : ℕ), n ≤ l.length →
        (l.take n).sum = ∑ i in Finset.range n, l.getD i 0 := by
      intro l n
      induction n with
      | zero => intro _; simp
      | succ n ih =>
        intro hn
        have hn2 : n < l.length := by omega
        rw [List.sum_take_succ l n hn2, Finset.sum_range_succ, ih (by omega),
          List.getD_eq_getElem _ _ hn2]
    apply hgen
    simp [baselineAdjustFrame, subtractBasel]
    omega

/-- Witness of C34: the frame `[1, 2, 3, 4, 5]` with baseline over one
sample, boundaries 2 and 4. -/
theorem peak_boundary_tail_add_to_leading_sum_witness :
    (([1, 2, 3, 4, 5] : List ℚ).length = 5 ∧ 2 < 4 ∧ 4 ≤ 5) ∧
    (peakTailFrame (fun _ => 0) 1 2 4 [1, 2, 3, 4, 5]).1
        + (baselineAdjustFrame (fun _ => 0) 1 [1, 2, 3, 4, 5]).getD 2 0
        + (peakTailFrame (fun _ => 0) 1 2 4 [1, 2, 3, 4, 5]).2
      = ((baselineAdjustFrame (fun _ => 0) 1 [1, 2, 3, 4, 5]).take 4).sum :=
  ⟨⟨by decide, by decide, by decide⟩,
    (peak_boundary_tail_add_to_leading_sum (fun _ => 0) 5 1 2 4 [1, 2, 3, 4, 5]
      (by decide) (by decide) (by decide)).1⟩

/-! ## Bounds of the PGA value (claim C35) -/

/-- C35: for a frame of `wSize` samples and `sampleNo < wSize`, the PGA
value lies between 0 and twice the modulus of `maxModVal` of the
baseline-subtracted frame, and it is 0 exactly when the sample at `sampleNo`
equals the value `maxModVal` returns. -/
theorem PGA_value_bounds (oob : ℕ → ℚ) (sampleNo wSize baseLEnd : ℕ) (wave : List ℚ)
    (hlen : wave.length = wSize) (hs : sampleNo < wSize) :
    0 ≤ PGAFrame oob sampleNo baseLEnd wave ∧
    PGAFrame oob sampleNo baseLEnd wave ≤ 2 * |maxModVal (baselineAdjustFrame oob baseLEnd wave)| ∧
    (PGAFrame oob sampleNo baseLEnd wave = 0 ↔ (baselineAdjustFrame oob baseLEnd wave).getD sampleNo 0 = maxModVal (baselineAdjustFrame oob baseLEnd wave)) := by
  have hadj : sampleNo < (baselineAdjustFrame oob baseLEnd wave).length := by
    simp [baselineAdjustFrame, subtractBasel, hlen, hs]
  have hne : (baselineAdjustFrame oob baseLEnd wave) ≠ [] := by
    intro h0
    rw [h0] at hadj
    simp at hadj
  obtain ⟨_, _, _, hall, _⟩ := maxModVal_attained (baselineAdjustFrame oob baseLEnd wave) hne
  have hle := hall sampleNo hadj
  have hval : PGAFrame oob sampleNo baseLEnd wave
      = |(baselineAdjustFrame oob baseLEnd wave).getD sampleNo 0 - maxModVal (baselineAdjustFrame oob baseLEnd wave)| := by
    simp only [PGAFrame, rd]
    rw [List.getD_eq_getElem _ _ hadj, List.getD_eq_getElem _ _ hadj]
  rw [hval]
  refine ⟨abs_nonneg _, ?_, ?_⟩
  · have := abs_sub ((baselineAdjustFrame oob baseLEnd wave).getD sampleNo 0) (maxModVal (baselineAdjustFrame oob baseLEnd wave))
    linarith
  · rw [abs_eq_zero, sub_eq_zero]

/-- Witness of C35: the frame `[0, 1, 2, 3, 1]` with `baseLEnd = 1` and
`sampleNo = 1`. -/
theorem PGA_value_bounds_witness :
    (([0, 1, 2, 3, 1] : List ℚ).length = 5 ∧ 1 < 5) ∧
    (0 ≤ PGAFrame (fun _ => 0) 1 1 [0, 1, 2, 3, 1] ∧
    PGAFrame (fun _ => 0) 1 1 [0, 1, 2, 3, 1]
      ≤ 2 * |maxModVal (baselineAdjustFrame (fun _ => 0) 1 [0, 1, 2, 3, 1])| ∧
    (PGAFrame (fun _ => 0) 1 1 [0, 1, 2, 3, 1] = 0
      ↔ (baselineAdjustFrame (fun _ => 0) 1 [0, 1, 2, 3, 1]).getD 1 0
        = maxModVal (baselineAdjustFrame (fun _ => 0) 1 [0, 1, 2, 3, 1]))) :=
  ⟨⟨by decide, by decide⟩,
    PGA_value_bounds (fun _ => 0) 1 5 1 [0, 1, 2, 3, 1] (by decide) (by decide)⟩

/-! ## The range of the solid angle (claim C36) -/

/-- The detector width and half depth are positive for both orientations. -/
theorem detector_dimensions_pos (orientation : String) :
    0 < detectorWidth orientation ∧ 0 < detectorDepth orientation := by
  unfold detectorWidth detectorDepth DETZ DETY
  split_ifs <;> constructor <;> norm_num

/-- C36: for a recognised orientation and a source distance `d ≥ 0` the
solid angle of `WidthsDerivedEfficiencies` lies strictly between 0 and 2π;
with `S > 0` and `T > 0` the line appended has
`intrinsicEfficiency ≥ 2 * absoluteEfficiency`, strictly when the neutron
count is positive. -/
theorem solid_angle_between_zero_and_two_pi (out : List (ℝ × ℝ)) (orientation : String)
    (d S lowThreshold highThreshold T : ℚ) (vals : List ℚ)
    (horient : orientation = horizontal ∨ orientation = vertical)
    (hd : 0 ≤ d) (hS : 0 < S) (hT : 0 < T) :
    0 < solidAngle Real.sqrt Real.arctan orientation d ∧
    solidAngle Real.sqrt Real.arctan orientation d < 2 * Real.pi ∧
    ∃ absoluteEfficiency intrinsicEfficiency : ℝ,
      WidthsDerivedEfficiencies Real.sqrt Real.arctan Real.pi out orientation d S
          lowThreshold highThreshold T vals
        = (false, out ++ [(absoluteEfficiency, intrinsicEfficiency)]) ∧
      absoluteEfficiency
        = ((countNeutrons lowThreshold highThreshold vals : ℝ) / (T : ℝ)) / (S : ℝ) ∧
      intrinsicEfficiency
        = absoluteEfficiency * 4 * Real.pi / solidAngle Real.sqrt Real.arctan orientation d ∧
      2 * absoluteEfficiency ≤ intrinsicEfficiency ∧
      (0 < countNeutrons lowThreshold highThreshold vals →
        2 * absoluteEfficiency < intrinsicEfficiency) := by
  obtain ⟨hw, hdep⟩ := detector_dimensions_pos orientation
  have hwR : (0 : ℝ) < ((detectorWidth orientation * EJ426DETX : ℚ) : ℝ) := by
    have : (0 : ℚ) < detectorWidth orientation * EJ426DETX := by
      apply mul_pos hw
      unfold EJ426DETX
      norm_num
    exact_mod_cast this
  have htd : (0 : ℚ) < trueDistance orientation d := by
    unfold trueDistance
    linarith
  have htdR : (0 : ℝ) < ((trueDistance orientation d : ℚ) : ℝ) := by exact_mod_cast htd
  have hq : (0 : ℚ) < detectorWidth orientation * detectorWidth orientation / 4
      + EJ426DETX * EJ426DETX / 4
      + trueDistance orientation d * trueDistance orientation d := by
    have h1 : (0 : ℚ) < detectorWidth orientation * detectorWidth orientation / 4 := by
      positivity
    have h2 : (0 : ℚ) ≤ EJ426DETX * EJ426DETX / 4 := by
      unfold EJ426DETX
      norm_num
    have h3 : (0 : ℚ) < trueDistance orientation d * trueDistance orientation d := by
      positivity
    linarith
  have hsq : (0 : ℝ) < Real.sqrt ((detectorWidth orientation * detectorWidth orientation / 4
      + EJ426DETX * EJ426DETX / 4
      + trueDistance orientation d * trueDistance orientation d : ℚ) : ℝ) :=
    Real.sqrt_pos.mpr (by exact_mod_cast hq)
  have harg : (0 : ℝ) < ((detectorWidth orientation * EJ426DETX : ℚ) : ℝ)
      / (4 * ((trueDistance orientation d : ℚ) : ℝ)
        * Real.sqrt ((detectorWidth orientation * detectorWidth orientation / 4
            + EJ426DETX * EJ426DETX / 4
            + trueDistance orientation d * trueDistance orientation d : ℚ) : ℝ)) := by
    positivity
  have hat0 := Real.arctan_strictMono harg
  rw [Real.arctan_zero] at hat0
  have hat1 := Real.arctan_lt_pi_div_two
    (((detectorWidth orientation * EJ426DETX : ℚ) : ℝ)
      / (4 * ((trueDistance orientation d : ℚ) : ℝ)
        * Real.sqrt ((detectorWidth orientation * detectorWidth orientation / 4
            + EJ426DETX * EJ426DETX / 4
            + trueDistance orientation d * trueDistance orientation d : ℚ) : ℝ)))
  have hO0 : 0 < solidAngle Real.sqrt Real.arctan orientation d := by
    unfold solidAngle
    linarith
  have hO1 : solidAngle Real.sqrt Real.arctan orientation d < 2 * Real.pi := by
    unfold solidAngle
    linarith
  refine ⟨hO0, hO1, ?_⟩
  have hne : ¬ ((¬ (orientation = horizontal)) ∧ (¬ (orientation = vertical))) := by
    rcases horient with h | h
    · exact fun hh => hh.1 h
    · exact fun hh => hh.2 h
  have hSR : (0 : ℝ) < (S : ℝ) := by exact_mod_cast hS
  have hTR : (0 : ℝ) < (T : ℝ) := by exact_mod_cast hT
  have hcount : (0 : ℝ) ≤ (countNeutrons lowThreshold highThreshold vals : ℝ) :=
    Nat.cast_nonneg _
  have habs0 : (0 : ℝ)
      ≤ ((countNeutrons lowThreshold highThreshold vals : ℝ) / (T : ℝ)) / (S : ℝ) := by
    positivity
  have habs : (((widthDerivedNeutronRateVal lowThreshold highThreshold T vals / S : ℚ)) : ℝ)
      = ((countNeutrons lowThreshold highThreshold vals : ℝ) / (T : ℝ)) / (S : ℝ) := by
    unfold widthDerivedNeutronRateVal
    push_cast
    rfl
  have hfactor : (2 : ℝ) < 4 * Real.pi / solidAngle Real.sqrt Real.arctan orientation d := by
    rw [lt_div_iff₀ hO0]
    linarith
  refine ⟨((countNeutrons lowThreshold highThreshold vals : ℝ) / (T : ℝ)) / (S : ℝ),
    ((countNeutrons lowThreshold highThreshold vals : ℝ) / (T : ℝ)) / (S : ℝ) * 4 * Real.pi
      / solidAngle Real.sqrt Real.arctan orientation d, ?_, rfl, rfl, ?_, ?_⟩
  · unfold WidthsDerivedEfficiencies
    rw [if_neg hne]
    simp only [habs]
  · have : ((countNeutrons lowThreshold highThreshold vals : ℝ) / (T : ℝ)) / (S : ℝ) * 4
        * Real.pi / solidAngle Real.sqrt Real.arctan orientation d
        = ((countNeutrons lowThreshold highThreshold vals : ℝ) / (T : ℝ)) / (S : ℝ)
          * (4 * Real.pi / solidAngle Real.sqrt Real.arctan orientation d) := by ring
    rw [this]
    nlinarith
  · intro hposN
    have hposR : (0 : ℝ) < (countNeutrons lowThreshold highThreshold vals : ℝ) := by
      exact_mod_cast hposN
    have habspos : (0 : ℝ)
        < ((countNeutrons lowThreshold highThreshold vals : ℝ) / (T : ℝ)) / (S : ℝ) := by
      positivity
    have : ((countNeutrons lowThreshold highThreshold vals : ℝ) / (T : ℝ)) / (S : ℝ) * 4
        * Real.pi / solidAngle Real.sqrt Real.arctan orientation d
        = ((countNeutrons lowThreshold highThreshold vals : ℝ) / (T : ℝ)) / (S : ℝ)
          * (4 * Real.pi / solidAngle Real.sqrt Real.arctan orientation d) := by ring
    rw [this]
    nlinarith

/-- Witness of C36: horizontal detector one metre from a source of activity
273800, a run of 3600 seconds and the widths `5 6 4` with cuts 5 and 50. -/
theorem solid_angle_between_zero_and_two_pi_witness :
    ((horizontal = horizontal ∨ horizontal = vertical) ∧ (0 : ℚ) ≤ 1 ∧ (0 : ℚ) < 273800
      ∧ (0 : ℚ) < 3600) ∧
    0 < solidAngle Real.sqrt Real.arctan horizontal 1 ∧
    solidAngle Real.sqrt Real.arctan horizontal 1 < 2 * Real.pi :=
  ⟨⟨Or.inl rfl, by norm_num, by norm_num, by norm_num⟩,
    (solid_angle_between_zero_and_two_pi [] horizontal 1 273800 5 50 3600 [5, 6, 4]
      (Or.inl rfl) (by norm_num) (by norm_num) (by norm_num)).1,
    (solid_angle_between_zero_and_two_pi [] horizontal 1 273800 5 50 3600 [5, 6, 4]
      (Or.inl rfl) (by norm_num) (by norm_num) (by norm_num)).2.1⟩

/-! ## The range of the int products (claim C37) -/

/-- An `int` expression has its exact value exactly when that value is in
the 32-bit range. -/
theorem wrapInt32_eq_iff (z : ℤ) : wrapInt32 z = z ↔ inInt32 z := by
  unfold wrapInt32 inInt32
  constructor
  · intro h
    omega
  · intro h
    omega

/-- The square of a count is in the 32-bit range exactly up to 46340. -/
theorem sq_inInt32_iff (N : ℕ) : inInt32 ((N : ℤ) * (N : ℤ)) ↔ N ≤ 46340 := by
  unfold inInt32
  constructor
  · intro h
    by_contra hnot
    have h1 : 46341 ≤ N := by omega
    have h2 : 46341 * 46341 ≤ N * N := Nat.mul_le_mul h1 h1
    have h3 : ((46341 * 46341 : ℕ) : ℤ) ≤ ((N * N : ℕ) : ℤ) := by exact_mod_cast h2
    push_cast at h3
    omega
  · intro h
    have h2 : N * N ≤ 46340 * 46340 := Nat.mul_le_mul h h
    have h3 : ((N * N : ℕ) : ℤ) ≤ ((46340 * 46340 : ℕ) : ℤ) := by exact_mod_cast h2
    have h4 : (0 : ℤ) ≤ ((N * N : ℕ) : ℤ) := Int.natCast_nonneg _
    push_cast at h3 h4
    omega

/-- C37: the three `int` products of `printWidthsDerivedQuantities`
(`numNeutrons*numNeutrons`, `numNeutrons*3600`, `numRejections*3600`) are all
in the signed 32-bit range exactly when `numNeutrons ≤ 46340` and
`numRejections ≤ 596523`.  Within those limits the products have their exact
values, the argument of `sqrt` in `fluxError` is the exact
`N/(A*T)^2 + N^2*DETAREAERROR^2/((A*T)^2*A^2) + N^2*TIMEERR^2/((A*T)^2*T^2)`
with `A = 255`, and the rates per hour are `N*3600/T`.  For 46341 neutrons
the square 2147488281 exceeds `2^31 - 1`. -/
theorem int_products_in_range_iff (numNeutrons numRejections : ℕ) (time : ℚ) :
    ((inInt32 ((numNeutrons : ℤ) * (numNeutrons : ℤ)) ∧
        inInt32 ((numNeutrons : ℤ) * 3600) ∧ inInt32 ((numRejections : ℤ) * 3600))
      ↔ (numNeutrons ≤ 46340 ∧ numRejections ≤ 596523)) ∧
    ((numNeutrons ≤ 46340 ∧ numRejections ≤ 596523) →
      (wrapInt32 ((numNeutrons : ℤ) * (numNeutrons : ℤ))
          = (numNeutrons : ℤ) * (numNeutrons : ℤ) ∧
        wrapInt32 ((numNeutrons : ℤ) * 3600) = (numNeutrons : ℤ) * 3600 ∧
        wrapInt32 ((numRejections : ℤ) * 3600) = (numRejections : ℤ) * 3600 ∧
        fluxErrorArg numNeutrons time
          = (numNeutrons : ℚ) / ((255 * time) * (255 * time))
            + (numNeutrons : ℚ) * (numNeutrons : ℚ) * DETAREAERROR * DETAREAERROR
                / ((255 * time) * (255 * time) * 255 * 255)
            + (numNeutrons : ℚ) * (numNeutrons : ℚ) * TIMEERR * TIMEERR
                / ((255 * time) * (255 * time) * time * time) ∧
        neutRateHr numNeutrons time = (numNeutrons : ℚ) * 3600 / time ∧
        nonNeutRateHr numRejections time = (numRejections : ℚ) * 3600 / time)) ∧
    ((46341 : ℤ) * 46341 = 2147488281 ∧ (2147488281 : ℤ) > 2 ^ 31 - 1 ∧
      ¬ inInt32 ((46341 : ℤ) * 46341) ∧
      wrapInt32 ((46341 : ℤ) * 46341) = -2147479015) := by
  have hsq := sq_inInt32_iff numNeutrons
  refine ⟨?_, ?_, ⟨by norm_num, by norm_num, by decide, by decide⟩⟩
  · constructor
    · intro h
      obtain ⟨h1, _, h3⟩ := h
      refine ⟨hsq.mp h1, ?_⟩
      unfold inInt32 at h3
      omega
    · intro h
      obtain ⟨h1, h2⟩ := h
      refine ⟨hsq.mpr h1, ?_, ?_⟩
      · unfold inInt32
        omega
      · unfold inInt32
        omega
  · intro h
    obtain ⟨h1, h2⟩ := h
    have e1 : wrapInt32 ((numNeutrons : ℤ) * (numNeutrons : ℤ))
        = (numNeutrons : ℤ) * (numNeutrons : ℤ) := (wrapInt32_eq_iff _).mpr (hsq.mpr h1)
    have e2 : wrapInt32 ((numNeutrons : ℤ) * 3600) = (numNeutrons : ℤ) * 3600 := by
      apply (wrapInt32_eq_iff _).mpr
      unfold inInt32
      omega
    have e3 : wrapInt32 ((numRejections : ℤ) * 3600) = (numRejections : ℤ) * 3600 := by
      apply (wrapInt32_eq_iff _).mpr
      unfold inInt32
      omega
    refine ⟨e1, e2, e3, ?_, ?_, ?_⟩
    · unfold fluxErrorArg fluxErrorArgWith
      rw [e1]
      have hA : EJ426DETY * EJ426DETX = 255 := by
        unfold EJ426DETY EJ426DETX
        norm_num
      simp only [hA]
      push_cast
      rfl
    · unfold neutRateHr
      rw [e2]
      push_cast
      rfl
    · unfold nonNeutRateHr
      rw [e3]
      push_cast
      rfl

/-- Witness of C37 at 100 neutrons, 200 rejections and 3600 seconds. -/
theorem int_products_in_range_iff_witness :
    ((100 : ℕ) ≤ 46340 ∧ (200 : ℕ) ≤ 596523) ∧
    neutRateHr 100 3600 = ((100 : ℕ) : ℚ) * 3600 / 3600 ∧
    nonNeutRateHr 200 3600 = ((200 : ℕ) : ℚ) * 3600 / 3600 :=
  ⟨⟨by decide, by decide⟩,
    ((int_products_in_range_iff 100 200 3600).2.1 ⟨by decide, by decide⟩).2.2.2.2.1,
    ((int_products_in_range_iff 100 200 3600).2.1 ⟨by decide, by decide⟩).2.2.2.2.2⟩

end PSD
